import Mathlib

/-!
# scull: a shallow embedding of `Basic/code/main.c`

The file embeds the storage engine of the scull character device
(`scull_follow`, `scull_open`, `scull_read`, `scull_write`, `scull_trim`) and
proves properties of it.

Conventions of the embedding.

* A quantum is a list of cells.  `kmalloc` does not clear memory, so a cell
  that was never stored to holds `none`; a stored byte `b` is `some b`.
* The chain of `struct scull_qset` nodes hanging off `dev->data` is a list;
  a pointer into the chain is a position in that list, `NULL` is `none`.
* `*f_pos`, `count` and `dev->size` are natural numbers: the kernel hands
  over a position that is not negative, and `*f_pos + count` does not overflow.
  `dev->quantum` and `dev->qset` are natural numbers too: the code stores
  no negative value in them.
  The locals `item`, `rest`, `s_pos`, `q_pos` and `itemsize` are C `int`s of 32
  bits: the narrowing of the 64-bit quotient `*f_pos / itemsize` to `int` is
  made explicit by `wrap_int`, that of the product `quantum * qset` by `to_int`.
* The kernel is built with wrapping signed arithmetic
  (`-fno-strict-overflow`): `quantum * qset` and `n--` wrap to 32 bits.
* An operation returns `none` where the C code has no defined behaviour:
  a division by zero, an access outside an allocation.
* What the environment decides is an argument: whether the wait for the
  semaphore is interrupted, how many `kmalloc` requests succeed, and how much
  of the user buffer can be accessed.
* The header `scull.h` is not among the sources.  The defaults it defines,
  `SCULL_QUANTUM` and `SCULL_QSET`, are parameters (`scull_globals`).
* A call runs from its `down` to its `up` as one step; a sequence of calls
  (`run`) is one call after the other, each with its own position.
-/

namespace Scull

/-! ## Data model -/

/-- A quantum buffer: `none` is a cell that was never stored to. -/
abbrev quantum_buf := List (Option UInt8)

/-- The node `struct scull_qset`: `data` is `NULL` or the array of quantum
pointers; the `next` pointer is the tail of the list the node sits in. -/
structure scull_qset where
  data : Option (List (Option quantum_buf))
deriving DecidableEq

/-- The device `struct scull_dev` (the fields the storage engine uses): the
head of the chain, the sizes of a quantum and of a pointer array, the amount of
data stored, and the count of the semaphore `sem` (1 when free; one `down`
takes 1 off, one `up` adds 1). -/
structure scull_dev where
  data : List scull_qset
  quantum : Nat
  qset : Nat
  size : Nat
  sem : Int
deriving DecidableEq

/-- The module-wide defaults `scull_quantum` and `scull_qset`. -/
structure scull_globals where
  scull_quantum : Nat
  scull_qset : Nat
deriving DecidableEq

/-- What the kernel decides during one call: `signal` says that
`down_interruptible` was interrupted, `mem` is the number of `kmalloc`
requests that succeed before one fails. -/
structure kernel_env where
  signal : Bool
  mem : Nat
deriving DecidableEq

/-- The kernel's error numbers that the code returns negated. -/
def ERESTARTSYS : Int := 512

def ENOMEM : Int := 12

def EFAULT : Int := 14

/-- Conversion of a non-negative value to a 32-bit `int` (two's complement). -/
def to_int (x : Nat) : Int :=
  if x % 2 ^ 32 < 2 ^ 31 then ((x % 2 ^ 32 : Nat) : Int)
  else ((x % 2 ^ 32 : Nat) : Int) - 2 ^ 32

/-- Conversion of a 64-bit value to a 32-bit `int`: the low 32 bits, read as
two's complement. -/
def wrap_int (x : Int) : Int := to_int (x % 2 ^ 32).toNat

/-- The translation of a position, as both `scull_read` and `scull_write`
compute it: `item = *f_pos / itemsize; rest = *f_pos % itemsize;
s_pos = rest / quantum; q_pos = rest % quantum;` with `int itemsize =
quantum * qset`.  The result is `(item, s_pos, q_pos)`.  The product wraps to
32 bits; there is no result when `itemsize` is 0 (division by zero).  Quotient
and remainder are taken in 64 bits, rounded towards zero as C does, and
narrowed to `int`.  The remainder of the non-negative `*f_pos` is not negative
and its size is below that of `itemsize`, so `rest`, `s_pos` and `q_pos` are
natural numbers that fit an `int`. -/
def locate (quantum qset f_pos : Nat) : Option (Int × Nat × Nat) :=
  -- int itemsize = quantum * qset;
  let itemsize := to_int (quantum * qset)
  if itemsize = 0 then none
  else
    -- item = *f_pos / itemsize;
    let item := wrap_int ((f_pos : Int).tdiv itemsize)
    -- rest = *f_pos % itemsize;
    let rest := (wrap_int ((f_pos : Int).tmod itemsize)).toNat
    -- s_pos = rest / quantum; q_pos = rest % quantum;
    let s_pos := rest / quantum
    let q_pos := rest % quantum
    some (item, s_pos, q_pos)

/-- The semaphore operation `down_interruptible`, once it was not interrupted. -/
def down (dev : scull_dev) : scull_dev := { dev with sem := dev.sem - 1 }

/-- The semaphore operation `up`. -/
def up (dev : scull_dev) : scull_dev := { dev with sem := dev.sem + 1 }

/-- One `kmalloc` request against the budget `mem`: `none` when the request
fails (`NULL`), otherwise the budget that is left. -/
def kmalloc (mem : Nat) : Option Nat :=
  if mem = 0 then none else some (mem - 1)

/-! ## scull_follow -/

/-- The result of `scull_follow`: the device after the call, the returned
pointer (a position in the chain, or `none` for `NULL`) and the allocation
budget left. -/
structure follow_result where
  dev : scull_dev
  qs : Option Nat
  mem : Nat
deriving DecidableEq

/-- The loop `while(n--)` of `scull_follow`: `steps` iterations are left, `qs`
is at position `i` of `chain`. -/
def follow_loop : Nat → Nat → List scull_qset → Nat → List scull_qset × Option Nat × Nat
  | 0, i, chain, mem => (chain, some i, mem)
  | steps + 1, i, chain, mem =>
    if i + 1 < chain.length then follow_loop steps (i + 1) chain mem
    else
      match kmalloc mem with
      | none => (chain, none, mem)
      | some mem => follow_loop steps (i + 1) (chain ++ [⟨none⟩]) mem

/-- The number of rounds of `while(n--)`: `n` for `n >= 0`; a negative `n`
counts down to `INT_MIN`, wraps to `INT_MAX` and goes on down to 0, which are
`n + 2^32` rounds. -/
def follow_index (n : Int) : Nat := if 0 ≤ n then n.toNat else (n + 2 ^ 32).toNat

/-- The node, the slot and the cell that a call at `f_pos` addresses: the
translation `locate`, with the node that `scull_follow` walks to for `item`. -/
def target (quantum qset f_pos : Nat) : Option (Nat × Nat × Nat) :=
  match locate quantum qset f_pos with
  | none => none
  | some (item, s_pos, q_pos) => some (follow_index item, s_pos, q_pos)

/-- Embedding of `scull_follow(dev, n)`: the first node is allocated when the
chain is empty, then the loop walks on for as many nodes as `while(n--)` has
rounds, allocating the missing ones; it returns `NULL` as soon as an
allocation fails. -/
def scull_follow (dev : scull_dev) (n : Int) (mem : Nat) : Option follow_result :=
  let go (chain : List scull_qset) (mem : Nat) : Option follow_result :=
    match follow_loop (follow_index n) 0 chain mem with
    | (chain, qs, mem) => some ⟨{ dev with data := chain }, qs, mem⟩
  match dev.data with
  | [] =>
    match kmalloc mem with
    | none => some ⟨dev, none, mem⟩
    | some mem => go [⟨none⟩] mem
  | q :: next => go (q :: next) mem

/-! ## scull_read -/

/-- The result of `scull_read`: the return value, the device and `*f_pos`
after the call, and the bytes stored into the user buffer. -/
structure read_result where
  retval : Int
  dev : scull_dev
  f_pos : Nat
  buf : List (Option UInt8)
deriving DecidableEq

/-- Embedding of `scull_read(filp, buf, count, f_pos)`; `room` is the number of
writable bytes at `buf`. -/
def scull_read (dev : scull_dev) (env : kernel_env) (room count f_pos : Nat) :
    Option read_result :=
  let quantum := dev.quantum
  let qset := dev.qset
  -- if(down_interruptible(&dev->sem)) return -ERESTARTSYS;
  if env.signal then some ⟨-ERESTARTSYS, dev, f_pos, []⟩
  else
    let dev := down dev
    -- if(*f_pos >= dev->size) goto out;
    if f_pos ≥ dev.size then some ⟨0, up dev, f_pos, []⟩
    else
      -- if(*f_pos + count > dev->size) count = dev->size - *f_pos;
      let count := if f_pos + count > dev.size then dev.size - f_pos else count
      match locate quantum qset f_pos with
      | none => none
      | some (item, s_pos, q_pos) =>
        -- dptr = scull_follow(dev, item);
        match scull_follow dev item env.mem with
        | none => none
        -- if(dptr == NULL || !dptr->data || !dptr->data[s_pos]) goto out;
        | some ⟨dev, none, _⟩ => some ⟨0, up dev, f_pos, []⟩
        | some ⟨dev, some i, _⟩ =>
          match dev.data[i]? with
          | none => none
          | some ⟨none⟩ => some ⟨0, up dev, f_pos, []⟩
          | some ⟨some slots⟩ =>
            match slots[s_pos]? with
            | none => none
            | some none => some ⟨0, up dev, f_pos, []⟩
            | some (some page) =>
              -- if(count > quantum - q_pos) count = quantum - q_pos;
              let count := if count > quantum - q_pos then quantum - q_pos else count
              if page.length < q_pos + count then none
              -- if(copy_to_user(buf, dptr->data[s_pos]+q_pos, count)) retval = -EFAULT
              else if room < count then
                some ⟨-EFAULT, up dev, f_pos, (page.drop q_pos).take room⟩
              else
                -- *f_pos += count; retval = count;
                some ⟨count, up dev, f_pos + count, (page.drop q_pos).take count⟩

/-! ## scull_write -/

/-- The result of `scull_write`: the return value, the device and `*f_pos`
after the call. -/
structure write_result where
  retval : Int
  dev : scull_dev
  f_pos : Nat
deriving DecidableEq

/-- The store of `bytes` into `page` from position `q_pos` on. -/
def store_bytes (page : quantum_buf) (q_pos : Nat) (bytes : List UInt8) : quantum_buf :=
  page.take q_pos ++ bytes.map some ++ page.drop (q_pos + bytes.length)

/-- The kernel's `copy_from_user(to, from, n)` with `buf` the readable bytes at
`from`: the bytes that cannot be read are replaced by zero bytes. -/
def copy_from_user (buf : List UInt8) (n : Nat) : List UInt8 :=
  buf.take n ++ List.replicate (n - buf.length) 0

/-- Embedding of `scull_write(filp, buf, count, f_pos)`; `buf` holds the
readable bytes at the user address. -/
def scull_write (dev : scull_dev) (env : kernel_env) (buf : List UInt8) (count f_pos : Nat) :
    Option write_result :=
  let quantum := dev.quantum
  let qset := dev.qset
  -- if(down_interruptible(&dev->sem)) return -ERESTARTSYS;
  if env.signal then some ⟨-ERESTARTSYS, dev, f_pos⟩
  else
    let dev := down dev
    match locate quantum qset f_pos with
    | none => none
    | some (item, s_pos, q_pos) =>
      -- dptr = scull_follow(dev, item); if(!dptr) goto out;   (retval is -ENOMEM)
      match scull_follow dev item env.mem with
      | none => none
      | some ⟨dev, none, _⟩ => some ⟨-ENOMEM, up dev, f_pos⟩
      | some ⟨dev, some i, mem⟩ =>
        match dev.data[i]? with
        | none => none
        | some dptr =>
          -- if(!dptr->data): the array of qset quantum pointers, cleared
          let slots_mem : Option (List (Option quantum_buf) × Nat) :=
            match dptr.data with
            | some slots => some (slots, mem)
            | none => (kmalloc mem).map fun mem => (List.replicate qset none, mem)
          match slots_mem with
          | none => some ⟨-ENOMEM, up dev, f_pos⟩
          | some (slots, mem) =>
            let dev := { dev with data := dev.data.set i ⟨some slots⟩ }
            match slots[s_pos]? with
            | none => none
            | some slot =>
              -- if(!dptr->data[s_pos]): one quantum, not cleared
              let page_mem : Option quantum_buf :=
                match slot with
                | some page => some page
                | none => (kmalloc mem).map fun _ => List.replicate quantum none
              match page_mem with
              | none => some ⟨-ENOMEM, up dev, f_pos⟩
              | some page =>
                -- if(count > quantum - q_pos) count = quantum - q_pos;
                let count := if count > quantum - q_pos then quantum - q_pos else count
                if page.length < q_pos + count then none
                else
                  -- if(copy_from_user(dptr->data[s_pos] + q_pos, buf, count)) retval = -EFAULT
                  let page := store_bytes page q_pos (copy_from_user buf count)
                  let dev := { dev with data := dev.data.set i ⟨some (slots.set s_pos (some page))⟩ }
                  if buf.length < count then some ⟨-EFAULT, up dev, f_pos⟩
                  else
                    -- *f_pos += count; retval = count;
                    let f_pos := f_pos + count
                    -- if(dev->size < *f_pos) dev->size = *f_pos;
                    let dev := if dev.size < f_pos then { dev with size := f_pos } else dev
                    some ⟨count, up dev, f_pos⟩

/-- The pointer array `scull_write` works on: the one of the node `dptr`, or
a fresh cleared one of `dev->qset` entries. -/
def write_slots (dev : scull_dev) (dptr : scull_qset) : List (Option quantum_buf) :=
  match dptr.data with
  | some slots => slots
  | none => List.replicate dev.qset none

/-- The quantum `scull_write` stores into: the one in the slot, or a fresh one
of `dev->quantum` cells. -/
def write_page (dev : scull_dev) (slot : Option quantum_buf) : quantum_buf :=
  match slot with
  | some page => page
  | none => List.replicate dev.quantum none

/-- The quantum at slot `s_pos` of node `i` of a chain, when the node, its
pointer array and the quantum are all there. -/
def chain_page (chain : List scull_qset) (i s_pos : Nat) : Option quantum_buf :=
  match chain[i]? with
  | some ⟨some slots⟩ =>
    match slots[s_pos]? with
    | some (some page) => some page
    | _ => none
  | _ => none

/-- The quantum at slot `s_pos` of node `i` of the device, if present. -/
def page_at (dev : scull_dev) (i s_pos : Nat) : Option quantum_buf :=
  chain_page dev.data i s_pos

/-- The number of nodes `scull_follow(dev, k)` has to allocate. -/
def follow_need (dev : scull_dev) (k : Nat) : Nat := k + 1 - dev.data.length

/-! ## scull_trim and initialisation -/

/-- Embedding of `scull_trim(dev)`, which always returns 0: the loop hands
every quantum, every pointer array and every node of the chain to `kfree`, then
the device is rebuilt empty with the current defaults.  Memory that was
released is not part of the state, so all that is left of the loop is that the
chain is gone, which `dev->data = NULL` says. -/
def scull_trim (g : scull_globals) (dev : scull_dev) : scull_dev :=
  { dev with size := 0, quantum := g.scull_quantum, qset := g.scull_qset, data := [] }

/-- One device as `scull_init_module` sets it up: cleared by `memset`, the
defaults copied in, the semaphore initialised to 1. -/
def scull_init (g : scull_globals) : scull_dev :=
  { data := [], quantum := g.scull_quantum, qset := g.scull_qset, size := 0, sem := 1 }

/-! ## scull_open -/

/-- The access-mode mask `O_ACCMODE` of `linux/fcntl.h`. -/
def O_ACCMODE : Nat := 3

/-- The access mode `O_WRONLY` of `linux/fcntl.h` (`O_RDONLY` is 0 and `O_RDWR`
is 2). -/
def O_WRONLY : Nat := 1

/-- What `scull_open` hands back: the return value and the device. -/
structure open_result where
  retval : Int
  dev : scull_dev
deriving DecidableEq

/-- Embedding of `scull_open(inode, filp)` for the device `dev` that
`container_of` finds, where `f_flags` is `filp->f_flags`.  Storing `dev` in
`filp->private_data` leaves the device as it is. -/
def scull_open (g : scull_globals) (dev : scull_dev) (env : kernel_env) (f_flags : Nat) :
    open_result :=
  -- if((filp->f_flags & O_ACCMODE) == O_WRONLY)
  if f_flags &&& O_ACCMODE = O_WRONLY then
    -- if(down_interruptible(&dev->sem)) return -ERESTARTSYS;
    if env.signal then ⟨-ERESTARTSYS, dev⟩
    else
      -- scull_trim(dev); up(&dev->sem);
      ⟨0, up (scull_trim g (down dev))⟩
  else
    -- return 0;
    ⟨0, dev⟩

/-! ## Shape of the store and its content -/

/-- A quantum pointer is `NULL` or points to `quantum` cells. -/
def page_ok (quantum : Nat) : Option quantum_buf → Bool
  | none => true
  | some page => page.length == quantum

/-- A node has no pointer array, or one of `qset` pointers that are all fine. -/
def node_ok (quantum qset : Nat) (q : scull_qset) : Bool :=
  match q.data with
  | none => true
  | some slots => slots.length == qset && slots.all (page_ok quantum)

/-- The shape `scull_write` builds and relies on: every pointer array has
`dev->qset` entries and every quantum has `dev->quantum` cells. -/
def well_formed (dev : scull_dev) : Bool :=
  dev.data.all (node_ok dev.quantum dev.qset)

/-- The cell `q_pos` of the quantum at slot `s_pos` of node `i`: the byte
stored there, if the quantum is present and the cell was stored to. -/
def cell_at (dev : scull_dev) (i s_pos q_pos : Nat) : Option UInt8 :=
  match page_at dev i s_pos with
  | some page => page[q_pos]?.join
  | none => none

/-- The byte stored at position `o` of the device, if any. -/
def peek (dev : scull_dev) (o : Nat) : Option UInt8 :=
  cell_at dev (o / (dev.quantum * dev.qset)) (o % (dev.quantum * dev.qset) / dev.quantum)
    (o % (dev.quantum * dev.qset) % dev.quantum)

/-- The device holds the first `p` bytes of `d` and nothing beyond: its size
is `p`, its shape is fine, and every position below `p` holds its byte. -/
def holds (dev : scull_dev) (d : List UInt8) (p : Nat) : Prop :=
  dev.size = p ∧ well_formed dev = true ∧ ∀ o, o < p → peek dev o = d[o]?

/-! ## A caller that loops -/

/-- A caller that writes all of `buf` from `f_pos` on: it issues `scull_write`
with what is left, at the position the last call advanced to, until every byte
was accepted.  It gives up (`none`) on an error, or when `fuel` calls did not
suffice. -/
def write_all (env : kernel_env) : Nat → scull_dev → List UInt8 → Nat → Option (scull_dev × Nat)
  | 0, dev, buf, f_pos => if buf.length = 0 then some (dev, f_pos) else none
  | fuel + 1, dev, buf, f_pos =>
    if buf.length = 0 then some (dev, f_pos)
    else
      match scull_write dev env buf buf.length f_pos with
      | none => none
      | some r =>
        if 0 < r.retval then write_all env fuel r.dev (buf.drop r.retval.toNat) r.f_pos
        else none

/-- A caller that reads `count` bytes from `f_pos` on: it issues `scull_read`
for what is missing, at the position the last call advanced to, and stops when
it has `count` bytes or a call returns no byte.  The result is the device, the
position and the bytes read.  It gives up (`none`) when `fuel` calls did not
suffice. -/
def read_all (env : kernel_env) :
    Nat → scull_dev → Nat → Nat → Option (scull_dev × Nat × List (Option UInt8))
  | 0, dev, count, f_pos => if count = 0 then some (dev, f_pos, []) else none
  | fuel + 1, dev, count, f_pos =>
    if count = 0 then some (dev, f_pos, [])
    else
      match scull_read dev env count count f_pos with
      | none => none
      | some r =>
        if 0 < r.retval then
          (read_all env fuel r.dev (count - r.retval.toNat) r.f_pos).map
            fun (dev, f_pos, bytes) => (dev, f_pos, r.buf ++ bytes)
        else some (r.dev, r.f_pos, [])

/-! ## Sequences of calls -/

/-- One call on a device: an open, a read, a write, or a reset
(`scull_trim`), each with what the caller and the kernel supply. -/
inductive scull_op where
  | do_open (env : kernel_env) (f_flags : Nat)
  | do_read (env : kernel_env) (room count f_pos : Nat)
  | do_write (env : kernel_env) (buf : List UInt8) (count f_pos : Nat)
  | do_trim
deriving DecidableEq

/-- The device after one call, if the call returns. -/
def run_op (g : scull_globals) (dev : scull_dev) : scull_op → Option scull_dev
  | .do_open env f_flags => some (scull_open g dev env f_flags).dev
  | .do_read env room count f_pos => (scull_read dev env room count f_pos).map fun r => r.dev
  | .do_write env buf count f_pos => (scull_write dev env buf count f_pos).map fun r => r.dev
  | .do_trim => some (scull_trim g dev)

/-- The device after a sequence of calls, first call first, if all of them
return. -/
def run (g : scull_globals) : List scull_op → scull_dev → Option scull_dev
  | [], dev => some dev
  | op :: ops, dev =>
    match run_op g dev op with
    | none => none
    | some dev => run g ops dev

/-- The node index of a write position fits the `int item`: every call other
than a write passes. -/
def op_in_range (g : scull_globals) : scull_op → Bool
  | .do_write _ _ _ f_pos => decide (f_pos / (g.scull_quantum * g.scull_qset) < 2 ^ 31)
  | _ => true

/-- What happened to the slots since the last reset: `wrote` lists the slots
(node index, slot index) that a `scull_write` stored at least one byte in,
`tried` those that a `scull_write` got as far as the copy for. -/
structure history where
  wrote : List (Nat × Nat)
  tried : List (Nat × Nat)
deriving DecidableEq

/-- The history after one call on `dev`: a reset, or an open that resets,
clears it; a write that returns a byte count or `-EFAULT` adds the slot that
the call computed for its position to `tried`, and to `wrote` if the count is
positive. -/
def hist_op (dev : scull_dev) (h : history) : scull_op → history
  | .do_trim => ⟨[], []⟩
  | .do_open env f_flags =>
    if f_flags &&& O_ACCMODE = O_WRONLY ∧ env.signal = false then ⟨[], []⟩ else h
  | .do_read _ _ _ _ => h
  | .do_write env buf count f_pos =>
    match scull_write dev env buf count f_pos, target dev.quantum dev.qset f_pos with
    | some r, some (i, s_pos, _) =>
      ⟨if 0 < r.retval then (i, s_pos) :: h.wrote else h.wrote,
       if 0 ≤ r.retval ∨ r.retval = -EFAULT then (i, s_pos) :: h.tried else h.tried⟩
    | _, _ => h

/-- The device and the history after a sequence of calls, if all return. -/
def run_hist (g : scull_globals) : List scull_op → scull_dev → history → Option (scull_dev × history)
  | [], dev, h => some (dev, h)
  | op :: ops, dev, h =>
    match run_op g dev op with
    | none => none
    | some dev1 => run_hist g ops dev1 (hist_op dev h op)

/-! ## Counting allocations -/

/-- The pointer array of node `i`, if the node is there and has one. -/
def slots_at (dev : scull_dev) (i : Nat) : Option (List (Option quantum_buf)) :=
  match dev.data[i]? with
  | some q => q.data
  | none => none

/-- The number of `kmalloc` requests a `scull_write` that addresses slot
`s_pos` of node `i` makes before it copies: the nodes `scull_follow` has to
add, the pointer array if the node has none, the quantum if the slot is
empty. -/
def write_allocs (dev : scull_dev) (i s_pos : Nat) : Nat :=
  follow_need dev i + (if (slots_at dev i).isNone then 1 else 0)
    + (if (page_at dev i s_pos).isNone then 1 else 0)

/-- The number of quanta in one pointer array. -/
def slots_pages (slots : List (Option quantum_buf)) : Nat :=
  (slots.filter fun slot => slot.isSome).length

/-- The number of quanta currently allocated in the device. -/
def page_count (dev : scull_dev) : Nat :=
  (dev.data.map fun q =>
    match q.data with
    | some slots => slots_pages slots
    | none => 0).sum

/-! ## Example states -/

/-- A device with `quantum = 8`, `qset = 2` that holds the bytes 1, 2, 3: the
state after `scull_write` of these bytes at position 0. -/
def dev_three : scull_dev :=
  { data := [⟨some [some [some 1, some 2, some 3, none, none, none, none, none], none]⟩],
    quantum := 8, qset := 2, size := 3, sem := 1 }

/-- A device with `quantum = 4`, `qset = 2` after `scull_write` of the one byte
9 at position 1: the cell at position 0 was never stored to. -/
def dev_hole : scull_dev :=
  { data := [⟨some [some [none, some 9, none, none], none]⟩],
    quantum := 4, qset := 2, size := 2, sem := 1 }

/-- A device with `quantum = 1`, `qset = 1` that holds the byte 1 at position 0. -/
def dev_one : scull_dev :=
  { data := [⟨some [some [some 1]]⟩], quantum := 1, qset := 1, size := 1, sem := 1 }

/-- A device with `quantum = 4`, `qset = 2` after `scull_write` of the one byte
9 at position 4: slot 0 of the node is empty, the byte is in the quantum of
slot 1. -/
def dev_sparse : scull_dev :=
  { data := [⟨some [none, some [some 9, none, none, none]]⟩],
    quantum := 4, qset := 2, size := 5, sem := 1 }

/-- A device state with size 10 and no node at all. -/
def dev_short : scull_dev :=
  { data := [], quantum := 4, qset := 2, size := 10, sem := 1 }

/-! ## Auxiliary facts -/

@[simp] theorem kmalloc_zero : kmalloc 0 = none := rfl

@[simp] theorem kmalloc_succ (m : Nat) : kmalloc (m + 1) = some m := rfl

theorem clamp_eq_min (a b : Nat) : (if a > b then b else a) = min a b := by
  by_cases h : a > b
  · rw [if_pos h]; omega
  · rw [if_neg h]; omega

@[simp] theorem up_down (dev : scull_dev) : up (down dev) = dev := by
  obtain ⟨data, quantum, qset, size, sem⟩ := dev
  simp [up, down]

theorem to_int_of_lt {x : Nat} (h : x < 2 ^ 31) : to_int x = (x : Int) := by
  have h1 : x % 2 ^ 32 = x := Nat.mod_eq_of_lt (by omega)
  simp only [to_int, h1, if_pos h]

theorem wrap_int_ofNat (x : Nat) : wrap_int (x : Int) = to_int x := by
  have h : ((x : Int) % 2 ^ 32).toNat = x % 2 ^ 32 := by omega
  simp only [wrap_int, h, to_int, Nat.mod_mod]

theorem wrap_int_of_lt {x : Nat} (h : x < 2 ^ 31) : wrap_int (x : Int) = (x : Int) := by
  rw [wrap_int_ofNat, to_int_of_lt h]

/-- The translation computed for an `itemsize` that is positive after the
wrap to 32 bits, `w` being its value. -/
theorem locate_pos {quantum qset : Nat} (f_pos w : Nat) (hw : to_int (quantum * qset) = (w : Int))
    (h0 : w ≠ 0) (hlt : w ≤ 2 ^ 31) :
    locate quantum qset f_pos =
      some (to_int (f_pos / w), f_pos % w / quantum, f_pos % w % quantum) := by
  have hne : ¬ ((w : Int) = 0) := by omega
  have hrest : f_pos % w < 2 ^ 31 := by
    have := Nat.mod_lt f_pos (Nat.pos_of_ne_zero h0)
    omega
  simp only [locate, hw, if_neg hne, ← Int.ofNat_tdiv, ← Int.ofNat_tmod, wrap_int_ofNat,
    to_int_of_lt hrest, Int.toNat_ofNat]

theorem locate_some {quantum qset : Nat} (f_pos : Nat) (h0 : quantum * qset ≠ 0)
    (hfit : quantum * qset < 2 ^ 31) :
    locate quantum qset f_pos =
      some (to_int (f_pos / (quantum * qset)), f_pos % (quantum * qset) / quantum,
        f_pos % (quantum * qset) % quantum) :=
  locate_pos f_pos (quantum * qset) (to_int_of_lt hfit) h0 (by omega)

theorem s_pos_lt {quantum qset : Nat} (f_pos : Nat) (h0 : quantum * qset ≠ 0) :
    f_pos % (quantum * qset) / quantum < qset := by
  have hq : 0 < quantum := Nat.pos_of_ne_zero (fun h => h0 (by simp [h]))
  have hlt : f_pos % (quantum * qset) < quantum * qset := Nat.mod_lt _ (Nat.pos_of_ne_zero h0)
  exact (Nat.div_lt_iff_lt_mul hq).2 (by rw [Nat.mul_comm qset quantum]; exact hlt)

theorem q_pos_lt {quantum qset : Nat} (f_pos : Nat) (h0 : quantum * qset ≠ 0) :
    f_pos % (quantum * qset) % quantum < quantum :=
  Nat.mod_lt _ (Nat.pos_of_ne_zero (fun h => h0 (by simp [h])))


theorem follow_loop_eq (steps : Nat) : ∀ (i : Nat) (chain : List scull_qset) (mem : Nat),
    i < chain.length →
    follow_loop steps i chain mem =
      if i + steps + 1 - chain.length ≤ mem then
        (chain ++ List.replicate (i + steps + 1 - chain.length) ⟨none⟩, some (i + steps),
          mem - (i + steps + 1 - chain.length))
      else (chain ++ List.replicate mem ⟨none⟩, none, 0) := by
  induction steps with
  | zero =>
    intro i chain mem hi
    have h : i + 0 + 1 - chain.length = 0 := by omega
    simp [follow_loop, h]
  | succ s ih =>
    intro i chain mem hi
    by_cases hnext : i + 1 < chain.length
    · rw [follow_loop, if_pos hnext, ih (i + 1) chain mem hnext]
      have h : i + 1 + s + 1 - chain.length = i + (s + 1) + 1 - chain.length := by omega
      have h2 : i + 1 + s = i + (s + 1) := by omega
      rw [h, h2]
    · rw [follow_loop, if_neg hnext]
      have hlen : chain.length = i + 1 := by omega
      cases mem with
      | zero =>
        have h : ¬ (i + (s + 1) + 1 - chain.length ≤ 0) := by omega
        simp [h]
      | succ m =>
        have hi2 : i + 1 < (chain ++ [(⟨none⟩ : scull_qset)]).length := by simp; omega
        simp only [kmalloc_succ]
        rw [ih (i + 1) (chain ++ [(⟨none⟩ : scull_qset)]) m hi2]
        have e1 : i + 1 + s + 1 - (chain ++ [(⟨none⟩ : scull_qset)]).length = s := by simp; omega
        have e2 : i + (s + 1) + 1 - chain.length = s + 1 := by omega
        rw [e1, e2]
        by_cases hm : s ≤ m
        · have hm2 : s + 1 ≤ m + 1 := by omega
          rw [if_pos hm, if_pos hm2]
          have : i + 1 + s = i + (s + 1) := by omega
          simp [List.replicate_succ, this]
        · have hm2 : ¬ s + 1 ≤ m + 1 := by omega
          rw [if_neg hm, if_neg hm2]
          simp [List.replicate_succ]

theorem follow_index_ofNat (k : Nat) : follow_index (k : Int) = k := by
  simp [follow_index]

/-- What `scull_follow` returns: the node that `while(n--)` walks to when the
budget covers the nodes to add, `NULL` otherwise. -/
theorem scull_follow_int (dev : scull_dev) (n : Int) (mem : Nat) :
    scull_follow dev n mem =
      if follow_need dev (follow_index n) ≤ mem then
        some ⟨{ dev with
            data := dev.data ++ List.replicate (follow_need dev (follow_index n)) ⟨none⟩ },
          some (follow_index n), mem - follow_need dev (follow_index n)⟩
      else some ⟨{ dev with data := dev.data ++ List.replicate mem ⟨none⟩ }, none, 0⟩ := by
  obtain ⟨data, quantum, qset, size, sem⟩ := dev
  unfold scull_follow follow_need
  generalize follow_index n = k
  cases data with
  | nil =>
    cases mem with
    | zero => simp
    | succ m =>
      simp only [kmalloc_succ]
      rw [follow_loop_eq k 0 _ m (by simp)]
      by_cases hm : k ≤ m
      · have h1 : 0 + k + 1 - [(⟨none⟩ : scull_qset)].length ≤ m := by simp; omega
        have h2 : k + 1 - ([] : List scull_qset).length ≤ m + 1 := by simp; omega
        rw [if_pos h1, if_pos h2]
        simp [List.replicate_succ]
      · have h1 : ¬ 0 + k + 1 - [(⟨none⟩ : scull_qset)].length ≤ m := by simp; omega
        have h2 : ¬ k + 1 - ([] : List scull_qset).length ≤ m + 1 := by simp; omega
        rw [if_neg h1, if_neg h2]
        simp [List.replicate_succ]
  | cons q next =>
    simp only []
    rw [follow_loop_eq k 0 _ mem (by simp)]
    by_cases hm : 0 + k + 1 - (q :: next).length ≤ mem
    · have h2 : k + 1 - (q :: next).length ≤ mem := by omega
      rw [if_pos hm, if_pos h2]
      simp
    · have h2 : ¬ k + 1 - (q :: next).length ≤ mem := by omega
      rw [if_neg hm, if_neg h2]

theorem scull_follow_eq (dev : scull_dev) (k mem : Nat) :
    scull_follow dev (k : Int) mem =
      if follow_need dev k ≤ mem then
        some ⟨{ dev with data := dev.data ++ List.replicate (follow_need dev k) ⟨none⟩ },
          some k, mem - follow_need dev k⟩
      else some ⟨{ dev with data := dev.data ++ List.replicate mem ⟨none⟩ }, none, 0⟩ := by
  rw [scull_follow_int, follow_index_ofNat]

theorem follow_loop_chain (steps i : Nat) (chain : List scull_qset) (mem : Nat)
    (hi : i < chain.length) :
    ∃ j, (follow_loop steps i chain mem).1 = chain ++ List.replicate j ⟨none⟩ := by
  rw [follow_loop_eq steps i chain mem hi]
  split
  · exact ⟨_, rfl⟩
  · exact ⟨_, rfl⟩

/-- Whatever `scull_follow` returns, it changes nothing but the chain, and the
chain only by appending empty nodes. -/
theorem scull_follow_frame {dev : scull_dev} {n : Int} {mem : Nat} {r : follow_result}
    (h : scull_follow dev n mem = some r) :
    r.dev.quantum = dev.quantum ∧ r.dev.qset = dev.qset ∧ r.dev.size = dev.size ∧
      r.dev.sem = dev.sem ∧ ∃ j, r.dev.data = dev.data ++ List.replicate j ⟨none⟩ := by
  rw [scull_follow_int] at h
  split at h
  · simp only [Option.some.injEq] at h
    subst h
    exact ⟨rfl, rfl, rfl, rfl, _, rfl⟩
  · simp only [Option.some.injEq] at h
    subst h
    exact ⟨rfl, rfl, rfl, rfl, _, rfl⟩

/-- A pointer returned by `scull_follow` is the node that `while(n--)` walks
to. -/
theorem scull_follow_ptr {dev : scull_dev} {n : Int} {mem : Nat} {dev1 : scull_dev}
    {i mem1 : Nat} (h : scull_follow dev n mem = some ⟨dev1, some i, mem1⟩) :
    i = follow_index n ∧ i < dev1.data.length ∧
      dev1.data = dev.data ++ List.replicate (follow_need dev i) ⟨none⟩ ∧
      follow_need dev i ≤ mem ∧ mem1 = mem - follow_need dev i := by
  rw [scull_follow_int] at h
  split at h
  · rename_i hle
    simp only [Option.some.injEq, follow_result.mk.injEq] at h
    obtain ⟨h1, h2, h3⟩ := h
    subst h2
    refine ⟨rfl, ?_, ?_, hle, h3.symm⟩
    · rw [← h1]; simp [follow_need]; omega
    · rw [← h1]
  · simp at h

theorem target_of_locate {quantum qset f_pos : Nat} {item : Int} {s_pos q_pos : Nat}
    (h : locate quantum qset f_pos = some (item, s_pos, q_pos)) :
    target quantum qset f_pos = some (follow_index item, s_pos, q_pos) := by
  simp only [target, h]

theorem locate_of_target {quantum qset f_pos : Nat} {i s_pos q_pos : Nat}
    (h : target quantum qset f_pos = some (i, s_pos, q_pos)) :
    ∃ item, locate quantum qset f_pos = some (item, s_pos, q_pos) ∧ follow_index item = i := by
  unfold target at h
  split at h
  · simp at h
  · rename_i item s q hloc
    simp only [Option.some.injEq, Prod.mk.injEq] at h
    obtain ⟨h1, h2, h3⟩ := h
    subst h1 h2 h3
    exact ⟨item, hloc, rfl⟩

/-- The target of a position within the range of `int`. -/
theorem target_some {quantum qset : Nat} (f_pos : Nat) (h0 : quantum * qset ≠ 0)
    (hfit : quantum * qset < 2 ^ 31) (hitem : f_pos / (quantum * qset) < 2 ^ 31) :
    target quantum qset f_pos =
      some (f_pos / (quantum * qset), f_pos % (quantum * qset) / quantum,
        f_pos % (quantum * qset) % quantum) := by
  rw [target_of_locate (locate_some f_pos h0 hfit), to_int_of_lt hitem, follow_index_ofNat]

theorem scull_write_ok {dev : scull_dev} {env : kernel_env} {buf : List UInt8}
    {count f_pos : Nat} {r : write_result}
    (h : scull_write dev env buf count f_pos = some r) (hr : 0 ≤ r.retval) :
    ∃ item s_pos q_pos dev1 i mem1 dptr slot,
      env.signal = false ∧
      locate dev.quantum dev.qset f_pos = some (item, s_pos, q_pos) ∧
      scull_follow (down dev) item env.mem = some ⟨dev1, some i, mem1⟩ ∧
      dev1.data[i]? = some dptr ∧
      (write_slots dev dptr)[s_pos]? = some slot ∧
      q_pos + min count (dev.quantum - q_pos) ≤ (write_page dev slot).length ∧
      min count (dev.quantum - q_pos) ≤ buf.length ∧
      r = ⟨(min count (dev.quantum - q_pos) : Nat),
          up { dev1 with
            data := dev1.data.set i ⟨some ((write_slots dev dptr).set s_pos
              (some (store_bytes (write_page dev slot) q_pos
                (buf.take (min count (dev.quantum - q_pos))))))⟩,
            size := max dev1.size (f_pos + min count (dev.quantum - q_pos)) },
          f_pos + min count (dev.quantum - q_pos)⟩ := by
  unfold scull_write at h
  simp only [clamp_eq_min] at h
  split at h
  · simp at h; subst h; simp [ERESTARTSYS] at hr
  · rename_i hsig
    split at h
    · simp at h
    · rename_i item s_pos q_pos hloc
      split at h
      · simp at h
      · simp at h; subst h; simp [ENOMEM, up] at hr
      · rename_i dev1 i mem1 hfol
        split at h
        · simp at h
        · rename_i dptr hdptr
          split at h
          · simp at h; subst h; simp [ENOMEM, up] at hr
          · rename_i slots mem2 hslots
            split at h
            · simp at h
            · rename_i slot hslot
              split at h
              · simp at h; subst h; simp [ENOMEM, up] at hr
              · rename_i page hpage
                have hs : slots = write_slots dev dptr := by
                  unfold write_slots
                  cases hd : dptr.data with
                  | some s => rw [hd] at hslots; simp at hslots; exact hslots.1.symm
                  | none =>
                    rw [hd] at hslots
                    cases hk : kmalloc mem1 with
                    | none => rw [hk] at hslots; simp at hslots
                    | some m => rw [hk] at hslots; simp at hslots; exact hslots.1.symm
                have hp : page = write_page dev slot := by
                  unfold write_page
                  cases slot with
                  | some s => simp at hpage; exact hpage.symm
                  | none =>
                    cases hk : kmalloc mem2 with
                    | none => rw [hk] at hpage; simp at hpage
                    | some m => rw [hk] at hpage; simp at hpage; exact hpage.symm
                subst hs hp
                split at h
                · simp at h
                · rename_i hlen
                  split at h
                  · simp at h; subst h; simp [EFAULT, up] at hr
                  · rename_i hbuf
                    simp only [Option.some.injEq] at h
                    refine ⟨item, s_pos, q_pos, dev1, i, mem1, dptr, slot, by simpa using hsig,
                      hloc, hfol, hdptr, hslot, by omega, by omega, ?_⟩
                    have hc : copy_from_user buf (min count (dev.quantum - q_pos)) =
                        buf.take (min count (dev.quantum - q_pos)) := by
                      unfold copy_from_user
                      have : min count (dev.quantum - q_pos) - buf.length = 0 := by omega
                      rw [this]; simp
                    rw [hc] at h
                    rw [← h]
                    by_cases hsz : dev1.size < f_pos + min count (dev.quantum - q_pos)
                    · have hmax : max dev1.size (f_pos + min count (dev.quantum - q_pos)) =
                          f_pos + min count (dev.quantum - q_pos) := by omega
                      rw [if_pos hsz, hmax]; simp
                    · have hmax : max dev1.size (f_pos + min count (dev.quantum - q_pos)) =
                          dev1.size := by omega
                      rw [if_neg hsz, hmax]; simp

/-- Whatever `scull_write` returns: `quantum`, `qset` and the semaphore are as
before, the size did not shrink, and the chain did not get shorter. -/
theorem scull_write_any {dev : scull_dev} {env : kernel_env} {buf : List UInt8}
    {count f_pos : Nat} {r : write_result}
    (h : scull_write dev env buf count f_pos = some r) :
    r.dev.quantum = dev.quantum ∧ r.dev.qset = dev.qset ∧ r.dev.sem = dev.sem ∧
      dev.size ≤ r.dev.size ∧ dev.data.length ≤ r.dev.data.length := by
  unfold scull_write at h
  simp only [clamp_eq_min] at h
  split at h
  · simp at h; subst h; simp
  · split at h
    · simp at h
    · rename_i item s_pos q_pos hloc
      split at h
      · simp at h
      · rename_i dev1 mem1 hfol
        obtain ⟨h1, h2, h3, h4, j, h5⟩ := scull_follow_frame hfol
        simp at h; subst h
        simp [up, down] at *
        simp [h1, h2, h3, h4, h5]
      · rename_i dev1 i mem1 hfol
        obtain ⟨h1, h2, h3, h4, j, h5⟩ := scull_follow_frame hfol
        simp [down] at h1 h2 h3 h4 h5
        split at h
        · simp at h
        · split at h
          · simp at h; subst h
            simp [up, h1, h2, h3, h4, h5]
          · split at h
            · simp at h
            · split at h
              · simp at h; subst h
                simp [up, h1, h2, h3, h4, h5]
              · split at h
                · simp at h
                · split at h
                  · simp at h; subst h
                    simp [up, h1, h2, h3, h4, h5]
                  · simp at h; subst h
                    split
                    · simp [up, h1, h2, h3, h4, h5]; omega
                    · simp [up, h1, h2, h3, h4, h5]

/-- Every way `scull_read` can return. -/
theorem scull_read_cases {dev : scull_dev} {env : kernel_env} {room count f_pos : Nat}
    {r : read_result} (h : scull_read dev env room count f_pos = some r) :
    (env.signal = true ∧ r = ⟨-ERESTARTSYS, dev, f_pos, []⟩) ∨
    (env.signal = false ∧ dev.size ≤ f_pos ∧ r = ⟨0, dev, f_pos, []⟩) ∨
    (env.signal = false ∧ f_pos < dev.size ∧
      ∃ item s_pos q_pos fr, locate dev.quantum dev.qset f_pos = some (item, s_pos, q_pos) ∧
        scull_follow (down dev) item env.mem = some fr ∧
        ((r = ⟨0, up fr.dev, f_pos, []⟩ ∧
            (fr.qs = none ∨
             (∃ i, fr.qs = some i ∧ fr.dev.data[i]? = some ⟨none⟩) ∨
             (∃ i slots, fr.qs = some i ∧ fr.dev.data[i]? = some ⟨some slots⟩ ∧
                slots[s_pos]? = some none))) ∨
         (∃ i slots page, fr.qs = some i ∧ fr.dev.data[i]? = some ⟨some slots⟩ ∧
            slots[s_pos]? = some (some page) ∧
            q_pos + min (min count (dev.size - f_pos)) (dev.quantum - q_pos) ≤ page.length ∧
            ((room < min (min count (dev.size - f_pos)) (dev.quantum - q_pos) ∧
                r = ⟨-EFAULT, up fr.dev, f_pos, (page.drop q_pos).take room⟩) ∨
             (min (min count (dev.size - f_pos)) (dev.quantum - q_pos) ≤ room ∧
                r = ⟨(min (min count (dev.size - f_pos)) (dev.quantum - q_pos) : Nat),
                  up fr.dev, f_pos + min (min count (dev.size - f_pos)) (dev.quantum - q_pos),
                  (page.drop q_pos).take
                    (min (min count (dev.size - f_pos)) (dev.quantum - q_pos))⟩))))) := by
  unfold scull_read at h
  have hcl : ∀ a b c : Nat, b < c → (if b + a > c then c - b else a) = min a (c - b) := by
    intro a b c hbc
    split <;> omega
  simp only [clamp_eq_min] at h
  split at h
  · rename_i hsig
    simp only [Option.some.injEq] at h; subst h
    exact Or.inl ⟨hsig, rfl⟩
  · rename_i hsig
    have hsig : env.signal = false := by simpa using hsig
    split at h
    · rename_i hge
      simp only [Option.some.injEq] at h; subst h
      exact Or.inr (Or.inl ⟨hsig, by simpa [down] using hge, by simp⟩)
    · rename_i hlt
      have hlt : f_pos < dev.size := by simpa [down] using hlt
      refine Or.inr (Or.inr ⟨hsig, hlt, ?_⟩)
      have hsz : (down dev).size = dev.size := rfl
      rw [hsz, hcl count f_pos dev.size hlt] at h
      split at h
      · simp at h
      · rename_i item s_pos q_pos hloc
        split at h
        · simp at h
        · rename_i dev1 mem1 hfol
          simp only [Option.some.injEq] at h; subst h
          exact ⟨item, s_pos, q_pos, _, hloc, hfol, Or.inl ⟨rfl, Or.inl rfl⟩⟩
        · rename_i dev1 i mem1 hfol
          split at h
          · simp at h
          · rename_i hnode
            simp only [Option.some.injEq] at h; subst h
            exact ⟨item, s_pos, q_pos, _, hloc, hfol, Or.inl ⟨rfl, Or.inr (Or.inl ⟨i, rfl, hnode⟩)⟩⟩
          · rename_i slots hnode
            split at h
            · simp at h
            · rename_i hslot
              simp only [Option.some.injEq] at h; subst h
              exact ⟨item, s_pos, q_pos, _, hloc, hfol,
                Or.inl ⟨rfl, Or.inr (Or.inr ⟨i, slots, rfl, hnode, hslot⟩)⟩⟩
            · rename_i page hslot
              split at h
              · simp at h
              · rename_i hlen
                split at h
                · rename_i hroom
                  simp only [Option.some.injEq] at h; subst h
                  exact ⟨item, s_pos, q_pos, _, hloc, hfol,
                    Or.inr ⟨i, slots, page, rfl, hnode, hslot, by omega, Or.inl ⟨hroom, rfl⟩⟩⟩
                · rename_i hroom
                  simp only [Option.some.injEq] at h; subst h
                  exact ⟨item, s_pos, q_pos, _, hloc, hfol,
                    Or.inr ⟨i, slots, page, rfl, hnode, hslot, by omega,
                      Or.inr ⟨by omega, rfl⟩⟩⟩

theorem scull_read_eof (dev : scull_dev) (env : kernel_env) (room count f_pos : Nat)
    (hlock : env.signal = false) (hpos : dev.size ≤ f_pos) :
    scull_read dev env room count f_pos = some ⟨0, dev, f_pos, []⟩ := by
  have hge : f_pos ≥ (down dev).size := hpos
  simp only [scull_read, hlock, if_pos hge, up_down]
  simp

theorem chain_page_append (chain : List scull_qset) (j i s : Nat) :
    chain_page (chain ++ List.replicate j ⟨none⟩) i s = chain_page chain i s := by
  unfold chain_page
  by_cases hi : i < chain.length
  · rw [List.getElem?_append_left hi]
  · have hi : chain.length ≤ i := by omega
    rw [List.getElem?_append_right hi, List.getElem?_eq_none hi]
    by_cases hj : i - chain.length < j
    · rw [List.getElem?_replicate, if_pos hj]
    · rw [List.getElem?_replicate, if_neg hj]

theorem page_at_lt {dev : scull_dev} {i s : Nat} {page : quantum_buf}
    (h : page_at dev i s = some page) :
    ∃ slots, dev.data[i]? = some ⟨some slots⟩ ∧ slots[s]? = some (some page) ∧
      i < dev.data.length := by
  unfold page_at chain_page at h
  split at h
  · rename_i slots hnode
    split at h
    · rename_i pg hslot
      simp only [Option.some.injEq] at h
      subst h
      refine ⟨slots, hnode, hslot, ?_⟩
      by_contra hlt
      rw [List.getElem?_eq_none (by omega)] at hnode
      simp at hnode
    · simp at h
  · simp at h

theorem up_follow_dev {dev : scull_dev} {n : Int} {mem : Nat} {fr : follow_result}
    (h : scull_follow (down dev) n mem = some fr) :
    ∃ j, up fr.dev = { dev with data := dev.data ++ List.replicate j ⟨none⟩ } := by
  obtain ⟨h1, h2, h3, h4, j, h5⟩ := scull_follow_frame h
  refine ⟨j, ?_⟩
  obtain ⟨d, q, s, sz, sm⟩ := dev
  obtain ⟨⟨d1, q1, s1, sz1, sm1⟩, qs, m⟩ := fr
  simp [down] at h1 h2 h3 h4 h5
  simp [up, h1, h2, h3, h4, h5]

/-- The read of a position below the size, by the state of the target quantum. -/
theorem scull_read_page {dev : scull_dev} {env : kernel_env} {room count f_pos : Nat}
    {r : read_result} {item : Int} {s_pos q_pos : Nat}
    (h : scull_read dev env room count f_pos = some r) (hsig : env.signal = false)
    (hlt : f_pos < dev.size)
    (hloc : locate dev.quantum dev.qset f_pos = some (item, s_pos, q_pos)) :
    (∃ j, r.dev = { dev with data := dev.data ++ List.replicate j ⟨none⟩ }) ∧
    (page_at dev (follow_index item) s_pos = none →
      r.retval = 0 ∧ r.buf = [] ∧ r.f_pos = f_pos) ∧
    (∀ (page : quantum_buf), page_at dev (follow_index item) s_pos = some page →
      q_pos + min (min count (dev.size - f_pos)) (dev.quantum - q_pos) ≤ page.length ∧
      ((room < min (min count (dev.size - f_pos)) (dev.quantum - q_pos) ∧
          r = ⟨-EFAULT, dev, f_pos, (page.drop q_pos).take room⟩) ∨
       (min (min count (dev.size - f_pos)) (dev.quantum - q_pos) ≤ room ∧
          r = ⟨(min (min count (dev.size - f_pos)) (dev.quantum - q_pos) : Nat), dev,
            f_pos + min (min count (dev.size - f_pos)) (dev.quantum - q_pos),
            (page.drop q_pos).take (min (min count (dev.size - f_pos)) (dev.quantum - q_pos))⟩))) := by
  rcases scull_read_cases h with ⟨hs, _⟩ | ⟨_, hge, _⟩ | ⟨_, _, item', s', q', fr, hloc', hfol, hres⟩
  · rw [hsig] at hs; simp at hs
  · omega
  · rw [hloc] at hloc'
    simp only [Option.some.injEq, Prod.mk.injEq] at hloc'
    obtain ⟨rfl, rfl, rfl⟩ := hloc'
    obtain ⟨j, hj⟩ := up_follow_dev hfol
    -- a quantum that is there is found without any allocation
    have hpresent : ∀ (page : quantum_buf),
        page_at dev (follow_index item) s_pos = some page →
        fr = ⟨down dev, some (follow_index item), env.mem⟩ := by
      intro page hp
      obtain ⟨slots, _, _, hlen⟩ := page_at_lt hp
      rw [scull_follow_int] at hfol
      have hneed : follow_need (down dev) (follow_index item) = 0 := by
        simp only [follow_need, down]; omega
      rw [hneed] at hfol
      simp at hfol
      rw [← hfol]
    rcases hres with ⟨hr, habs⟩ | ⟨i, slots, page, hqs, hnode, hslot, hlen, hcopy⟩
    · refine ⟨⟨j, by rw [hr]; exact hj⟩, fun _ => by rw [hr]; exact ⟨rfl, rfl, rfl⟩, ?_⟩
      intro page hp
      exfalso
      have hfr := hpresent page hp
      obtain ⟨slots, hnode, hslot, _⟩ := page_at_lt hp
      subst hfr
      have hdata : (down dev).data = dev.data := rfl
      rcases habs with hq | ⟨i', hq, hn⟩ | ⟨i', slots', hq, hn, hsl⟩
      · simp at hq
      · simp only [Option.some.injEq] at hq
        subst hq
        rw [hdata, hnode] at hn
        simp at hn
      · simp only [Option.some.injEq] at hq
        subst hq
        rw [hdata, hnode] at hn
        simp only [Option.some.injEq, scull_qset.mk.injEq] at hn
        subst hn
        rw [hslot] at hsl
        simp at hsl
    · obtain ⟨frdev, frqs, frmem⟩ := fr
      simp only at hqs hnode hj hcopy
      subst hqs
      obtain ⟨hitem, _, hdata, _, _⟩ := scull_follow_ptr hfol
      subst hitem
      have hp1 : page_at frdev (follow_index item) s_pos = some page := by
        unfold page_at chain_page
        rw [hnode]
        simp only [hslot]
      have hp2 : page_at dev (follow_index item) s_pos = some page := by
        unfold page_at at hp1 ⊢
        rw [hdata, chain_page_append] at hp1
        exact hp1
      have hfr := hpresent page hp2
      simp only [follow_result.mk.injEq] at hfr
      obtain ⟨hfd, _, _⟩ := hfr
      subst hfd
      rw [up_down] at hcopy hj
      refine ⟨⟨j, ?_⟩, ?_, ?_⟩
      · rcases hcopy with ⟨_, hr⟩ | ⟨_, hr⟩ <;> rw [hr] <;> exact hj
      · intro habs
        rw [habs] at hp2
        simp at hp2
      · intro page' hp'
        rw [hp2] at hp'
        simp only [Option.some.injEq] at hp'
        subst hp'
        exact ⟨hlen, hcopy⟩

theorem node_ok_of_wf {dev : scull_dev} (hwf : well_formed dev = true) {i : Nat}
    {q : scull_qset} (hq : dev.data[i]? = some q) : node_ok dev.quantum dev.qset q = true := by
  unfold well_formed at hwf
  rw [List.all_eq_true] at hwf
  exact hwf q (List.getElem?_mem hq)

theorem slots_of_node_ok {quantum qset : Nat} {q : scull_qset} {slots : List (Option quantum_buf)}
    (h : node_ok quantum qset q = true) (hd : q.data = some slots) :
    slots.length = qset ∧ ∀ (s : Nat) (pg : quantum_buf), slots[s]? = some (some pg) →
      pg.length = quantum := by
  unfold node_ok at h
  rw [hd] at h
  simp only [Bool.and_eq_true, beq_iff_eq, List.all_eq_true] at h
  refine ⟨h.1, ?_⟩
  intro s pg hs
  have := h.2 (some pg) (List.getElem?_mem hs)
  simpa [page_ok] using this

theorem node_ok_append {quantum qset : Nat} {chain : List scull_qset} (j : Nat)
    (h : chain.all (node_ok quantum qset) = true) :
    (chain ++ List.replicate j (⟨none⟩ : scull_qset)).all (node_ok quantum qset) = true := by
  rw [List.all_append, h]
  simp only [Bool.true_and, List.all_eq_true, List.mem_replicate]
  intro x hx
  rw [hx.2]
  rfl

theorem write_slots_length {dev : scull_dev} {dptr : scull_qset}
    (h : node_ok dev.quantum dev.qset dptr = true) : (write_slots dev dptr).length = dev.qset := by
  unfold write_slots
  cases hd : dptr.data with
  | none => simp
  | some slots => exact (slots_of_node_ok h hd).1

theorem write_page_length {dev : scull_dev} {dptr : scull_qset} {s : Nat}
    {slot : Option quantum_buf} (h : node_ok dev.quantum dev.qset dptr = true)
    (hs : (write_slots dev dptr)[s]? = some slot) : (write_page dev slot).length = dev.quantum := by
  unfold write_page
  cases slot with
  | none => simp
  | some pg =>
    unfold write_slots at hs
    cases hd : dptr.data with
    | none =>
      rw [hd] at hs
      simp only [List.getElem?_replicate] at hs
      split at hs <;> simp at hs
    | some slots =>
      rw [hd] at hs
      exact (slots_of_node_ok h hd).2 s pg hs


/-- A write on a well-formed device, within the range of `int`, with enough
memory and a readable user buffer, succeeds. -/
theorem scull_write_runs {dev : scull_dev} {env : kernel_env} {buf : List UInt8}
    {count f_pos : Nat} (hwf : well_formed dev = true) (hsig : env.signal = false)
    (h0 : dev.quantum * dev.qset ≠ 0) (hfit : dev.quantum * dev.qset < 2 ^ 31)
    (hitem : f_pos / (dev.quantum * dev.qset) < 2 ^ 31)
    (hmem : f_pos / (dev.quantum * dev.qset) + 3 ≤ env.mem)
    (hbuf : min count (dev.quantum - f_pos % (dev.quantum * dev.qset) % dev.quantum)
      ≤ buf.length) :
    ∃ r, scull_write dev env buf count f_pos = some r ∧ 0 ≤ r.retval := by
  have hneed : follow_need (down dev) (f_pos / (dev.quantum * dev.qset)) ≤ env.mem := by
    simp only [follow_need]
    generalize f_pos / (dev.quantum * dev.qset) = item at hmem
    omega
  have hlen : f_pos / (dev.quantum * dev.qset) <
      ((down dev).data ++ List.replicate
        (follow_need (down dev) (f_pos / (dev.quantum * dev.qset))) (⟨none⟩ : scull_qset)).length := by
    simp only [List.length_append, List.length_replicate, follow_need]
    generalize f_pos / (dev.quantum * dev.qset) = item
    omega
  have hget := List.getElem?_eq_getElem hlen
  have hnode : node_ok dev.quantum dev.qset (((down dev).data ++ List.replicate
        (follow_need (down dev) (f_pos / (dev.quantum * dev.qset)))
        (⟨none⟩ : scull_qset))[f_pos / (dev.quantum * dev.qset)]) = true := by
    have hall := node_ok_append (follow_need (down dev) (f_pos / (dev.quantum * dev.qset)))
      (show (down dev).data.all (node_ok dev.quantum dev.qset) = true from hwf)
    rw [List.all_eq_true] at hall
    exact hall _ (List.getElem_mem _)
  generalize ((down dev).data ++ List.replicate
        (follow_need (down dev) (f_pos / (dev.quantum * dev.qset)))
        (⟨none⟩ : scull_qset))[f_pos / (dev.quantum * dev.qset)] = dptr at hget hnode
  have hs := s_pos_lt f_pos h0
  have hq := q_pos_lt f_pos h0
  have hslen := write_slots_length hnode
  obtain ⟨slot, hsget⟩ : ∃ slot,
      (write_slots dev dptr)[f_pos % (dev.quantum * dev.qset) / dev.quantum]? = some slot :=
    ⟨_, List.getElem?_eq_getElem (by omega)⟩
  have hplen := write_page_length hnode hsget
  unfold scull_write
  simp only [hsig, locate_some f_pos h0 hfit, to_int_of_lt hitem, scull_follow_eq,
    if_pos hneed, hget, clamp_eq_min]
  have hM : ∃ M, env.mem - follow_need (down dev) (f_pos / (dev.quantum * dev.qset)) = M + 2 := by
    have hn : ∀ item, follow_need (down dev) item ≤ item + 1 := by
      intro item
      simp only [follow_need]; omega
    have hn := hn (f_pos / (dev.quantum * dev.qset))
    generalize follow_need (down dev) (f_pos / (dev.quantum * dev.qset)) = need at hn
    generalize f_pos / (dev.quantum * dev.qset) = item at hn hmem
    exact ⟨env.mem - need - 2, by omega⟩
  obtain ⟨M, hM⟩ := hM
  rw [hM]
  have hlen2 : ¬ (write_page dev slot).length <
      f_pos % (dev.quantum * dev.qset) % dev.quantum +
        min count (dev.quantum - f_pos % (dev.quantum * dev.qset) % dev.quantum) := by
    rw [hplen]; omega
  have hbuf2 : ¬ buf.length <
      min count (dev.quantum - f_pos % (dev.quantum * dev.qset) % dev.quantum) := by omega
  cases hd : dptr.data with
  | none =>
    have hws : write_slots dev dptr = List.replicate dev.qset none := by
      simp only [write_slots, hd]
    rw [hws] at hsget
    simp only [kmalloc_succ, Option.map_some', hsget]
    cases slot with
    | none =>
      simp only [write_page] at hlen2
      simp only [kmalloc_succ, Option.map_some', if_neg hlen2, if_neg hbuf2]
      exact ⟨_, rfl, Int.ofNat_nonneg _⟩
    | some pg =>
      simp only [write_page] at hlen2
      simp only [if_neg hlen2, if_neg hbuf2]
      exact ⟨_, rfl, Int.ofNat_nonneg _⟩
  | some slots =>
    have hws : write_slots dev dptr = slots := by
      simp only [write_slots, hd]
    rw [hws] at hsget
    simp only [hsget]
    cases slot with
    | none =>
      simp only [write_page] at hlen2
      simp only [kmalloc_succ, Option.map_some', if_neg hlen2, if_neg hbuf2]
      exact ⟨_, rfl, Int.ofNat_nonneg _⟩
    | some pg =>
      simp only [write_page] at hlen2
      simp only [if_neg hlen2, if_neg hbuf2]
      exact ⟨_, rfl, Int.ofNat_nonneg _⟩

/-- The state a successful `scull_write` leaves, in terms of the state before. -/
theorem scull_write_effect {dev : scull_dev} {env : kernel_env} {buf : List UInt8}
    {count f_pos : Nat} {r : write_result}
    (h : scull_write dev env buf count f_pos = some r) (hok : 0 ≤ r.retval) :
    ∃ (i s_pos q_pos j : Nat) (dptr : scull_qset) (slot : Option quantum_buf),
      target dev.quantum dev.qset f_pos = some (i, s_pos, q_pos) ∧
      (dev.data ++ List.replicate j (⟨none⟩ : scull_qset))[i]? = some dptr ∧
      (write_slots dev dptr)[s_pos]? = some slot ∧
      q_pos + min count (dev.quantum - q_pos) ≤ (write_page dev slot).length ∧
      min count (dev.quantum - q_pos) ≤ buf.length ∧
      r = ⟨(min count (dev.quantum - q_pos) : Nat),
          { dev with
            data := (dev.data ++ List.replicate j (⟨none⟩ : scull_qset)).set i
              (scull_qset.mk (some ((write_slots dev dptr).set s_pos
                (some (store_bytes (write_page dev slot) q_pos
                  (buf.take (min count (dev.quantum - q_pos)))))))),
            size := max dev.size (f_pos + min count (dev.quantum - q_pos)) },
          f_pos + min count (dev.quantum - q_pos)⟩ := by
  obtain ⟨item, s_pos, q_pos, dev1, i, mem1, dptr, slot, _, hloc, hfol, hnode, hslot, hlen,
    hbuf, hr⟩ := scull_write_ok h hok
  obtain ⟨hitem, _, hdata, _, _⟩ := scull_follow_ptr hfol
  obtain ⟨h1, h2, h3, h4, _⟩ := scull_follow_frame hfol
  refine ⟨i, s_pos, q_pos, follow_need (down dev) i, dptr, slot,
    by rw [hitem]; exact target_of_locate hloc, ?_, hslot, hlen, hbuf, ?_⟩
  · rw [hdata] at hnode
    exact hnode
  · rw [hr]
    obtain ⟨d1, q1, s1, sz1, sm1⟩ := dev1
    simp only [down] at h1 h2 h3 h4 hdata
    subst h1 h2 h3 h4 hdata
    simp [up, down, follow_need]

theorem chain_page_set {dev : scull_dev} {chain : List scull_qset} {i s : Nat}
    {dptr : scull_qset} {slot : Option quantum_buf} (pg : quantum_buf)
    (hnode : chain[i]? = some dptr) (hslot : (write_slots dev dptr)[s]? = some slot)
    (i' s' : Nat) :
    chain_page (chain.set i ⟨some ((write_slots dev dptr).set s (some pg))⟩) i' s' =
      if i' = i ∧ s' = s then some pg else chain_page chain i' s' := by
  have hi : i < chain.length := by
    by_contra hlt
    rw [List.getElem?_eq_none (by omega)] at hnode
    simp at hnode
  have hs : s < (write_slots dev dptr).length := by
    by_contra hlt
    rw [List.getElem?_eq_none (by omega)] at hslot
    simp at hslot
  unfold chain_page
  by_cases hii : i' = i
  · subst hii
    rw [List.getElem?_set_self hi]
    simp only []
    by_cases hss : s' = s
    · subst hss
      rw [List.getElem?_set_self hs]
      simp
    · rw [List.getElem?_set_ne (Ne.symm hss), if_neg (fun h => hss h.2), hnode]
      obtain ⟨dd⟩ := dptr
      cases dd with
      | none =>
        simp only [write_slots, List.getElem?_replicate]
        by_cases hq : s' < dev.qset
        · simp only [if_pos hq]
        · simp only [if_neg hq]
      | some slots => simp only [write_slots]
  · rw [List.getElem?_set_ne (Ne.symm hii), if_neg (fun h => hii h.1)]

theorem store_bytes_length (page : quantum_buf) (q : Nat) (bytes : List UInt8)
    (h : q + bytes.length ≤ page.length) : (store_bytes page q bytes).length = page.length := by
  simp only [store_bytes, List.length_append, List.length_take, List.length_map,
    List.length_drop]
  omega

theorem store_bytes_get (page : quantum_buf) (q : Nat) (bytes : List UInt8)
    (h : q + bytes.length ≤ page.length) (x : Nat) :
    (store_bytes page q bytes)[x]? =
      if q ≤ x ∧ x < q + bytes.length then (bytes[x - q]?).map some else page[x]? := by
  unfold store_bytes
  by_cases h1 : x < q
  · have hlen : x < (List.take q page ++ List.map some bytes).length := by
      simp only [List.length_append, List.length_take, List.length_map]; omega
    rw [List.getElem?_append_left hlen,
      List.getElem?_append_left (by simp only [List.length_take]; omega),
      List.getElem?_take_of_lt h1, if_neg (by omega)]
  · by_cases h2 : x < q + bytes.length
    · have hlen : x < (List.take q page ++ List.map some bytes).length := by
        simp only [List.length_append, List.length_take, List.length_map]; omega
      have htl : (List.take q page).length = q := by simp only [List.length_take]; omega
      rw [List.getElem?_append_left hlen,
        List.getElem?_append_right (by rw [htl]; omega), htl, List.getElem?_map,
        if_pos ⟨by omega, h2⟩]
    · have hlen : (List.take q page ++ List.map some bytes).length = q + bytes.length := by
        simp only [List.length_append, List.length_take, List.length_map]; omega
      rw [List.getElem?_append_right (by rw [hlen]; omega), hlen, List.getElem?_drop,
        if_neg (by omega)]
      congr 1
      omega


theorem div_mul_div (Q S o : Nat) : o / (Q * S) = o / Q / S :=
  (Nat.div_div_eq_div_mul o Q S).symm

theorem same_page_iff (Q S o p : Nat) :
    (o / (Q * S) = p / (Q * S) ∧ o % (Q * S) / Q = p % (Q * S) / Q) ↔ o / Q = p / Q := by
  rw [div_mul_div, div_mul_div, Nat.mod_mul_right_div_self, Nat.mod_mul_right_div_self]
  constructor
  · rintro ⟨h1, h2⟩
    have a := Nat.div_add_mod (o / Q) S
    have b := Nat.div_add_mod (p / Q) S
    rw [h1, h2] at a
    omega
  · intro h
    rw [h]
    exact ⟨rfl, rfl⟩

theorem in_page (Q o p : Nat) (h : o / Q = p / Q) : o + p % Q = p + o % Q := by
  have a := Nat.div_add_mod o Q
  have b := Nat.div_add_mod p Q
  rw [h] at a
  omega

theorem range_same_page (Q p n o : Nat) (hQ : 0 < Q) (hn : n ≤ Q - p % Q) (h1 : p ≤ o)
    (h2 : o < p + n) : o / Q = p / Q := by
  have b := Nat.div_add_mod p Q
  have hlt : p % Q < Q := Nat.mod_lt _ hQ
  have ho : o = (p % Q + (o - p)) + Q * (p / Q) := by omega
  rw [ho, Nat.add_mul_div_left _ _ hQ, Nat.div_eq_of_lt (by omega)]
  omega

theorem chain_page_of_slot {dev : scull_dev} {chain : List scull_qset} {i s : Nat}
    {dptr : scull_qset} {slot : Option quantum_buf}
    (hnode : chain[i]? = some dptr) (hslot : (write_slots dev dptr)[s]? = some slot) :
    chain_page chain i s = slot := by
  unfold chain_page
  rw [hnode]
  obtain ⟨dd⟩ := dptr
  cases dd with
  | none =>
    simp only [write_slots, List.getElem?_replicate] at hslot
    by_cases hq : s < dev.qset
    · simp only [if_pos hq, Option.some.injEq] at hslot
      exact hslot
    · simp only [if_neg hq] at hslot
      simp at hslot
  | some slots =>
    simp only [write_slots] at hslot
    simp only [hslot]
    cases slot <;> rfl

theorem mod_mod_page (Q S o : Nat) : o % (Q * S) % Q = o % Q :=
  Nat.mod_mul_right_mod o Q S

/-- The content after a write that put `bytes` at cell `q` of the quantum of
position `p`: the positions `p .. p + bytes.length - 1` hold the bytes, every
other position holds what it held. -/
theorem peek_set {dev : scull_dev} {dptr : scull_qset}
    {slot : Option quantum_buf} {j size' : Nat} (p : Nat) (bytes : List UInt8)
    (h0 : dev.quantum * dev.qset ≠ 0)
    (hnode : (dev.data ++ List.replicate j (⟨none⟩ : scull_qset))[p / (dev.quantum * dev.qset)]?
      = some dptr)
    (hslot : (write_slots dev dptr)[p % (dev.quantum * dev.qset) / dev.quantum]? = some slot)
    (hlen : p % (dev.quantum * dev.qset) % dev.quantum + bytes.length ≤
      (write_page dev slot).length)
    (hn : bytes.length ≤ dev.quantum - p % (dev.quantum * dev.qset) % dev.quantum) (o : Nat) :
    peek { dev with
        data := (dev.data ++ List.replicate j (⟨none⟩ : scull_qset)).set
          (p / (dev.quantum * dev.qset))
          (scull_qset.mk (some ((write_slots dev dptr).set
            (p % (dev.quantum * dev.qset) / dev.quantum)
            (some (store_bytes (write_page dev slot)
              (p % (dev.quantum * dev.qset) % dev.quantum) bytes))))),
        size := size' } o =
      if p ≤ o ∧ o < p + bytes.length then bytes[o - p]? else peek dev o := by
  have hQ : 0 < dev.quantum := Nat.pos_of_ne_zero (fun h => h0 (by simp [h]))
  unfold peek cell_at page_at
  simp only []
  rw [chain_page_set _ hnode hslot]
  have hold : chain_page dev.data (p / (dev.quantum * dev.qset))
      (p % (dev.quantum * dev.qset) / dev.quantum) = slot := by
    rw [← chain_page_append dev.data j]
    exact chain_page_of_slot hnode hslot
  by_cases hsame : o / dev.quantum = p / dev.quantum
  · have hcond := (same_page_iff dev.quantum dev.qset o p).2 hsame
    rw [if_pos hcond]
    simp only []
    rw [store_bytes_get _ _ _ hlen, hcond.1, hcond.2, hold]
    have hpg := in_page dev.quantum o p hsame
    rw [mod_mod_page, mod_mod_page] at *
    by_cases hin : p ≤ o ∧ o < p + bytes.length
    · have hin2 : p % dev.quantum ≤ o % dev.quantum ∧
          o % dev.quantum < p % dev.quantum + bytes.length := by omega
      have hidx : o % dev.quantum - p % dev.quantum = o - p := by omega
      rw [if_pos hin, if_pos hin2, hidx]
      cases bytes[o - p]? <;> rfl
    · have hin2 : ¬ (p % dev.quantum ≤ o % dev.quantum ∧
          o % dev.quantum < p % dev.quantum + bytes.length) := by omega
      rw [if_neg hin, if_neg hin2]
      cases slot with
      | some pg => rfl
      | none =>
        simp only [write_page, List.getElem?_replicate]
        split <;> rfl
  · have hcond : ¬ (o / (dev.quantum * dev.qset) = p / (dev.quantum * dev.qset) ∧
        o % (dev.quantum * dev.qset) / dev.quantum = p % (dev.quantum * dev.qset) / dev.quantum) :=
      fun h => hsame ((same_page_iff dev.quantum dev.qset o p).1 h)
    have hin : ¬ (p ≤ o ∧ o < p + bytes.length) := by
      intro h
      rw [mod_mod_page] at hn
      exact hsame (range_same_page dev.quantum p bytes.length o hQ hn h.1 h.2)
    rw [if_neg hcond, if_neg hin, chain_page_append]


theorem well_formed_set {dev : scull_dev} {chain : List scull_qset} {i s size' : Nat}
    {dptr : scull_qset} (pg : quantum_buf)
    (hall : chain.all (node_ok dev.quantum dev.qset) = true)
    (hnode : chain[i]? = some dptr) (hpg : pg.length = dev.quantum) :
    well_formed { dev with
      data := chain.set i (scull_qset.mk (some ((write_slots dev dptr).set s (some pg)))),
      size := size' } = true := by
  unfold well_formed
  simp only []
  rw [List.all_eq_true] at hall ⊢
  intro x hx
  rcases List.mem_or_eq_of_mem_set hx with hmem | rfl
  · exact hall x hmem
  · have hd := hall dptr (List.getElem?_mem hnode)
    unfold node_ok
    simp only [Bool.and_eq_true, beq_iff_eq, List.length_set, List.all_eq_true]
    refine ⟨write_slots_length hd, ?_⟩
    intro y hy
    rcases List.mem_or_eq_of_mem_set hy with hmem | rfl
    · unfold write_slots at hmem
      cases hdd : dptr.data with
      | none =>
        rw [hdd] at hmem
        simp only [List.mem_replicate] at hmem
        rw [hmem.2]; rfl
      | some slots =>
        rw [hdd] at hmem
        unfold node_ok at hd
        rw [hdd] at hd
        simp only [Bool.and_eq_true, beq_iff_eq, List.all_eq_true] at hd
        exact hd.2 y hmem
    · simp [page_ok, hpg]

/-- One call of the write loop, on a well-formed device within the range of
`int`: it accepts `n = min(buf.length, quantum - q_pos) > 0` bytes and leaves a
well-formed device of size `max(size, f_pos + n)` that holds them. -/
theorem scull_write_step {dev : scull_dev} {env : kernel_env} {buf : List UInt8} {f_pos : Nat}
    (hwf : well_formed dev = true) (hsig : env.signal = false)
    (h0 : dev.quantum * dev.qset ≠ 0) (hfit : dev.quantum * dev.qset < 2 ^ 31)
    (hitem : f_pos / (dev.quantum * dev.qset) < 2 ^ 31)
    (hmem : f_pos / (dev.quantum * dev.qset) + 3 ≤ env.mem) :
    ∃ r, scull_write dev env buf buf.length f_pos = some r ∧
      r.retval = (min buf.length (dev.quantum - f_pos % (dev.quantum * dev.qset) % dev.quantum)
        : Nat) ∧
      r.f_pos = f_pos +
        min buf.length (dev.quantum - f_pos % (dev.quantum * dev.qset) % dev.quantum) ∧
      r.dev.quantum = dev.quantum ∧ r.dev.qset = dev.qset ∧ r.dev.sem = dev.sem ∧
      r.dev.size = max dev.size (f_pos +
        min buf.length (dev.quantum - f_pos % (dev.quantum * dev.qset) % dev.quantum)) ∧
      well_formed r.dev = true ∧
      ∀ o, peek r.dev o =
        if f_pos ≤ o ∧ o < f_pos +
            min buf.length (dev.quantum - f_pos % (dev.quantum * dev.qset) % dev.quantum)
        then buf[o - f_pos]? else peek dev o := by
  obtain ⟨r, hr, hok⟩ := @scull_write_runs dev env buf buf.length f_pos hwf hsig h0 hfit
    hitem hmem (Nat.min_le_left _ _)
  obtain ⟨i, s, q, j, dptr, slot, hloc, hnode, hslot, hlen, hbuf, hrr⟩ :=
    scull_write_effect hr hok
  rw [target_some f_pos h0 hfit hitem] at hloc
  simp only [Option.some.injEq, Prod.mk.injEq] at hloc
  obtain ⟨hi, hs, hq⟩ := hloc
  subst hi hs hq
  refine ⟨r, hr, ?_⟩
  subst hrr
  refine ⟨rfl, rfl, rfl, rfl, rfl, rfl, ?_, ?_⟩
  · have hnode' := @node_ok_of_wf
      { dev with data := dev.data ++ List.replicate j (⟨none⟩ : scull_qset) }
      (node_ok_append j (show dev.data.all (node_ok dev.quantum dev.qset) = true from hwf))
      _ _ hnode
    have hplen := write_page_length hnode' hslot
    apply well_formed_set _ (node_ok_append j hwf) hnode
    rw [store_bytes_length _ _ _ (by simp only [List.length_take]; omega)]
    exact hplen
  · intro o
    have hbl : (buf.take (min buf.length (dev.quantum -
        f_pos % (dev.quantum * dev.qset) % dev.quantum))).length =
        min buf.length (dev.quantum - f_pos % (dev.quantum * dev.qset) % dev.quantum) := by
      simp only [List.length_take]; omega
    have := @peek_set dev dptr slot j (max dev.size (f_pos + min buf.length (dev.quantum -
        f_pos % (dev.quantum * dev.qset) % dev.quantum))) f_pos
      (buf.take (min buf.length (dev.quantum - f_pos % (dev.quantum * dev.qset) % dev.quantum)))
      h0 hnode hslot (by rw [hbl]; exact hlen) (by rw [hbl]; omega) o
    rw [hbl] at this
    rw [this]
    by_cases hin : f_pos ≤ o ∧ o < f_pos +
        min buf.length (dev.quantum - f_pos % (dev.quantum * dev.qset) % dev.quantum)
    · rw [if_pos hin, if_pos hin, List.getElem?_take_of_lt (by omega)]
    · rw [if_neg hin, if_neg hin]


/-- A read below the size from a quantum that is present, within the range of
`int` and with room in the user buffer. -/
theorem scull_read_present {dev : scull_dev} {env : kernel_env} {room count f_pos : Nat}
    {page : quantum_buf} (hsig : env.signal = false) (hlt : f_pos < dev.size)
    (h0 : dev.quantum * dev.qset ≠ 0) (hfit : dev.quantum * dev.qset < 2 ^ 31)
    (hitem : f_pos / (dev.quantum * dev.qset) < 2 ^ 31)
    (hpage : page_at dev (f_pos / (dev.quantum * dev.qset))
      (f_pos % (dev.quantum * dev.qset) / dev.quantum) = some page)
    (hlen : f_pos % (dev.quantum * dev.qset) % dev.quantum +
      min (min count (dev.size - f_pos))
        (dev.quantum - f_pos % (dev.quantum * dev.qset) % dev.quantum) ≤ page.length)
    (hroom : min (min count (dev.size - f_pos))
        (dev.quantum - f_pos % (dev.quantum * dev.qset) % dev.quantum) ≤ room) :
    scull_read dev env room count f_pos =
      some ⟨(min (min count (dev.size - f_pos))
          (dev.quantum - f_pos % (dev.quantum * dev.qset) % dev.quantum) : Nat), dev,
        f_pos + min (min count (dev.size - f_pos))
          (dev.quantum - f_pos % (dev.quantum * dev.qset) % dev.quantum),
        (page.drop (f_pos % (dev.quantum * dev.qset) % dev.quantum)).take
          (min (min count (dev.size - f_pos))
            (dev.quantum - f_pos % (dev.quantum * dev.qset) % dev.quantum))⟩ := by
  obtain ⟨slots, hnode, hslot, hi⟩ := page_at_lt hpage
  have hneed : follow_need (down dev) (f_pos / (dev.quantum * dev.qset)) = 0 := by
    simp only [follow_need, down]
    generalize f_pos / (dev.quantum * dev.qset) = item at hi
    omega
  have hge : ¬ f_pos ≥ (down dev).size := by simp only [down]; omega
  have hcl : (if f_pos + count > (down dev).size then (down dev).size - f_pos else count) =
      min count (dev.size - f_pos) := by
    simp only [down]
    split <;> omega
  have hnode' : (down dev).data[f_pos / (dev.quantum * dev.qset)]? = some ⟨some slots⟩ := hnode
  have hdd : scull_dev.mk (down dev).data (down dev).quantum (down dev).qset (down dev).size
      (down dev).sem = down dev := rfl
  have hlen' : ¬ page.length < f_pos % (dev.quantum * dev.qset) % dev.quantum +
      min (min count (dev.size - f_pos))
        (dev.quantum - f_pos % (dev.quantum * dev.qset) % dev.quantum) := by omega
  have hroom' : ¬ room < min (min count (dev.size - f_pos))
        (dev.quantum - f_pos % (dev.quantum * dev.qset) % dev.quantum) := by omega
  unfold scull_read
  simp only [hsig, if_neg hge, hcl, locate_some f_pos h0 hfit, to_int_of_lt hitem,
    scull_follow_eq, hneed, Nat.zero_le, if_true, List.replicate_zero, List.append_nil,
    hdd, hnode', hslot, clamp_eq_min, if_neg hlen', if_neg hroom', up_down]
  simp


theorem peek_some_page {dev : scull_dev} {o : Nat} {b : UInt8} (h : peek dev o = some b) :
    ∃ page, page_at dev (o / (dev.quantum * dev.qset))
        (o % (dev.quantum * dev.qset) / dev.quantum) = some page ∧
      page[o % (dev.quantum * dev.qset) % dev.quantum]? = some (some b) := by
  unfold peek cell_at at h
  split at h
  · rename_i page hp
    refine ⟨page, hp, ?_⟩
    cases hc : page[o % (dev.quantum * dev.qset) % dev.quantum]? with
    | none => rw [hc] at h; simp at h
    | some c =>
      rw [hc] at h
      simp only [Option.join, Option.some_bind, id] at h
      rw [h]
  · simp at h

/-- The cells a read takes from one quantum are the bytes the device holds. -/
theorem read_bytes {dev : scull_dev} {d : List UInt8} {p n : Nat} {page : quantum_buf}
    (h0 : dev.quantum * dev.qset ≠ 0)
    (hpeek : ∀ o, o < d.length → peek dev o = d[o]?)
    (hn : n ≤ dev.quantum - p % (dev.quantum * dev.qset) % dev.quantum)
    (hk : p + n ≤ d.length)
    (hpage : page_at dev (p / (dev.quantum * dev.qset))
      (p % (dev.quantum * dev.qset) / dev.quantum) = some page) :
    (page.drop (p % (dev.quantum * dev.qset) % dev.quantum)).take n =
      ((d.drop p).take n).map some := by
  have hQ : 0 < dev.quantum := Nat.pos_of_ne_zero (fun h => h0 (by simp [h]))
  apply List.ext_getElem?
  intro j
  by_cases hj : j < n
  · rw [List.getElem?_take_of_lt hj, List.getElem?_drop, List.getElem?_map,
      List.getElem?_take_of_lt hj, List.getElem?_drop]
    have hlt : p + j < d.length := by omega
    have hpk := hpeek (p + j) hlt
    rw [List.getElem?_eq_getElem hlt] at hpk ⊢
    obtain ⟨page', hp', hcell⟩ := peek_some_page hpk
    rw [mod_mod_page] at hn hcell ⊢
    have hsame := range_same_page dev.quantum p n (p + j) hQ hn (by omega) (by omega)
    have hcond := (same_page_iff dev.quantum dev.qset (p + j) p).2 hsame
    rw [hcond.1, hcond.2, hpage] at hp'
    simp only [Option.some.injEq] at hp'
    subst hp'
    have hidx := in_page dev.quantum (p + j) p hsame
    have hidx2 : (p + j) % dev.quantum = p % dev.quantum + j := by omega
    rw [hidx2] at hcell
    rw [hcell]
    rfl
  · rw [List.getElem?_take_eq_none (by omega), List.getElem?_map,
      List.getElem?_take_eq_none (by omega)]
    rfl

theorem item_in_range {isz k p : Nat} (hk : k ≤ 2 ^ 31 * isz) (hp : p < k) :
    p / isz < 2 ^ 31 := by
  by_cases hz : isz = 0
  · subst hz; simp
  · exact (Nat.div_lt_iff_lt_mul (Nat.pos_of_ne_zero hz)).2 (by omega)

/-- The write loop: started at position `p` on a device that holds the first
`p` bytes of `d`, with what is left of `d`, it ends at position `d.length` on a
device that holds all of `d`. -/
theorem write_all_holds (env : kernel_env) (d : List UInt8) (dev0 : scull_dev)
    (hsig : env.signal = false) (h0 : dev0.quantum * dev0.qset ≠ 0)
    (hfit : dev0.quantum * dev0.qset < 2 ^ 31)
    (hk : d.length ≤ 2 ^ 31 * (dev0.quantum * dev0.qset))
    (hmem : d.length / (dev0.quantum * dev0.qset) + 3 ≤ env.mem) :
    ∀ (fuel : Nat) (dev : scull_dev) (p : Nat), p ≤ d.length → d.length - p ≤ fuel →
      dev.quantum = dev0.quantum → dev.qset = dev0.qset → dev.sem = dev0.sem →
      holds dev d p →
      ∃ dev', write_all env fuel dev (d.drop p) p = some (dev', d.length) ∧
        dev'.quantum = dev0.quantum ∧ dev'.qset = dev0.qset ∧ dev'.sem = dev0.sem ∧
        holds dev' d d.length := by
  intro fuel
  induction fuel with
  | zero =>
    intro dev p hp hfuel hq hs hsem hh
    have hpe : p = d.length := by omega
    subst hpe
    exact ⟨dev, by simp [write_all], hq, hs, hsem, hh⟩
  | succ fuel ih =>
    intro dev p hp hfuel hq hs hsem hh
    by_cases hpe : p = d.length
    · subst hpe
      exact ⟨dev, by simp [write_all], hq, hs, hsem, hh⟩
    · have hlt : p < d.length := by omega
      obtain ⟨hsize, hwf, hpeek⟩ := hh
      have hitem := item_in_range hk hlt
      have hmem' : p / (dev0.quantum * dev0.qset) + 3 ≤ env.mem := by
        have := Nat.div_le_div_right (c := dev0.quantum * dev0.qset) (Nat.le_of_lt hlt)
        omega
      rw [← hq, ← hs] at h0 hfit hitem hmem'
      obtain ⟨r, hr, hret, hpos, hrq, hrs, hrsem, hrsize, hrwf, hrpeek⟩ :=
        @scull_write_step dev env (d.drop p) p hwf hsig h0 hfit hitem hmem'
      have hqlt := q_pos_lt p h0
      have hdl : (d.drop p).length = d.length - p := List.length_drop p d
      rw [hdl] at hret hpos hrsize hrpeek hr
      generalize hn : min (d.length - p)
        (dev.quantum - p % (dev.quantum * dev.qset) % dev.quantum) = n at hret hpos hrsize hrpeek
      have hnpos : 0 < n := by omega
      have hnle : n ≤ d.length - p := by omega
      have hcont := ih r.dev (p + n) (by omega) (by omega) (hrq.trans hq) (hrs.trans hs)
        (hrsem.trans hsem) ⟨by rw [hrsize, hsize]; omega, hrwf, by
          intro o ho
          rw [hrpeek o]
          by_cases hin : p ≤ o ∧ o < p + n
          · rw [if_pos hin, List.getElem?_drop]
            congr 1
            omega
          · rw [if_neg hin]
            exact hpeek o (by omega)⟩
      obtain ⟨dev', hw, hrest⟩ := hcont
      refine ⟨dev', ?_, hrest⟩
      have hne : ¬ (d.drop p).length = 0 := by rw [hdl]; omega
      rw [write_all]
      simp only [if_neg hne, hdl, hr]
      have hpos' : (0 : Int) < r.retval := by rw [hret]; exact_mod_cast hnpos
      rw [if_pos hpos', hret, Int.toNat_ofNat, List.drop_drop, hpos]
      have hne2 : ¬ d.length - p = 0 := by omega
      simp only [if_neg hne2]
      exact hw


/-- The read loop on a device that holds `d`: started at position `p` for the
`d.length - p` bytes that follow, it returns them, ends at position `d.length`
and leaves the device as it was. -/
theorem read_all_holds (env : kernel_env) (d : List UInt8) (dev : scull_dev)
    (hsig : env.signal = false) (h0 : dev.quantum * dev.qset ≠ 0)
    (hfit : dev.quantum * dev.qset < 2 ^ 31)
    (hk : d.length ≤ 2 ^ 31 * (dev.quantum * dev.qset)) (hh : holds dev d d.length) :
    ∀ (fuel p : Nat), p ≤ d.length → d.length - p ≤ fuel →
      read_all env fuel dev (d.length - p) p = some (dev, d.length, (d.drop p).map some) := by
  obtain ⟨hsize, hwf, hpeek⟩ := hh
  intro fuel
  induction fuel with
  | zero =>
    intro p hp hfuel
    have hpe : d.length - p = 0 := by omega
    have hpe2 : p = d.length := by omega
    rw [read_all]
    simp only [hpe, if_true]
    rw [List.drop_eq_nil_of_le (by omega), hpe2]
    rfl
  | succ fuel ih =>
    intro p hp hfuel
    by_cases hpe : d.length - p = 0
    · have hpe2 : p = d.length := by omega
      rw [read_all]
      simp only [hpe, if_true]
      rw [List.drop_eq_nil_of_le (by omega), hpe2]
      rfl
    · have hlt : p < d.length := by omega
      have hitem := item_in_range hk hlt
      have hqlt := q_pos_lt p h0
      have hpk := hpeek p hlt
      rw [List.getElem?_eq_getElem hlt] at hpk
      obtain ⟨page, hpage, _⟩ := peek_some_page hpk
      have hplen : page.length = dev.quantum := by
        obtain ⟨slots, hnode, hslot, _⟩ := page_at_lt hpage
        exact (slots_of_node_ok (node_ok_of_wf hwf hnode) rfl).2 _ page hslot
      have hcount : min (min (d.length - p) (dev.size - p))
          (dev.quantum - p % (dev.quantum * dev.qset) % dev.quantum) =
          min (d.length - p) (dev.quantum - p % (dev.quantum * dev.qset) % dev.quantum) := by
        rw [hsize]; omega
      have hread := @scull_read_present dev env (d.length - p) (d.length - p) p page
        hsig (by rw [hsize]; exact hlt) h0 hfit hitem hpage
        (by rw [hplen]; omega) (by omega)
      rw [hcount] at hread
      have hbytes := read_bytes (n := min (d.length - p)
          (dev.quantum - p % (dev.quantum * dev.qset) % dev.quantum)) h0 hpeek
        (Nat.min_le_right _ _) (by omega) hpage
      rw [hbytes] at hread
      generalize hn : min (d.length - p)
        (dev.quantum - p % (dev.quantum * dev.qset) % dev.quantum) = n at hread
      have hnpos : 0 < n := by omega
      have hnle : n ≤ d.length - p := by omega
      have hcont := ih (p + n) (by omega) (by omega)
      have hsub : d.length - (p + n) = d.length - p - n := by omega
      rw [hsub] at hcont
      rw [read_all]
      simp only [if_neg hpe, hread]
      have hpos' : (0 : Int) < (n : Int) := by exact_mod_cast hnpos
      rw [if_pos hpos', Int.toNat_ofNat, hcont]
      simp only [Option.map_some', Option.some.injEq, Prod.mk.injEq, true_and]
      rw [← List.map_append]
      congr 1
      have := List.take_append_drop n (d.drop p)
      rw [List.drop_drop] at this
      exact this


/-- Every way `scull_write` can return, with the `kmalloc` budget at each
request. -/
theorem scull_write_cases {dev : scull_dev} {env : kernel_env} {buf : List UInt8}
    {count f_pos : Nat} {r : write_result}
    (h : scull_write dev env buf count f_pos = some r) :
    (env.signal = true ∧ r = ⟨-ERESTARTSYS, dev, f_pos⟩) ∨
    (env.signal = false ∧ ∃ item s_pos q_pos dev1 qs mem1,
      locate dev.quantum dev.qset f_pos = some (item, s_pos, q_pos) ∧
      scull_follow (down dev) item env.mem = some ⟨dev1, qs, mem1⟩ ∧
      ((qs = none ∧ r = ⟨-ENOMEM, up dev1, f_pos⟩) ∨
       ∃ i dptr, qs = some i ∧ dev1.data[i]? = some dptr ∧
        ((dptr.data = none ∧ mem1 = 0 ∧ r = ⟨-ENOMEM, up dev1, f_pos⟩) ∨
         ((dptr.data = none → 0 < mem1) ∧
          ∃ slot, (write_slots dev dptr)[s_pos]? = some slot ∧
           ((slot = none ∧ mem1 = (if dptr.data.isNone then 1 else 0) ∧
              r = ⟨-ENOMEM,
                up { dev1 with data := dev1.data.set i ⟨some (write_slots dev dptr)⟩ }, f_pos⟩) ∨
            ((slot = none → (if dptr.data.isNone then 1 else 0) < mem1) ∧
             q_pos + min count (dev.quantum - q_pos) ≤ (write_page dev slot).length ∧
             ((buf.length < min count (dev.quantum - q_pos) ∧
                r = ⟨-EFAULT,
                  up { dev1 with
                    data := dev1.data.set i ⟨some ((write_slots dev dptr).set s_pos
                      (some (store_bytes (write_page dev slot) q_pos
                        (copy_from_user buf (min count (dev.quantum - q_pos))))))⟩ },
                  f_pos⟩) ∨
              (min count (dev.quantum - q_pos) ≤ buf.length ∧
                r = ⟨(min count (dev.quantum - q_pos) : Nat),
                  up { dev1 with
                    data := dev1.data.set i ⟨some ((write_slots dev dptr).set s_pos
                      (some (store_bytes (write_page dev slot) q_pos
                        (buf.take (min count (dev.quantum - q_pos))))))⟩,
                    size := max dev1.size (f_pos + min count (dev.quantum - q_pos)) },
                  f_pos + min count (dev.quantum - q_pos)⟩)))))))) := by
  unfold scull_write at h
  simp only [clamp_eq_min] at h
  split at h
  · rename_i hsig
    simp only [Option.some.injEq] at h; subst h
    exact Or.inl ⟨hsig, rfl⟩
  · rename_i hsig
    have hsig : env.signal = false := by simpa using hsig
    refine Or.inr ⟨hsig, ?_⟩
    split at h
    · simp at h
    · rename_i item s_pos q_pos hloc
      split at h
      · simp at h
      · rename_i dev1 mem1 hfol
        simp only [Option.some.injEq] at h; subst h
        exact ⟨item, s_pos, q_pos, dev1, none, mem1, hloc, hfol, Or.inl ⟨rfl, rfl⟩⟩
      · rename_i dev1 i mem1 hfol
        refine ⟨item, s_pos, q_pos, dev1, some i, mem1, hloc, hfol, Or.inr ?_⟩
        split at h
        · simp at h
        · rename_i dptr hdptr
          refine ⟨i, dptr, rfl, hdptr, ?_⟩
          split at h
          · rename_i hslots
            simp only [Option.some.injEq] at h; subst h
            refine Or.inl ?_
            cases hd : dptr.data with
            | some s => rw [hd] at hslots; simp at hslots
            | none =>
              rw [hd] at hslots
              cases mem1 with
              | zero => exact ⟨rfl, rfl, rfl⟩
              | succ m => simp at hslots
          · rename_i slots mem2 hslots
            have hs : slots = write_slots dev dptr ∧ (dptr.data = none → 0 < mem1) ∧
                mem2 = mem1 - (if dptr.data.isNone then 1 else 0) := by
              unfold write_slots
              cases hd : dptr.data with
              | some s =>
                rw [hd] at hslots; simp at hslots
                exact ⟨hslots.1.symm, by simp, by simp [hslots.2]⟩
              | none =>
                rw [hd] at hslots
                cases mem1 with
                | zero => simp at hslots
                | succ m =>
                  simp at hslots
                  exact ⟨hslots.1.symm, by simp, by simp [hslots.2]⟩
            obtain ⟨hs, hm1, hm2⟩ := hs
            subst hs
            refine Or.inr ⟨hm1, ?_⟩
            split at h
            · simp at h
            · rename_i slot hslot
              refine ⟨slot, hslot, ?_⟩
              split at h
              · rename_i hpage
                simp only [Option.some.injEq] at h; subst h
                refine Or.inl ?_
                cases slot with
                | some p => simp at hpage
                | none =>
                  cases hk : mem2 with
                  | zero =>
                    refine ⟨rfl, ?_, rfl⟩
                    rw [hk] at hm2
                    cases hd : dptr.data with
                    | some s => rw [hd] at hm2; simp at hm2; simp; omega
                    | none => have := hm1 hd; rw [hd] at hm2; simp at hm2; simp; omega
                  | succ m => rw [hk] at hpage; simp at hpage
              · rename_i page hpage
                have hp : page = write_page dev slot ∧
                    (slot = none → (if dptr.data.isNone then 1 else 0) < mem1) := by
                  unfold write_page
                  cases slot with
                  | some s => simp at hpage; exact ⟨hpage.symm, by simp⟩
                  | none =>
                    cases hk : mem2 with
                    | zero => rw [hk] at hpage; simp at hpage
                    | succ m =>
                      rw [hk] at hpage; simp at hpage
                      refine ⟨hpage.symm, fun _ => ?_⟩
                      rw [hk] at hm2
                      omega
                obtain ⟨hp, hm3⟩ := hp
                subst hp
                refine Or.inr ⟨hm3, ?_⟩
                split at h
                · simp at h
                · rename_i hlen
                  refine ⟨by omega, ?_⟩
                  split at h
                  · rename_i hbuf
                    simp only [Option.some.injEq] at h; subst h
                    exact Or.inl ⟨hbuf, by simp⟩
                  · rename_i hbuf
                    simp only [Option.some.injEq] at h
                    refine Or.inr ⟨by omega, ?_⟩
                    have hc : copy_from_user buf (min count (dev.quantum - q_pos)) =
                        buf.take (min count (dev.quantum - q_pos)) := by
                      unfold copy_from_user
                      have : min count (dev.quantum - q_pos) - buf.length = 0 := by omega
                      rw [this]; simp
                    rw [hc] at h
                    rw [← h]
                    by_cases hsz : dev1.size < f_pos + min count (dev.quantum - q_pos)
                    · have hmax : max dev1.size (f_pos + min count (dev.quantum - q_pos)) =
                          f_pos + min count (dev.quantum - q_pos) := by omega
                      rw [if_pos hsz, hmax]; simp
                    · have hmax : max dev1.size (f_pos + min count (dev.quantum - q_pos)) =
                          dev1.size := by omega
                      rw [if_neg hsz, hmax]; simp

theorem follow_down {dev : scull_dev} {n : Int} {mem : Nat} {dev1 : scull_dev}
    {qs : Option Nat} {mem1 : Nat}
    (h : scull_follow (down dev) n mem = some ⟨dev1, qs, mem1⟩) :
    ∃ j, dev1 = down { dev with data := dev.data ++ List.replicate j ⟨none⟩ } := by
  obtain ⟨h1, h2, h3, h4, j, h5⟩ := scull_follow_frame h
  refine ⟨j, ?_⟩
  obtain ⟨d, q, s, sz, sm⟩ := dev
  obtain ⟨d1, q1, s1, sz1, sm1⟩ := dev1
  simp [down] at h1 h2 h3 h4 h5
  simp [down, h1, h2, h3, h4, h5]

theorem set_slots_self {chain : List scull_qset} {i : Nat} {dptr : scull_qset}
    {slots : List (Option quantum_buf)} (hnode : chain[i]? = some dptr)
    (hd : dptr.data = some slots) : chain.set i ⟨some slots⟩ = chain := by
  obtain ⟨dd⟩ := dptr
  simp only at hd
  subst hd
  apply List.ext_getElem?
  intro k
  by_cases hk : k = i
  · subst hk
    have hi : k < chain.length := by
      by_contra hlt
      rw [List.getElem?_eq_none (by omega)] at hnode
      simp at hnode
    rw [List.getElem?_set_self hi, hnode]
  · rw [List.getElem?_set_ne (Ne.symm hk)]

/-- Every way `scull_write` can return, with the device it leaves written in
terms of the device it found: `j` is the number of nodes `scull_follow`
appended. -/
theorem scull_write_norm {dev : scull_dev} {env : kernel_env} {buf : List UInt8}
    {count f_pos : Nat} {r : write_result}
    (h : scull_write dev env buf count f_pos = some r) :
    ∃ j : Nat,
      (env.signal = true ∧ r = ⟨-ERESTARTSYS, dev, f_pos⟩) ∨
      (env.signal = false ∧
        r = ⟨-ENOMEM, { dev with data := dev.data ++ List.replicate j ⟨none⟩ }, f_pos⟩) ∨
      (env.signal = false ∧ ∃ i : Nat,
        (dev.data ++ List.replicate j (⟨none⟩ : scull_qset))[i]? = some ⟨none⟩ ∧
        r = ⟨-ENOMEM,
          { dev with
            data := (dev.data ++ List.replicate j (⟨none⟩ : scull_qset)).set i
              (scull_qset.mk (some (List.replicate dev.qset none))) }, f_pos⟩) ∨
      (env.signal = false ∧ ∃ (i s_pos q_pos : Nat) (dptr : scull_qset) (slot : Option quantum_buf),
        target dev.quantum dev.qset f_pos = some (i, s_pos, q_pos) ∧
        (dev.data ++ List.replicate j (⟨none⟩ : scull_qset))[i]? = some dptr ∧
        (write_slots dev dptr)[s_pos]? = some slot ∧
        q_pos + min count (dev.quantum - q_pos) ≤ (write_page dev slot).length ∧
        ((buf.length < min count (dev.quantum - q_pos) ∧
          r = ⟨-EFAULT,
            { dev with
              data := (dev.data ++ List.replicate j (⟨none⟩ : scull_qset)).set i
                (scull_qset.mk (some ((write_slots dev dptr).set s_pos
                  (some (store_bytes (write_page dev slot) q_pos
                    (copy_from_user buf (min count (dev.quantum - q_pos)))))))) },
            f_pos⟩) ∨
         (min count (dev.quantum - q_pos) ≤ buf.length ∧
          r = ⟨(min count (dev.quantum - q_pos) : Nat),
            { dev with
              data := (dev.data ++ List.replicate j (⟨none⟩ : scull_qset)).set i
                (scull_qset.mk (some ((write_slots dev dptr).set s_pos
                  (some (store_bytes (write_page dev slot) q_pos
                    (buf.take (min count (dev.quantum - q_pos)))))))),
              size := max dev.size (f_pos + min count (dev.quantum - q_pos)) },
            f_pos + min count (dev.quantum - q_pos)⟩))) := by
  rcases scull_write_cases h with ⟨hs, hr⟩ | ⟨hs, item, s, q, dev1, qs, mem1, hloc, hfol, hres⟩
  · exact ⟨0, Or.inl ⟨hs, hr⟩⟩
  · obtain ⟨j, hdev1⟩ := follow_down hfol
    have hdata : dev1.data = dev.data ++ List.replicate j ⟨none⟩ := by rw [hdev1]; rfl
    have hup1 : up dev1 = { dev with data := dev.data ++ List.replicate j ⟨none⟩ } := by
      rw [hdev1]; simp [up, down]
    have hup2 : ∀ data : List scull_qset,
        up { dev1 with data := data } = { dev with data := data } := by
      intro data
      rw [hdev1]; simp [up, down]
    have hup : ∀ (data : List scull_qset) (size : Nat),
        up { dev1 with data := data, size := size } = { dev with data := data, size := size } := by
      intro data size
      rw [hdev1]; simp [up, down]
    have hsz : dev1.size = dev.size := by rw [hdev1]; rfl
    refine ⟨j, Or.inr ?_⟩
    rcases hres with ⟨_, hr⟩ | ⟨i, dptr, hqs, hnode, hres⟩
    · exact Or.inl ⟨hs, by rw [hr, hup1]⟩
    · subst hqs
      obtain ⟨hitem, _, _, _, _⟩ := scull_follow_ptr hfol
      have hloc : target dev.quantum dev.qset f_pos = some (i, s, q) := by
        rw [hitem]; exact target_of_locate hloc
      rw [hdata] at hnode
      rcases hres with ⟨_, _, hr⟩ | ⟨_, slot, hslot, hres⟩
      · exact Or.inl ⟨hs, by rw [hr, hup1]⟩
      · rcases hres with ⟨_, _, hr⟩ | ⟨_, hlen, hres⟩
        · rw [hup2, hdata] at hr
          cases hd : dptr.data with
          | some slots =>
            refine Or.inl ⟨hs, ?_⟩
            rw [hr]
            have : write_slots dev dptr = slots := by simp [write_slots, hd]
            rw [this, set_slots_self hnode hd]
          | none =>
            refine Or.inr (Or.inl ⟨hs, i, ?_, ?_⟩)
            · rw [hnode]
              obtain ⟨dd⟩ := dptr
              simp only at hd
              rw [hd]
            · rw [hr]
              have : write_slots dev dptr = List.replicate dev.qset none := by
                simp [write_slots, hd]
              rw [this]
        · refine Or.inr (Or.inr ⟨hs, i, s, q, dptr, slot, hloc, hnode, hslot, hlen, ?_⟩)
          rcases hres with ⟨hb, hr⟩ | ⟨hb, hr⟩
          · refine Or.inl ⟨hb, ?_⟩
            rw [hr, hup2, hdata]
          · refine Or.inr ⟨hb, ?_⟩
            rw [hr, hup, hdata, hsz]

theorem slots_at_append {dev : scull_dev} {j i : Nat} {dptr : scull_qset}
    (hnode : (dev.data ++ List.replicate j (⟨none⟩ : scull_qset))[i]? = some dptr) :
    slots_at dev i = dptr.data := by
  unfold slots_at
  by_cases hi : i < dev.data.length
  · rw [List.getElem?_append_left hi] at hnode
    rw [hnode]
  · have hi : dev.data.length ≤ i := by omega
    rw [List.getElem?_append_right hi, List.getElem?_replicate] at hnode
    rw [List.getElem?_eq_none hi]
    split at hnode
    · simp only [Option.some.injEq] at hnode
      rw [← hnode]
    · simp at hnode

theorem page_at_append {dev : scull_dev} {j i s : Nat} {dptr : scull_qset}
    {slot : Option quantum_buf}
    (hnode : (dev.data ++ List.replicate j (⟨none⟩ : scull_qset))[i]? = some dptr)
    (hslot : (write_slots dev dptr)[s]? = some slot) :
    page_at dev i s = slot := by
  unfold page_at
  rw [← chain_page_append dev.data j i s]
  exact chain_page_of_slot hnode hslot

/-- A write that has the semaphore comes back with `-ENOMEM` exactly when
the `kmalloc` budget is below what it has to request. -/
theorem scull_write_enomem_iff {dev : scull_dev} {env : kernel_env} {buf : List UInt8}
    {count f_pos : Nat} {r : write_result} {i s_pos q_pos : Nat}
    (h : scull_write dev env buf count f_pos = some r) (hsig : env.signal = false)
    (htgt : target dev.quantum dev.qset f_pos = some (i, s_pos, q_pos)) :
    env.mem < write_allocs dev i s_pos ↔ r.retval = -ENOMEM := by
  obtain ⟨item0, hloc, hidx⟩ := locate_of_target htgt
  rcases scull_write_cases h with ⟨hs, _⟩ | ⟨_, item, s, q, dev1, qs, mem1, hloc', hfol, hres⟩
  · rw [hsig] at hs; simp at hs
  · rw [hloc] at hloc'
    simp only [Option.some.injEq, Prod.mk.injEq] at hloc'
    obtain ⟨rfl, rfl, rfl⟩ := hloc'
    have hneed : follow_need (down dev) i = follow_need dev i := rfl
    rw [scull_follow_int, hidx, hneed] at hfol
    unfold write_allocs
    by_cases hm : follow_need dev i ≤ env.mem
    · rw [if_pos hm] at hfol
      simp only [Option.some.injEq, follow_result.mk.injEq] at hfol
      obtain ⟨hdev1, hqs, hmem1⟩ := hfol
      have hdata : dev1.data = dev.data ++ List.replicate (follow_need dev i) ⟨none⟩ := by
        rw [← hdev1]; rfl
      rcases hres with ⟨hq, _⟩ | ⟨i', dptr, hq, hnode, hres⟩
      · rw [hq] at hqs; simp at hqs
      · rw [hq] at hqs
        simp only [Option.some.injEq] at hqs
        subst hqs
        rw [hdata] at hnode
        have ha := slots_at_append hnode
        rcases hres with ⟨hd, hz, hr⟩ | ⟨hpos, slot, hslot, hres⟩
        · rw [ha, hd, hr]
          simp
          omega
        · have hb := page_at_append hnode hslot
          rw [ha, hb]
          rcases hres with ⟨hsl, hz, hr⟩ | ⟨hpos2, _, hres⟩
          · rw [hsl, hr]
            cases hd : dptr.data with
            | none => rw [hd] at hz; simp at hz ⊢; omega
            | some sl => rw [hd] at hz; simp at hz ⊢; omega
          · have hne : r.retval ≠ -ENOMEM := by
              rcases hres with ⟨_, hr⟩ | ⟨_, hr⟩
              · rw [hr]; simp [EFAULT, ENOMEM]
              · rw [hr]; simp only [ENOMEM]; omega
            simp only [hne, iff_false, not_lt]
            cases hd : dptr.data with
            | none =>
              have h1 := hpos hd
              cases slot with
              | none =>
                have h2 := hpos2 rfl
                rw [hd] at h2
                simp at h2 ⊢
                omega
              | some p => simp; omega
            | some sl =>
              cases slot with
              | none =>
                have h2 := hpos2 rfl
                rw [hd] at h2
                simp at h2 ⊢
                omega
              | some p => simp; omega
    · rw [if_neg hm] at hfol
      simp only [Option.some.injEq, follow_result.mk.injEq] at hfol
      obtain ⟨_, hqs, _⟩ := hfol
      rcases hres with ⟨_, hr⟩ | ⟨i', dptr, hq, _⟩
      · rw [hr]
        simp
        omega
      · rw [hq] at hqs; simp at hqs

theorem page_at_set_slots {dev : scull_dev} {chain : List scull_qset} {i : Nat}
    (hnode : chain[i]? = some ⟨none⟩) (i' s' : Nat) :
    chain_page (chain.set i (scull_qset.mk (some (List.replicate dev.qset none)))) i' s' =
      chain_page chain i' s' := by
  have hi : i < chain.length := by
    by_contra hlt
    rw [List.getElem?_eq_none (by omega)] at hnode
    simp at hnode
  unfold chain_page
  by_cases hii : i' = i
  · subst hii
    rw [List.getElem?_set_self hi, hnode]
    simp only [List.getElem?_replicate]
    by_cases hq : s' < dev.qset
    · simp only [if_pos hq]
    · simp only [if_neg hq]
  · rw [List.getElem?_set_ne (Ne.symm hii)]

/-- A write that comes back with `-ENOMEM` or interrupted leaves every slot
as it was. -/
theorem scull_write_fail_pages {dev : scull_dev} {env : kernel_env} {buf : List UInt8}
    {count f_pos : Nat} {r : write_result}
    (h : scull_write dev env buf count f_pos = some r)
    (hr : r.retval = -ENOMEM ∨ r.retval = -ERESTARTSYS) (i s : Nat) :
    page_at r.dev i s = page_at dev i s := by
  obtain ⟨j, hcases⟩ := scull_write_norm h
  rcases hcases with ⟨_, hr'⟩ | ⟨_, hr'⟩ | ⟨_, k, hnode, hr'⟩ | ⟨_, k, s', q, dptr, slot, _, _, _, _, hres⟩
  · rw [hr']
  · rw [hr']
    exact chain_page_append dev.data j i s
  · rw [hr']
    unfold page_at
    simp only []
    rw [page_at_set_slots hnode, chain_page_append]
  · exfalso
    rcases hres with ⟨_, hr'⟩ | ⟨_, hr'⟩
    · rw [hr'] at hr
      simp [EFAULT, ENOMEM, ERESTARTSYS] at hr
    · rw [hr'] at hr
      simp only [ENOMEM, ERESTARTSYS] at hr
      omega

theorem tmod_ofNat (f : Nat) (w : Int) : Int.tmod (f : Int) w = ((f % w.natAbs : Nat) : Int) := by
  cases w with
  | ofNat n => simp [Int.tmod]
  | negSucc n => simp [Int.tmod]

theorem to_int_natAbs (x : Nat) (h0 : to_int x ≠ 0) :
    (to_int x).natAbs ≠ 0 ∧ (to_int x).natAbs ≤ x ∧ (to_int x).natAbs ≤ 2 ^ 31 := by
  unfold to_int at h0 ⊢
  split at h0 <;> rename_i hlt <;> simp only [hlt, if_true, if_false] <;> omega

/-- The slot and the cell of a translation lie inside the pointer array and
the quantum, whatever `quantum * qset` wraps to. -/
theorem locate_bounds {quantum qset f_pos : Nat} {item : Int} {s_pos q_pos : Nat}
    (h : locate quantum qset f_pos = some (item, s_pos, q_pos)) :
    0 < quantum ∧ s_pos < qset ∧ q_pos < quantum := by
  unfold locate at h
  simp only [] at h
  split at h
  · simp at h
  · rename_i hw
    simp only [Option.some.injEq, Prod.mk.injEq] at h
    obtain ⟨_, h2, h3⟩ := h
    obtain ⟨hn0, hnle, hn31⟩ := to_int_natAbs (quantum * qset) hw
    have hQ : 0 < quantum := by
      apply Nat.pos_of_ne_zero
      intro hq
      apply hw
      simp [hq, to_int]
    have hrest : f_pos % (to_int (quantum * qset)).natAbs < (to_int (quantum * qset)).natAbs :=
      Nat.mod_lt _ (Nat.pos_of_ne_zero hn0)
    rw [tmod_ofNat, wrap_int_of_lt (by omega), Int.toNat_ofNat] at h2 h3
    refine ⟨hQ, ?_, ?_⟩
    · rw [← h2]
      apply Nat.div_lt_of_lt_mul
      omega
    · rw [← h3]
      exact Nat.mod_lt _ hQ

/-- The target of a position within the range of `int`, read backwards. -/
theorem target_in_range {quantum qset f_pos i s_pos q_pos : Nat}
    (h : target quantum qset f_pos = some (i, s_pos, q_pos))
    (hfit : quantum * qset < 2 ^ 31) (hitem : f_pos / (quantum * qset) < 2 ^ 31) :
    quantum * qset ≠ 0 ∧ i = f_pos / (quantum * qset) ∧
      s_pos = f_pos % (quantum * qset) / quantum ∧
      q_pos = f_pos % (quantum * qset) % quantum := by
  have h0 : quantum * qset ≠ 0 := by
    intro hz
    have : locate quantum qset f_pos = none := by simp [locate, hz, to_int]
    simp [target, this] at h
  rw [target_some f_pos h0 hfit hitem] at h
  simp only [Option.some.injEq, Prod.mk.injEq] at h
  exact ⟨h0, h.1.symm, h.2.1.symm, h.2.2.symm⟩

/-- The end of the quantum of a position, counted in quanta and in nodes. -/
theorem page_end_le (Q S p n : Nat) (h0 : Q * S ≠ 0) (hn : n ≤ Q - p % (Q * S) % Q) :
    p + n ≤ (p / (Q * S) * S + p % (Q * S) / Q + 1) * Q ∧
    p + n ≤ (p / (Q * S) + 1) * (Q * S) := by
  have hQ : 0 < Q := Nat.pos_of_ne_zero (fun h => h0 (by simp [h]))
  have hS : 0 < S := Nat.pos_of_ne_zero (fun h => h0 (by simp [h]))
  have h1 : Q * S * (p / (Q * S)) + p % (Q * S) = p := Nat.div_add_mod p (Q * S)
  have h2 : Q * (p % (Q * S) / Q) + p % (Q * S) % Q = p % (Q * S) :=
    Nat.div_add_mod (p % (Q * S)) Q
  have h3 : p % (Q * S) % Q < Q := Nat.mod_lt _ hQ
  have h4 : p % (Q * S) / Q < S := by
    apply Nat.div_lt_of_lt_mul
    exact Nat.mod_lt _ (Nat.pos_of_ne_zero h0)
  have h5 : (p / (Q * S) * S + p % (Q * S) / Q + 1) * Q =
      Q * S * (p / (Q * S)) + Q * (p % (Q * S) / Q) + Q := by ring
  have h6 : (p / (Q * S) + 1) * (Q * S) = Q * S * (p / (Q * S)) + Q * S := by ring
  have h7 : Q * (p % (Q * S) / Q) + Q ≤ Q * S := by
    have : Q * (p % (Q * S) / Q + 1) ≤ Q * S := Nat.mul_le_mul_left Q h4
    rw [Nat.mul_add, Nat.mul_one] at this
    exact this
  rw [h5, h6]
  generalize Q * S * (p / (Q * S)) = A at *
  generalize Q * (p % (Q * S) / Q) = B at *
  generalize p % (Q * S) % Q = C at *
  generalize p % (Q * S) = D at *
  generalize Q * S = E at *
  omega

/-- The chain a write leaves is no longer than the node of its position asks
for. -/
theorem scull_write_length {dev : scull_dev} {env : kernel_env} {buf : List UInt8}
    {count f_pos : Nat} {r : write_result} {i s_pos q_pos : Nat}
    (h : scull_write dev env buf count f_pos = some r)
    (htgt : target dev.quantum dev.qset f_pos = some (i, s_pos, q_pos)) :
    r.dev.data.length ≤ max dev.data.length (i + 1) := by
  obtain ⟨item0, hloc, hidx⟩ := locate_of_target htgt
  rcases scull_write_cases h with ⟨hs, hr⟩ | ⟨_, item, s, q, dev1, qs, mem1, hloc', hfol, hres⟩
  · rw [hr]; exact le_max_left _ _
  · rw [hloc] at hloc'
    simp only [Option.some.injEq, Prod.mk.injEq] at hloc'
    obtain ⟨rfl, rfl, rfl⟩ := hloc'
    have hneed : follow_need (down dev) i = follow_need dev i := rfl
    rw [scull_follow_int, hidx, hneed] at hfol
    have hlen : dev1.data.length ≤ max dev.data.length (i + 1) := by
      by_cases hm : follow_need dev i ≤ env.mem
      · rw [if_pos hm] at hfol
        simp only [Option.some.injEq, follow_result.mk.injEq] at hfol
        rw [← hfol.1]
        simp only [down, List.length_append, List.length_replicate, follow_need]
        omega
      · rw [if_neg hm] at hfol
        simp only [Option.some.injEq, follow_result.mk.injEq] at hfol
        rw [← hfol.1]
        simp only [down, List.length_append, List.length_replicate]
        simp only [follow_need] at hm
        omega
    rcases hres with ⟨_, hr⟩ | ⟨i', dptr, _, _, hres⟩
    · rw [hr]; exact hlen
    · rcases hres with ⟨_, _, hr⟩ | ⟨_, slot, _, hres⟩
      · rw [hr]; exact hlen
      · rcases hres with ⟨_, _, hr⟩ | ⟨_, _, ⟨_, hr⟩ | ⟨_, hr⟩⟩ <;> rw [hr] <;>
          simpa [up] using hlen

/-- A write that got as far as the copy: the slot it computed holds a
quantum afterwards, every other slot is as before, and the size is the old
one or the end of what was accepted. -/
theorem scull_write_copy_pages {dev : scull_dev} {env : kernel_env} {buf : List UInt8}
    {count f_pos : Nat} {r : write_result}
    (h : scull_write dev env buf count f_pos = some r)
    (hr : 0 ≤ r.retval ∨ r.retval = -EFAULT) :
    ∃ (i s_pos q_pos : Nat) (pg : quantum_buf),
      target dev.quantum dev.qset f_pos = some (i, s_pos, q_pos) ∧
      (∀ i' s', page_at r.dev i' s' = if i' = i ∧ s' = s_pos then some pg else page_at dev i' s') ∧
      i < r.dev.data.length ∧
      (r.dev.size = dev.size ∨
        (0 ≤ r.retval ∧ r.dev.size = f_pos + min count (dev.quantum - q_pos))) := by
  obtain ⟨j, hcases⟩ := scull_write_norm h
  rcases hcases with ⟨_, hr'⟩ | ⟨_, hr'⟩ | ⟨_, k, hnode, hr'⟩ |
    ⟨_, i, s, q, dptr, slot, hloc, hnode, hslot, hlen, hres⟩
  · rw [hr'] at hr; simp [ERESTARTSYS, EFAULT] at hr
  · rw [hr'] at hr; simp [ENOMEM, EFAULT] at hr
  · rw [hr'] at hr; simp [ENOMEM, EFAULT] at hr
  · have hi : i < (dev.data ++ List.replicate j (⟨none⟩ : scull_qset)).length := by
      by_contra hlt
      rw [List.getElem?_eq_none (by omega)] at hnode
      simp at hnode
    rcases hres with ⟨_, hr'⟩ | ⟨_, hr'⟩
    · refine ⟨i, s, q, store_bytes (write_page dev slot) q
        (copy_from_user buf (min count (dev.quantum - q))), hloc, fun i' s' => ?_, ?_,
        Or.inl (by rw [hr'])⟩
      · rw [hr']
        unfold page_at
        simp only []
        rw [chain_page_set _ hnode hslot, chain_page_append]
      · rw [hr']
        simpa using hi
    · refine ⟨i, s, q, store_bytes (write_page dev slot) q
        (buf.take (min count (dev.quantum - q))), hloc, fun i' s' => ?_, ?_, ?_⟩
      · rw [hr']
        unfold page_at
        simp only []
        rw [chain_page_set _ hnode hslot, chain_page_append]
      · rw [hr']
        simpa using hi
      · rw [hr']
        simp only []
        by_cases hsz : dev.size < f_pos + min count (dev.quantum - q)
        · right
          exact ⟨by omega, by omega⟩
        · left
          omega

/-- A read leaves the old chain, with nodes without a pointer array appended. -/
theorem scull_read_append {dev : scull_dev} {env : kernel_env} {room count f_pos : Nat}
    {r : read_result} (h : scull_read dev env room count f_pos = some r) :
    ∃ j, r.dev = { dev with data := dev.data ++ List.replicate j ⟨none⟩ } := by
  rcases scull_read_cases h with ⟨_, hr⟩ | ⟨_, _, hr⟩ | ⟨_, _, item, s, q, fr, _, hfol, hres⟩
  · exact ⟨0, by rw [hr]; simp⟩
  · exact ⟨0, by rw [hr]; simp⟩
  · obtain ⟨j, hj⟩ := up_follow_dev hfol
    refine ⟨j, ?_⟩
    rcases hres with ⟨hr, _⟩ | ⟨_, _, _, _, _, _, _, ⟨_, hr⟩ | ⟨_, hr⟩⟩ <;> rw [hr] <;> exact hj

/-- A read leaves the device as it is when the chain covers the size and
every node index fits an `int`. -/
theorem scull_read_in_chain {dev : scull_dev} {env : kernel_env} {room count f_pos : Nat}
    {r : read_result} (h : scull_read dev env room count f_pos = some r)
    (hfit : dev.quantum * dev.qset < 2 ^ 31)
    (hsize : dev.size ≤ dev.data.length * (dev.quantum * dev.qset))
    (hlen : dev.data.length ≤ 2 ^ 31) : r.dev = dev := by
  rcases scull_read_cases h with ⟨_, hr⟩ | ⟨_, _, hr⟩ | ⟨_, hlt, item, s, q, fr, hloc, hfol, hres⟩
  · rw [hr]
  · rw [hr]
  · have h0 : dev.quantum * dev.qset ≠ 0 := by
      intro hz
      rw [hz] at hsize
      omega
    have hdiv : f_pos / (dev.quantum * dev.qset) < dev.data.length := by
      apply Nat.div_lt_of_lt_mul
      rw [Nat.mul_comm]
      omega
    rw [locate_some f_pos h0 hfit, to_int_of_lt (by omega)] at hloc
    simp only [Option.some.injEq, Prod.mk.injEq] at hloc
    obtain ⟨hitem, _, _⟩ := hloc
    subst hitem
    have hneed : follow_need (down dev) (f_pos / (dev.quantum * dev.qset)) = 0 := by
      simp only [follow_need, down]; omega
    rw [scull_follow_eq, hneed] at hfol
    simp at hfol
    have hup : up fr.dev = dev := by
      rw [← hfol]
      exact up_down dev
    rcases hres with ⟨hr, _⟩ | ⟨_, _, _, _, _, _, _, ⟨_, hr⟩ | ⟨_, hr⟩⟩ <;> rw [hr] <;> exact hup

/-- What a write that returns does to the slots and the size: it fails before
the copy and leaves both, or it got as far as the copy. -/
theorem scull_write_summary {dev : scull_dev} {env : kernel_env} {buf : List UInt8}
    {count f_pos : Nat} {r : write_result}
    (h : scull_write dev env buf count f_pos = some r) :
    ((r.retval = -ENOMEM ∨ r.retval = -ERESTARTSYS) ∧ r.dev.size = dev.size ∧
      ∀ i s, page_at r.dev i s = page_at dev i s) ∨
    ((0 ≤ r.retval ∨ r.retval = -EFAULT) ∧
      ∃ (i s_pos q_pos : Nat) (pg : quantum_buf),
        target dev.quantum dev.qset f_pos = some (i, s_pos, q_pos) ∧
        (∀ i' s', page_at r.dev i' s' =
          if i' = i ∧ s' = s_pos then some pg else page_at dev i' s') ∧
        i < r.dev.data.length ∧
        (r.dev.size = dev.size ∨
          (0 ≤ r.retval ∧ r.dev.size = f_pos + min count (dev.quantum - q_pos)))) := by
  obtain ⟨j, hcases⟩ := scull_write_norm h
  rcases hcases with ⟨_, hr'⟩ | ⟨_, hr'⟩ | ⟨_, k, hnode, hr'⟩ |
    ⟨_, i, s, q, dptr, slot, hloc, hnode, hslot, hlen, hres⟩
  · have hr : r.retval = -ENOMEM ∨ r.retval = -ERESTARTSYS := Or.inr (by rw [hr'])
    exact Or.inl ⟨hr, by rw [hr'], scull_write_fail_pages h hr⟩
  · have hr : r.retval = -ENOMEM ∨ r.retval = -ERESTARTSYS := Or.inl (by rw [hr'])
    exact Or.inl ⟨hr, by rw [hr'], scull_write_fail_pages h hr⟩
  · have hr : r.retval = -ENOMEM ∨ r.retval = -ERESTARTSYS := Or.inl (by rw [hr'])
    exact Or.inl ⟨hr, by rw [hr'], scull_write_fail_pages h hr⟩
  · have hr : 0 ≤ r.retval ∨ r.retval = -EFAULT := by
      rcases hres with ⟨_, hr'⟩ | ⟨_, hr'⟩
      · exact Or.inr (by rw [hr'])
      · exact Or.inl (by rw [hr']; exact Int.ofNat_nonneg _)
    exact Or.inr ⟨hr, scull_write_copy_pages h hr⟩

/-- A property that the first state has and every call in `ops` keeps holds
after the calls. -/
theorem run_induct (g : scull_globals) (P : scull_dev → Prop) (C : scull_op → Prop)
    (hstep : ∀ dev op dev1, P dev → C op → run_op g dev op = some dev1 → P dev1) :
    ∀ (ops : List scull_op) (dev dev1 : scull_dev), P dev → (∀ op ∈ ops, C op) →
      run g ops dev = some dev1 → P dev1 := by
  intro ops
  induction ops with
  | nil =>
    intro dev dev1 hP _ hrun
    simp only [run, Option.some.injEq] at hrun
    rw [← hrun]; exact hP
  | cons op ops ih =>
    intro dev dev1 hP hC hrun
    simp only [run] at hrun
    split at hrun
    · simp at hrun
    · rename_i dev2 hop
      exact ih dev2 dev1 (hstep dev op dev2 hP (hC op (List.mem_cons_self _ _)) hop)
        (fun o ho => hC o (List.mem_cons_of_mem _ ho)) hrun

/-- The chain covers the size and every node index fits an `int`, with the
defaults as the geometry. -/
theorem covered_step (g : scull_globals) (dev : scull_dev) (op : scull_op) (dev1 : scull_dev)
    (hgeo : g.scull_quantum * g.scull_qset < 2 ^ 31)
    (hinv : dev.quantum = g.scull_quantum ∧ dev.qset = g.scull_qset ∧
      dev.size ≤ dev.data.length * (dev.quantum * dev.qset) ∧ dev.data.length ≤ 2 ^ 31)
    (hop : op_in_range g op = true) (hrun : run_op g dev op = some dev1) :
    dev1.quantum = g.scull_quantum ∧ dev1.qset = g.scull_qset ∧
      dev1.size ≤ dev1.data.length * (dev1.quantum * dev1.qset) ∧ dev1.data.length ≤ 2 ^ 31 := by
  obtain ⟨hq, hs, hsize, hlen⟩ := hinv
  cases op with
  | do_trim =>
    simp only [run_op, Option.some.injEq] at hrun
    rw [← hrun]
    simp [scull_trim]
  | do_open env f_flags =>
    simp only [run_op, Option.some.injEq] at hrun
    rw [← hrun]
    unfold scull_open
    split
    · split
      · exact ⟨hq, hs, hsize, hlen⟩
      · simp [up, down, scull_trim]
    · exact ⟨hq, hs, hsize, hlen⟩
  | do_read env room count f_pos =>
    simp only [run_op, Option.map_eq_some'] at hrun
    obtain ⟨r, hr, hdev⟩ := hrun
    rw [← hdev, scull_read_in_chain hr (by rw [hq, hs]; exact hgeo) hsize hlen]
    exact ⟨hq, hs, hsize, hlen⟩
  | do_write env buf count f_pos =>
    simp only [run_op, Option.map_eq_some'] at hrun
    obtain ⟨r, hr, hdev⟩ := hrun
    subst hdev
    simp only [op_in_range, decide_eq_true_eq] at hop
    rw [← hq, ← hs] at hop hgeo
    obtain ⟨hq1, hs1, _, hsz1, hlen1⟩ := scull_write_any hr
    rw [hq1, hs1]
    refine ⟨hq, hs, ?_, ?_⟩
    · rcases scull_write_summary hr with ⟨_, hsame, _⟩ | ⟨_, i, s, q, pg, hloc, _, hi, hsz⟩
      · rw [hsame]
        exact le_trans hsize (Nat.mul_le_mul_right _ hlen1)
      · rcases hsz with hsame | ⟨_, hnew⟩
        · rw [hsame]
          exact le_trans hsize (Nat.mul_le_mul_right _ hlen1)
        · obtain ⟨h0, hitem, _, hqp⟩ := target_in_range hloc hgeo hop
          rw [hnew]
          have hend := (page_end_le dev.quantum dev.qset f_pos (min count (dev.quantum - q)) h0
            (by rw [← hqp]; exact Nat.min_le_right _ _)).2
          refine le_trans hend (Nat.mul_le_mul_right _ ?_)
          omega
    · rcases scull_write_cases hr with ⟨_, hr'⟩ | ⟨_, item, s, q, _, _, _, hloc, _, _⟩
      · rw [hr']; exact hlen
      · have htgt := target_of_locate hloc
        obtain ⟨_, hitem, _, _⟩ := target_in_range htgt hgeo hop
        have := scull_write_length hr htgt
        omega

/-- The size is 0 or ends within a quantum that is there, with the defaults
as the geometry. -/
theorem extent_step (g : scull_globals) (dev : scull_dev) (op : scull_op) (dev1 : scull_dev)
    (hgeo : g.scull_quantum * g.scull_qset < 2 ^ 31)
    (hinv : dev.quantum = g.scull_quantum ∧ dev.qset = g.scull_qset ∧
      (dev.size = 0 ∨ ∃ i s, (page_at dev i s).isSome = true ∧
        dev.size ≤ (i * dev.qset + s + 1) * dev.quantum))
    (hop : op_in_range g op = true) (hrun : run_op g dev op = some dev1) :
    dev1.quantum = g.scull_quantum ∧ dev1.qset = g.scull_qset ∧
      (dev1.size = 0 ∨ ∃ i s, (page_at dev1 i s).isSome = true ∧
        dev1.size ≤ (i * dev1.qset + s + 1) * dev1.quantum) := by
  obtain ⟨hq, hs, hsize⟩ := hinv
  cases op with
  | do_trim =>
    simp only [run_op, Option.some.injEq] at hrun
    rw [← hrun]
    simp [scull_trim]
  | do_open env f_flags =>
    simp only [run_op, Option.some.injEq] at hrun
    rw [← hrun]
    unfold scull_open
    split
    · split
      · exact ⟨hq, hs, hsize⟩
      · simp [up, down, scull_trim]
    · exact ⟨hq, hs, hsize⟩
  | do_read env room count f_pos =>
    simp only [run_op, Option.map_eq_some'] at hrun
    obtain ⟨r, hr, hdev⟩ := hrun
    obtain ⟨j, hj⟩ := scull_read_append hr
    rw [← hdev, hj]
    refine ⟨hq, hs, ?_⟩
    rcases hsize with h0 | ⟨i, s, hp, hle⟩
    · exact Or.inl h0
    · refine Or.inr ⟨i, s, ?_, hle⟩
      unfold page_at at hp ⊢
      simp only []
      rw [chain_page_append]
      exact hp
  | do_write env buf count f_pos =>
    simp only [run_op, Option.map_eq_some'] at hrun
    obtain ⟨r, hr, hdev⟩ := hrun
    subst hdev
    simp only [op_in_range, decide_eq_true_eq] at hop
    rw [← hq, ← hs] at hop hgeo
    obtain ⟨hq1, hs1, _, _, _⟩ := scull_write_any hr
    rw [hq1, hs1]
    refine ⟨hq, hs, ?_⟩
    rcases scull_write_summary hr with ⟨_, hsame, hpages⟩ | ⟨_, i, s, q, pg, hloc, hpages, _, hsz⟩
    · rw [hsame]
      rcases hsize with h0 | ⟨i, s, hp, hle⟩
      · exact Or.inl h0
      · exact Or.inr ⟨i, s, by rw [hpages]; exact hp, hle⟩
    · rcases hsz with hsame | ⟨_, hnew⟩
      · rw [hsame]
        rcases hsize with h0 | ⟨i0, s0, hp, hle⟩
        · exact Or.inl h0
        · refine Or.inr ⟨i0, s0, ?_, hle⟩
          rw [hpages]
          split
          · rfl
          · exact hp
      · obtain ⟨h0, hitem, hsp, hqp⟩ := target_in_range hloc hgeo hop
        refine Or.inr ⟨i, s, ?_, ?_⟩
        · rw [hpages]; simp
        · rw [hnew, hitem, hsp]
          exact (page_end_le dev.quantum dev.qset f_pos (min count (dev.quantum - q)) h0
            (by rw [← hqp]; exact Nat.min_le_right _ _)).1

/-- The history after a write that failed before the copy. -/
theorem hist_op_fail {dev : scull_dev} {env : kernel_env} {buf : List UInt8}
    {count f_pos : Nat} {r : write_result} (h : history)
    (hw : scull_write dev env buf count f_pos = some r)
    (hr : r.retval = -ENOMEM ∨ r.retval = -ERESTARTSYS) :
    hist_op dev h (.do_write env buf count f_pos) = h := by
  have h1 : ¬ (0 < r.retval) := by
    rcases hr with hr | hr <;> rw [hr] <;> simp [ENOMEM, ERESTARTSYS]
  have h2 : ¬ (0 ≤ r.retval ∨ r.retval = -EFAULT) := by
    rcases hr with hr | hr <;> rw [hr] <;> simp [ENOMEM, ERESTARTSYS, EFAULT]
  simp only [hist_op]
  rw [hw]
  split
  · rename_i r' item s q heq _
    simp only [Option.some.injEq] at heq
    subst heq
    simp only [if_neg h1, if_neg h2]
  · rfl

/-- The history after a write that got as far as the copy. -/
theorem hist_op_copy {dev : scull_dev} {env : kernel_env} {buf : List UInt8}
    {count f_pos : Nat} {r : write_result} {i s_pos q_pos : Nat} (h : history)
    (hw : scull_write dev env buf count f_pos = some r)
    (hr : 0 ≤ r.retval ∨ r.retval = -EFAULT)
    (hloc : target dev.quantum dev.qset f_pos = some (i, s_pos, q_pos)) :
    hist_op dev h (.do_write env buf count f_pos) =
      ⟨if 0 < r.retval then (i, s_pos) :: h.wrote else h.wrote, (i, s_pos) :: h.tried⟩ := by
  simp only [hist_op]
  rw [hw, hloc]
  simp only [if_pos hr]

/-- A slot holds a quantum exactly when a write got as far as the copy for it
since the last reset, and every slot a byte was stored in is among these. -/
theorem tried_step (g : scull_globals) (dev : scull_dev) (h : history) (op : scull_op)
    (dev1 : scull_dev)
    (hinv : (∀ i s, (page_at dev i s).isSome = true ↔ (i, s) ∈ h.tried) ∧
      ∀ x ∈ h.wrote, x ∈ h.tried)
    (hrun : run_op g dev op = some dev1) :
    (∀ i s, (page_at dev1 i s).isSome = true ↔ (i, s) ∈ (hist_op dev h op).tried) ∧
      ∀ x ∈ (hist_op dev h op).wrote, x ∈ (hist_op dev h op).tried := by
  obtain ⟨hpg, hsub⟩ := hinv
  have hnil : ∀ (d : scull_dev), d.data = [] →
      (∀ i s, (page_at d i s).isSome = true ↔ (i, s) ∈ ([] : List (Nat × Nat))) ∧
      ∀ x ∈ ([] : List (Nat × Nat)), x ∈ ([] : List (Nat × Nat)) := by
    intro d hd
    refine ⟨fun i s => ?_, fun x hx => hx⟩
    simp [page_at, chain_page, hd]
  cases op with
  | do_trim =>
    simp only [run_op, Option.some.injEq] at hrun
    rw [← hrun]
    exact hnil (scull_trim g dev) rfl
  | do_open env f_flags =>
    simp only [run_op, Option.some.injEq] at hrun
    rw [← hrun]
    by_cases hmode : f_flags &&& O_ACCMODE = O_WRONLY
    · cases hsig : env.signal with
      | true =>
        have e1 : (scull_open g dev env f_flags).dev = dev := by
          simp [scull_open, hmode, hsig]
        have e2 : hist_op dev h (.do_open env f_flags) = h := by
          simp [hist_op, hsig]
        rw [e1, e2]
        exact ⟨hpg, hsub⟩
      | false =>
        have e1 : (scull_open g dev env f_flags).dev.data = [] := by
          simp [scull_open, hmode, hsig, up, down, scull_trim]
        have e2 : hist_op dev h (.do_open env f_flags) = ⟨[], []⟩ := by
          simp [hist_op, hmode, hsig]
        rw [e2]
        exact hnil _ e1
    · have e1 : (scull_open g dev env f_flags).dev = dev := by
        simp [scull_open, hmode]
      have e2 : hist_op dev h (.do_open env f_flags) = h := by
        simp [hist_op, hmode]
      rw [e1, e2]
      exact ⟨hpg, hsub⟩
  | do_read env room count f_pos =>
    simp only [run_op, Option.map_eq_some'] at hrun
    obtain ⟨r, hr, hdev⟩ := hrun
    obtain ⟨j, hj⟩ := scull_read_append hr
    rw [← hdev, hj]
    have e2 : hist_op dev h (.do_read env room count f_pos) = h := rfl
    rw [e2]
    refine ⟨fun i s => ?_, hsub⟩
    rw [← hpg]
    unfold page_at
    simp only []
    rw [chain_page_append]
  | do_write env buf count f_pos =>
    simp only [run_op, Option.map_eq_some'] at hrun
    obtain ⟨r, hr, hdev⟩ := hrun
    subst hdev
    rcases scull_write_summary hr with ⟨hret, _, hpages⟩ | ⟨hret, i, s, q, pg, hloc, hpages, _, _⟩
    · rw [hist_op_fail h hr hret]
      exact ⟨fun i s => by rw [hpages]; exact hpg i s, hsub⟩
    · rw [hist_op_copy h hr hret hloc]
      refine ⟨fun i' s' => ?_, fun x hx => ?_⟩
      · rw [hpages]
        simp only [List.mem_cons, Prod.mk.injEq]
        by_cases hc : i' = i ∧ s' = s
        · simp [hc]
        · rw [if_neg hc, hpg]
          simp [hc]
      · simp only []
        simp only [] at hx
        split at hx
        · rcases List.mem_cons.mp hx with hx | hx
          · rw [hx]; exact List.mem_cons_self _ _
          · exact List.mem_cons_of_mem _ (hsub x hx)
        · exact List.mem_cons_of_mem _ (hsub x hx)

/-- A property of device and history that the first pair has and every call
keeps holds after the calls. -/
theorem run_hist_induct (g : scull_globals) (P : scull_dev → history → Prop)
    (hstep : ∀ dev h op dev1, P dev h → run_op g dev op = some dev1 → P dev1 (hist_op dev h op)) :
    ∀ (ops : List scull_op) (dev : scull_dev) (h : history) (dev1 : scull_dev) (h1 : history),
      P dev h → run_hist g ops dev h = some (dev1, h1) → P dev1 h1 := by
  intro ops
  induction ops with
  | nil =>
    intro dev h dev1 h1 hP hrun
    simp only [run_hist, Option.some.injEq, Prod.mk.injEq] at hrun
    rw [← hrun.1, ← hrun.2]; exact hP
  | cons op ops ih =>
    intro dev h dev1 h1 hP hrun
    simp only [run_hist] at hrun
    split at hrun
    · simp at hrun
    · rename_i dev2 hop
      exact ih dev2 _ dev1 h1 (hstep dev h op dev2 hP hop) hrun

/-- The cells of a quantum after `store_bytes`. -/
theorem store_bytes_cell (page : quantum_buf) (q : Nat) (bytes : List UInt8)
    (h : q + bytes.length ≤ page.length) (c : Nat) :
    (store_bytes page q bytes)[c]?.join =
      if q ≤ c ∧ c < q + bytes.length then bytes[c - q]? else page[c]?.join := by
  rw [store_bytes_get page q bytes h c]
  split
  · cases bytes[c - q]? <;> rfl
  · rfl

/-- The cells of the device after a successful write, in terms of the slot
and the cell the call computed. -/
theorem scull_write_cells {dev : scull_dev} {env : kernel_env} {buf : List UInt8}
    {count f_pos : Nat} {r : write_result}
    (h : scull_write dev env buf count f_pos = some r) (hok : 0 ≤ r.retval) :
    ∃ (i s_pos q_pos : Nat),
      target dev.quantum dev.qset f_pos = some (i, s_pos, q_pos) ∧
      r.retval = (min count (dev.quantum - q_pos) : Nat) ∧
      min count (dev.quantum - q_pos) ≤ buf.length ∧
      (∀ i' s', (page_at r.dev i' s').isSome =
        (decide (i' = i ∧ s' = s_pos) || (page_at dev i' s').isSome)) ∧
      (∀ i' s', ¬ (i' = i ∧ s' = s_pos) → page_at r.dev i' s' = page_at dev i' s') ∧
      (∀ i' s' c, cell_at r.dev i' s' c =
        if i' = i ∧ s' = s_pos ∧ q_pos ≤ c ∧ c < q_pos + min count (dev.quantum - q_pos)
        then buf[c - q_pos]? else cell_at dev i' s' c) ∧
      (∀ k, k ≠ i → k < dev.data.length → r.dev.data[k]? = dev.data[k]?) := by
  obtain ⟨i, s, q, j, dptr, slot, hloc, hnode, hslot, hlen, hbuf, hr⟩ := scull_write_effect h hok
  have hpg : ∀ i' s', page_at r.dev i' s' =
      if i' = i ∧ s' = s then
        some (store_bytes (write_page dev slot) q (buf.take (min count (dev.quantum - q))))
      else page_at dev i' s' := by
    intro i' s'
    rw [hr]
    unfold page_at
    simp only []
    rw [chain_page_set _ hnode hslot, chain_page_append]
  have hold : page_at dev i s = slot := page_at_append hnode hslot
  have htl : (buf.take (min count (dev.quantum - q))).length = min count (dev.quantum - q) := by
    rw [List.length_take]; omega
  refine ⟨i, s, q, hloc, by rw [hr], hbuf, fun i' s' => ?_, fun i' s' hne => ?_,
    fun i' s' c => ?_, fun k hk hlt => ?_⟩
  · rw [hpg]
    by_cases hc : i' = i ∧ s' = s
    · simp [hc]
    · simp [hc]
  · rw [hpg, if_neg hne]
  · unfold cell_at
    rw [hpg]
    by_cases hc : i' = i ∧ s' = s
    · rw [if_pos hc]
      obtain ⟨rfl, rfl⟩ := hc
      simp only [true_and]
      rw [store_bytes_cell _ _ _ (by rw [htl]; exact hlen), htl, hold]
      by_cases hin : q ≤ c ∧ c < q + min count (dev.quantum - q)
      · rw [if_pos hin, if_pos hin, List.getElem?_take_of_lt (by omega)]
      · rw [if_neg hin, if_neg hin]
        cases slot with
        | some old => rfl
        | none =>
          simp only [write_page, List.getElem?_replicate]
          split <;> rfl
    · rw [if_neg hc, if_neg (fun hh => hc ⟨hh.1, hh.2.1⟩)]
  · rw [hr]
    simp only []
    rw [List.getElem?_set_ne (Ne.symm hk), List.getElem?_append_left hlt]

theorem up_trim_down (g : scull_globals) (dev : scull_dev) :
    up (scull_trim g (down dev)) = scull_trim g dev := by
  simp [up, down, scull_trim]

/-- An open for writing only that gets the semaphore resets the device. -/
theorem scull_open_wronly (g : scull_globals) (dev : scull_dev) (env : kernel_env)
    (f_flags : Nat) (hmode : f_flags &&& O_ACCMODE = O_WRONLY) (hsig : env.signal = false) :
    scull_open g dev env f_flags = ⟨0, scull_trim g dev⟩ := by
  simp [scull_open, hmode, hsig, up_trim_down]

/-- An open in another access mode leaves the device. -/
theorem scull_open_other (g : scull_globals) (dev : scull_dev) (env : kernel_env)
    (f_flags : Nat) (hmode : f_flags &&& O_ACCMODE ≠ O_WRONLY) :
    scull_open g dev env f_flags = ⟨0, dev⟩ := by
  simp [scull_open, hmode]

/-- Whatever `scull_read` returns, the semaphore count is as before. -/
theorem scull_read_sem {dev : scull_dev} {env : kernel_env} {room count f_pos : Nat}
    {r : read_result} (h : scull_read dev env room count f_pos = some r) :
    r.dev.sem = dev.sem := by
  obtain ⟨j, hj⟩ := scull_read_append h
  rw [hj]

/-- The translation is defined unless `itemsize` wraps to 0. -/
theorem locate_defined {quantum qset : Nat} (f_pos : Nat)
    (hsz : to_int (quantum * qset) ≠ 0) :
    ∃ item s_pos q_pos, locate quantum qset f_pos = some (item, s_pos, q_pos) := by
  simp only [locate, if_neg hsz]
  exact ⟨_, _, _, rfl⟩

theorem locate_nonzero {quantum qset f_pos : Nat} {item : Int} {s_pos q_pos : Nat}
    (h : locate quantum qset f_pos = some (item, s_pos, q_pos)) :
    to_int (quantum * qset) ≠ 0 := by
  intro hz
  simp [locate, hz] at h

/-- On a well-formed device `scull_write` returns whenever the translation of
the position is defined. -/
theorem scull_write_returns {dev : scull_dev} (env : kernel_env) (buf : List UInt8)
    (count : Nat) {f_pos : Nat} {item : Int} {s_pos q_pos : Nat}
    (hwf : well_formed dev = true)
    (hloc : locate dev.quantum dev.qset f_pos = some (item, s_pos, q_pos)) :
    ∃ r, scull_write dev env buf count f_pos = some r := by
  obtain ⟨hQ, hs, hq⟩ := locate_bounds hloc
  unfold scull_write
  simp only [clamp_eq_min]
  split
  · exact ⟨_, rfl⟩
  · split
    · rename_i hnone
      rw [hloc] at hnone
      simp at hnone
    · rename_i item' s' q' hloc'
      rw [hloc] at hloc'
      simp only [Option.some.injEq, Prod.mk.injEq] at hloc'
      obtain ⟨rfl, rfl, rfl⟩ := hloc'
      split
      · rename_i hf
        rw [scull_follow_int] at hf
        split at hf <;> simp at hf
      · exact ⟨_, rfl⟩
      · rename_i dev1 i mem1 hfol
        obtain ⟨_, hilt, hdata, _, _⟩ := scull_follow_ptr hfol
        split
        · rename_i hnone
          rw [List.getElem?_eq_none_iff] at hnone
          omega
        · rename_i dptr hdptr
          have hnode : node_ok dev.quantum dev.qset dptr = true := by
            have hall := node_ok_append (follow_need (down dev) i)
              (show (down dev).data.all (node_ok dev.quantum dev.qset) = true from hwf)
            rw [← hdata, List.all_eq_true] at hall
            exact hall _ (List.getElem?_mem hdptr)
          split
          · exact ⟨_, rfl⟩
          · rename_i slots mem2 hslots
            have hsl : slots = write_slots dev dptr := by
              unfold write_slots
              cases hd : dptr.data with
              | some sl => rw [hd] at hslots; simp at hslots; exact hslots.1.symm
              | none =>
                rw [hd] at hslots
                cases hk : kmalloc mem1 with
                | none => rw [hk] at hslots; simp at hslots
                | some m => rw [hk] at hslots; simp at hslots; exact hslots.1.symm
            subst hsl
            have hslen := write_slots_length hnode
            split
            · rename_i hnone
              rw [List.getElem?_eq_none_iff] at hnone
              omega
            · rename_i slot hslot
              have hplen := write_page_length hnode hslot
              split
              · exact ⟨_, rfl⟩
              · rename_i page hpage
                have hp : page = write_page dev slot := by
                  unfold write_page
                  cases slot with
                  | some p => simp at hpage; exact hpage.symm
                  | none =>
                    cases hk : kmalloc mem2 with
                    | none => rw [hk] at hpage; simp at hpage
                    | some m => rw [hk] at hpage; simp at hpage; exact hpage.symm
                subst hp
                split
                · rename_i hlen
                  omega
                · split <;> exact ⟨_, rfl⟩

/-- A write on a well-formed device with the semaphore, enough memory and a
readable user buffer succeeds with the clamped count. -/
theorem scull_write_succeeds {dev : scull_dev} {env : kernel_env} {buf : List UInt8}
    {count f_pos i s_pos q_pos : Nat} (hwf : well_formed dev = true)
    (hsig : env.signal = false)
    (htgt : target dev.quantum dev.qset f_pos = some (i, s_pos, q_pos))
    (hmem : write_allocs dev i s_pos ≤ env.mem)
    (hbuf : min count (dev.quantum - q_pos) ≤ buf.length) :
    ∃ r, scull_write dev env buf count f_pos = some r ∧
      r.retval = (min count (dev.quantum - q_pos) : Nat) := by
  obtain ⟨item, hloc, _⟩ := locate_of_target htgt
  obtain ⟨r, hr⟩ := scull_write_returns env buf count hwf hloc
  refine ⟨r, hr, ?_⟩
  have hne : r.retval ≠ -ENOMEM := by
    intro he
    have := (scull_write_enomem_iff hr hsig htgt).mpr he
    omega
  obtain ⟨j, hcases⟩ := scull_write_norm hr
  rcases hcases with ⟨hs, _⟩ | ⟨_, hr'⟩ | ⟨_, k, _, hr'⟩ |
    ⟨_, i', s', q', dptr, slot, htgt', _, _, _, hres⟩
  · rw [hsig] at hs; simp at hs
  · exact absurd (by rw [hr']) hne
  · exact absurd (by rw [hr']) hne
  · rw [htgt] at htgt'
    simp only [Option.some.injEq, Prod.mk.injEq] at htgt'
    obtain ⟨rfl, rfl, rfl⟩ := htgt'
    rcases hres with ⟨hb, _⟩ | ⟨_, hr'⟩
    · omega
    · rw [hr']

/-- On a well-formed device `scull_read` returns unless `itemsize` wraps
to 0. -/
theorem scull_read_returns {dev : scull_dev} (env : kernel_env) (room count f_pos : Nat)
    (hwf : well_formed dev = true) (hsz : to_int (dev.quantum * dev.qset) ≠ 0) :
    ∃ r, scull_read dev env room count f_pos = some r := by
  obtain ⟨item, s_pos, q_pos, hloc⟩ := @locate_defined dev.quantum dev.qset f_pos hsz
  obtain ⟨hQ, hs, hq⟩ := locate_bounds hloc
  unfold scull_read
  simp only [clamp_eq_min]
  generalize (if f_pos + count > (down dev).size then (down dev).size - f_pos else count) = cnt
  split
  · exact ⟨_, rfl⟩
  · split
    · exact ⟨_, rfl⟩
    · split
      · rename_i hnone
        rw [hloc] at hnone
        simp at hnone
      · rename_i item' s' q' hloc'
        rw [hloc] at hloc'
        simp only [Option.some.injEq, Prod.mk.injEq] at hloc'
        obtain ⟨rfl, rfl, rfl⟩ := hloc'
        split
        · rename_i hf
          rw [scull_follow_int] at hf
          split at hf <;> simp at hf
        · exact ⟨_, rfl⟩
        · rename_i dev1 i mem1 hfol
          obtain ⟨_, hilt, hdata, _, _⟩ := scull_follow_ptr hfol
          split
          · rename_i hnone
            rw [List.getElem?_eq_none_iff] at hnone
            omega
          · exact ⟨_, rfl⟩
          · rename_i slots hdptr
            have hnode : node_ok dev.quantum dev.qset ⟨some slots⟩ = true := by
              have hall := node_ok_append (follow_need (down dev) i)
                (show (down dev).data.all (node_ok dev.quantum dev.qset) = true from hwf)
              rw [← hdata, List.all_eq_true] at hall
              exact hall _ (List.getElem?_mem hdptr)
            obtain ⟨hslen, hpl⟩ := slots_of_node_ok hnode rfl
            split
            · rename_i hnone
              rw [List.getElem?_eq_none_iff] at hnone
              omega
            · exact ⟨_, rfl⟩
            · rename_i page hslot
              have hplen := hpl _ _ hslot
              split
              · rename_i hlen
                omega
              · split <;> exact ⟨_, rfl⟩

/-- A write on a well-formed device with the semaphore, enough memory and a
readable user buffer: the result it returns and the state it leaves. -/
theorem scull_write_success {dev : scull_dev} {env : kernel_env} {buf : List UInt8}
    {count f_pos i s_pos q_pos : Nat} (hwf : well_formed dev = true)
    (hsig : env.signal = false)
    (htgt : target dev.quantum dev.qset f_pos = some (i, s_pos, q_pos))
    (hmem : write_allocs dev i s_pos ≤ env.mem)
    (hbuf : min count (dev.quantum - q_pos) ≤ buf.length) :
    ∃ r, scull_write dev env buf count f_pos = some r ∧
      r.retval = (min count (dev.quantum - q_pos) : Nat) ∧
      r.f_pos = f_pos + min count (dev.quantum - q_pos) ∧
      r.dev.size = max dev.size (f_pos + min count (dev.quantum - q_pos)) ∧
      r.dev.data.length = max dev.data.length (i + 1) ∧
      (∀ i' s', (page_at r.dev i' s').isSome =
        (decide (i' = i ∧ s' = s_pos) || (page_at dev i' s').isSome)) := by
  obtain ⟨r, hr, hret⟩ := scull_write_succeeds hwf hsig htgt hmem hbuf
  have hok : 0 ≤ r.retval := by rw [hret]; exact Int.ofNat_nonneg _
  obtain ⟨i', s', q', htgt', _, _, hsome, _, _, _⟩ := scull_write_cells hr hok
  rw [htgt] at htgt'
  simp only [Option.some.injEq, Prod.mk.injEq] at htgt'
  obtain ⟨rfl, rfl, rfl⟩ := htgt'
  obtain ⟨i2, s2, q2, j2, dptr, slot, htgt2, _, _, _, _, hrr⟩ := scull_write_effect hr hok
  rw [htgt] at htgt2
  simp only [Option.some.injEq, Prod.mk.injEq] at htgt2
  obtain ⟨rfl, rfl, rfl⟩ := htgt2
  have hlen1 := scull_write_length hr htgt
  obtain ⟨_, _, _, _, hlen2⟩ := scull_write_any hr
  have hlen3 : i < r.dev.data.length := by
    rcases scull_write_summary hr with ⟨hbad, _⟩ | ⟨_, i', s', q', pg, htgt', _, hi', _⟩
    · rcases hbad with hb | hb <;> rw [hb] at hok <;> simp [ENOMEM, ERESTARTSYS] at hok
    · rw [htgt] at htgt'
      simp only [Option.some.injEq, Prod.mk.injEq] at htgt'
      obtain ⟨rfl, rfl, rfl⟩ := htgt'
      exact hi'
  refine ⟨r, hr, hret, ?_, ?_, by omega, hsome⟩
  · rw [hrr]
  · rw [hrr]

/-- A read below the size whose node is beyond the chain: `scull_follow`
appends the missing nodes, as far as the budget goes, and the read returns
0. -/
theorem scull_read_short_chain {dev : scull_dev} {env : kernel_env} {room count f_pos : Nat}
    {i s_pos q_pos : Nat} (hsig : env.signal = false) (hlt : f_pos < dev.size)
    (htgt : target dev.quantum dev.qset f_pos = some (i, s_pos, q_pos))
    (hshort : dev.data.length ≤ i) :
    scull_read dev env room count f_pos =
      some ⟨0,
        { dev with
          data := dev.data ++ List.replicate (min env.mem (follow_need dev i)) ⟨none⟩ },
        f_pos, []⟩ := by
  obtain ⟨item, hloc, hidx⟩ := locate_of_target htgt
  have hge : ¬ f_pos ≥ (down dev).size := by simp only [down]; omega
  have hneed : follow_need (down dev) i = follow_need dev i := rfl
  unfold scull_read
  simp only [hsig, if_neg hge, hloc, scull_follow_int, hidx, hneed, Bool.false_eq_true,
    if_false]
  by_cases hm : follow_need dev i ≤ env.mem
  · have hmin : min env.mem (follow_need dev i) = follow_need dev i := by omega
    have hget : ((down dev).data ++ List.replicate (follow_need dev i) (⟨none⟩ : scull_qset))[i]?
        = some ⟨none⟩ := by
      rw [List.getElem?_append_right (by simp only [down]; omega), List.getElem?_replicate]
      simp only [down, follow_need]
      rw [if_pos (by omega)]
    simp only [if_pos hm, hget, hmin]
    simp [up, down]
  · have hmin : min env.mem (follow_need dev i) = env.mem := by omega
    simp only [if_neg hm, hmin]
    simp [up, down]

theorem copy_from_user_length (buf : List UInt8) (n : Nat) :
    (copy_from_user buf n).length = n := by
  simp only [copy_from_user, List.length_append, List.length_take, List.length_replicate]
  omega

/-- Whatever `scull_write` returns, it leaves a well-formed device
well-formed. -/
theorem scull_write_wf {dev : scull_dev} {env : kernel_env} {buf : List UInt8}
    {count f_pos : Nat} {r : write_result} (hwf : well_formed dev = true)
    (h : scull_write dev env buf count f_pos = some r) : well_formed r.dev = true := by
  obtain ⟨j, hcases⟩ := scull_write_norm h
  have hall := node_ok_append j (show dev.data.all (node_ok dev.quantum dev.qset) = true from hwf)
  rcases hcases with ⟨_, hr⟩ | ⟨_, hr⟩ | ⟨_, k, hnode, hr⟩ |
    ⟨_, i, s, q, dptr, slot, _, hnode, hslot, hlen, hres⟩
  · rw [hr]; exact hwf
  · rw [hr]; exact hall
  · rw [hr]
    unfold well_formed
    simp only []
    rw [List.all_eq_true] at hall ⊢
    intro x hx
    rcases List.mem_or_eq_of_mem_set hx with hmem | rfl
    · exact hall x hmem
    · simp [node_ok, page_ok]
  · have hd : node_ok dev.quantum dev.qset dptr = true := by
      rw [List.all_eq_true] at hall
      exact hall dptr (List.getElem?_mem hnode)
    have hplen := write_page_length hd hslot
    rcases hres with ⟨_, hr⟩ | ⟨hb, hr⟩
    · rw [hr]
      exact @well_formed_set dev _ i s dev.size dptr _ hall hnode
        (by rw [store_bytes_length _ _ _ (by rw [copy_from_user_length]; exact hlen)]
            exact hplen)
    · rw [hr]
      exact @well_formed_set dev _ i s _ dptr _ hall hnode
        (by rw [store_bytes_length _ _ _ (by rw [List.length_take]; omega)]
            exact hplen)

/-- Every state that calls lead to from a well-formed device is well-formed;
the device that `scull_init_module` sets up is. -/
theorem run_well_formed (g : scull_globals) (ops : List scull_op) (dev dev1 : scull_dev)
    (hwf : well_formed dev = true) (hrun : run g ops dev = some dev1) :
    well_formed dev1 = true := by
  refine run_induct g (fun d => well_formed d = true) (fun _ => True) ?_ ops dev dev1 hwf
    (fun _ _ => trivial) hrun
  intro d op d1 hd _ hop
  cases op with
  | do_trim =>
    simp only [run_op, Option.some.injEq] at hop
    rw [← hop]; rfl
  | do_open env f_flags =>
    simp only [run_op, Option.some.injEq] at hop
    rw [← hop]
    unfold scull_open
    split
    · split
      · exact hd
      · rfl
    · exact hd
  | do_read env room count f_pos =>
    simp only [run_op, Option.map_eq_some'] at hop
    obtain ⟨r, hr, hdev⟩ := hop
    obtain ⟨j, hj⟩ := scull_read_append hr
    rw [← hdev, hj]
    exact node_ok_append j (show d.data.all (node_ok d.quantum d.qset) = true from hd)
  | do_write env buf count f_pos =>
    simp only [run_op, Option.map_eq_some'] at hop
    obtain ⟨r, hr, hdev⟩ := hop
    rw [← hdev]
    exact scull_write_wf hd hr

/-- The state after one write that returns. -/
theorem run_one_write (g : scull_globals) (dev : scull_dev) (env : kernel_env)
    (buf : List UInt8) (count f_pos : Nat) (r : write_result)
    (h : scull_write dev env buf count f_pos = some r) :
    run g [.do_write env buf count f_pos] dev = some r.dev := by
  simp only [run, run_op, h, Option.map_some']

/-! ## The claims -/

/-! ### C1 -/

/-- C1 (as amended). Round trip within the range of `int`: on a device with an
empty chain and size 0 (fresh or just reset), `quantum >= 1`, `qset >= 1`,
`quantum * qset <= INT_MAX`, for every byte sequence `d` of length
`k <= 2^31 * quantum * qset` (every node index fits an `int`), with no
interrupt, no allocation failure and no copy fault, the caller that re-issues
`scull_write` from position 0 until the `k` bytes are accepted ends at position
`k`, and the caller that then re-issues `scull_read` from position 0 for `k`
bytes gets exactly `d`, over however many quanta and nodes `k` spans. -/
theorem round_trip (dev : scull_dev) (wenv renv : kernel_env) (d : List UInt8)
    (hdata : dev.data = []) (hsize : dev.size = 0)
    (hq : 1 ≤ dev.quantum) (hs : 1 ≤ dev.qset) (hfit : dev.quantum * dev.qset < 2 ^ 31)
    (hk : d.length ≤ 2 ^ 31 * (dev.quantum * dev.qset))
    (hwsig : wenv.signal = false) (hmem : d.length / (dev.quantum * dev.qset) + 3 ≤ wenv.mem)
    (hrsig : renv.signal = false) :
    ∃ dev', write_all wenv d.length dev d 0 = some (dev', d.length) ∧
      read_all renv d.length dev' d.length 0 = some (dev', d.length, d.map some) := by
  have h0 : dev.quantum * dev.qset ≠ 0 := Nat.mul_ne_zero (by omega) (by omega)
  have hinit : holds dev d 0 := by
    refine ⟨hsize, ?_, fun o ho => by omega⟩
    simp [well_formed, hdata]
  obtain ⟨dev', hw, hq', hs', _, hh⟩ :=
    write_all_holds wenv d dev hwsig h0 hfit hk hmem d.length dev 0 (Nat.zero_le _)
      (by omega) rfl rfl rfl hinit
  refine ⟨dev', hw, ?_⟩
  rw [← hq', ← hs'] at h0 hfit hk
  have hr := read_all_holds renv d dev' hrsig h0 hfit hk hh d.length 0 (Nat.zero_le _) (by omega)
  exact hr

/-- C1, witness: twenty bytes written to and read back from a fresh device with
`quantum = 3` and `qset = 2`, over seven quanta and four nodes. -/
theorem round_trip_witness :
    ∃ dev', write_all ⟨false, 6⟩ 20 (scull_init ⟨3, 2⟩)
        [1, 2, 3, 4, 5, 6, 7, 8, 9, 10, 11, 12, 13, 14, 15, 16, 17, 18, 19, 20] 0 =
          some (dev', 20) ∧
      read_all ⟨false, 0⟩ 20 dev' 20 0 =
        some (dev', 20, ([1, 2, 3, 4, 5, 6, 7, 8, 9, 10, 11, 12, 13, 14, 15, 16, 17, 18, 19, 20]
          : List UInt8).map some) :=
  round_trip (scull_init ⟨3, 2⟩) ⟨false, 6⟩ ⟨false, 0⟩
    [1, 2, 3, 4, 5, 6, 7, 8, 9, 10, 11, 12, 13, 14, 15, 16, 17, 18, 19, 20]
    rfl rfl (by decide) (by decide) (by decide) (by decide) rfl (by decide) rfl

/-- C1, counterexample to the claim as stated: a fresh device with
`quantum = 65536 >= 1` and `qset = 65536 >= 1` does not accept even one byte:
`int itemsize = quantum * qset` overflows (it wraps to 0), so the first
`scull_write` has no defined result (it divides by `itemsize`) and the loop
that writes the byte 7 never completes.  And a node index beyond `INT_MAX` is
narrowed: with `quantum = qset = 1`, on a device that holds the byte 1 at
position 0, the write of the byte 2 at position `2^32` computes `item = 0` and
replaces the byte at position 0, which a read then returns. -/
theorem round_trip_overflow :
    (scull_init ⟨65536, 65536⟩).data = [] ∧ (scull_init ⟨65536, 65536⟩).size = 0 ∧
      scull_write (scull_init ⟨65536, 65536⟩) ⟨false, 3⟩ [7] 1 0 = none ∧
      write_all ⟨false, 3⟩ 1 (scull_init ⟨65536, 65536⟩) [7] 0 = none ∧
      scull_write dev_one ⟨false, 3⟩ [2] 1 (2 ^ 32) =
        some ⟨1, { dev_one with data := [⟨some [some [some 2]]⟩], size := 2 ^ 32 + 1 },
          2 ^ 32 + 1⟩ ∧
      scull_read { dev_one with data := [⟨some [some [some 2]]⟩], size := 2 ^ 32 + 1 }
          ⟨false, 0⟩ 1 1 0 =
        some ⟨1, { dev_one with data := [⟨some [some [some 2]]⟩], size := 2 ^ 32 + 1 }, 1,
          [some 2]⟩ := by
  decide

/-! ### C2 -/

/-- C2 (as amended). Translation exactness within the range of `int`: for
`quantum >= 1`, `qset >= 1` with `quantum * qset <= INT_MAX` and every position
`o` whose node index `o / (quantum * qset)` is at most `INT_MAX`, the triple
`(item, s_pos, q_pos)` that `scull_read` and `scull_write` compute satisfies
`o = item * (quantum * qset) + s_pos * quantum + q_pos` with `s_pos < qset` and
`q_pos < quantum`. -/
theorem translation_exact (quantum qset o : Nat) (hq : 1 ≤ quantum) (hs : 1 ≤ qset)
    (hfit : quantum * qset < 2 ^ 31) (hitem : o / (quantum * qset) < 2 ^ 31) :
    ∃ s_pos q_pos : Nat,
      locate quantum qset o = some (((o / (quantum * qset) : Nat) : Int), s_pos, q_pos) ∧
      o = o / (quantum * qset) * (quantum * qset) + s_pos * quantum + q_pos ∧
      s_pos < qset ∧ q_pos < quantum := by
  have h0 : quantum * qset ≠ 0 := Nat.mul_ne_zero (by omega) (by omega)
  refine ⟨o % (quantum * qset) / quantum, o % (quantum * qset) % quantum, ?_, ?_,
    s_pos_lt o h0, q_pos_lt o h0⟩
  · rw [locate_some o h0 hfit, to_int_of_lt hitem]
  · have h1 := Nat.div_add_mod o (quantum * qset)
    have h2 := Nat.div_add_mod (o % (quantum * qset)) quantum
    rw [Nat.mul_comm] at h1 h2
    omega

/-- C2, witness: position 4000000 with `quantum = 4000` and `qset = 1000`, the
first position of node 1. -/
theorem translation_exact_witness :
    ∃ s_pos q_pos : Nat,
      locate 4000 1000 4000000 = some (((4000000 / (4000 * 1000) : Nat) : Int), s_pos, q_pos) ∧
      4000000 = 4000000 / (4000 * 1000) * (4000 * 1000) + s_pos * 4000 + q_pos ∧
      s_pos < 1000 ∧ q_pos < 4000 :=
  translation_exact 4000 1000 4000000 (by decide) (by decide) (by decide) (by decide)

/-- C2, counterexample to the claim as stated: with `quantum = 4000` and
`qset = 1000` the position `4000000 * 2^32` gives `item = 0`, because
`*f_pos / itemsize = 2^32` does not fit the `int item`; the computed triple
`(0, 0, 0)` does not add up to the position.  And with `quantum = qset = 65536`
the product `quantum * qset` does not fit `int itemsize`, so no triple is
defined at all. -/
theorem translation_wraps :
    locate 4000 1000 (4000000 * 2 ^ 32) = some (0, 0, 0) ∧
    ((4000000 * 2 ^ 32 : Nat) : Int) ≠ 0 * (4000 * 1000 : Nat) + (0 : Nat) * 4000 + (0 : Nat) ∧
    locate 65536 65536 0 = none := by
  decide

/-! ### C3 -/

/-- C3 (as amended). Write clamp: for every device state whose
`quantum * qset` fits the `int itemsize`, every position and every requested
count, a `scull_write` that succeeds, that is returns a non-negative value,
returns exactly `min(count, quantum - q_pos)` where
`q_pos = (f_pos % (quantum * qset)) % quantum`. -/
theorem write_clamp (dev : scull_dev) (env : kernel_env) (buf : List UInt8)
    (count f_pos : Nat) (r : write_result)
    (hfit : dev.quantum * dev.qset < 2 ^ 31)
    (h : scull_write dev env buf count f_pos = some r) (hok : 0 ≤ r.retval) :
    r.retval =
      (min count (dev.quantum - f_pos % (dev.quantum * dev.qset) % dev.quantum) : Nat) := by
  obtain ⟨item, s_pos, q_pos, dev1, i, mem1, dptr, slot, _, hloc, _, _, _, _, _, hr⟩ :=
    scull_write_ok h hok
  have h0 : dev.quantum * dev.qset ≠ 0 := by
    intro hz
    exact locate_nonzero hloc (by rw [hz]; rfl)
  rw [locate_some f_pos h0 hfit] at hloc
  simp only [Option.some.injEq, Prod.mk.injEq] at hloc
  rw [hr, ← hloc.2.2]

/-- C3, witness: with `quantum = 4000` one write of 5000 bytes at position 0 of a
fresh device returns 4000. -/
theorem write_clamp_witness :
    ∃ r, scull_write (scull_init ⟨4000, 1000⟩) ⟨false, 3⟩ (List.replicate 5000 65) 5000 0 = some r ∧
      r.retval = 4000 := by
  obtain ⟨r, hr, hret, _⟩ := @scull_write_step (scull_init ⟨4000, 1000⟩)
    ⟨false, 3⟩ (List.replicate 5000 65) 0 (by decide) rfl
    (by decide) (by decide) (by decide) (by decide)
  rw [List.length_replicate] at hr
  have hok : 0 ≤ r.retval := by rw [hret]; exact Int.ofNat_nonneg _
  exact ⟨r, hr, write_clamp (scull_init ⟨4000, 1000⟩) ⟨false, 3⟩ (List.replicate 5000 65) 5000 0
    r (by decide) hr hok⟩

/-- C3, counterexample to the claim as stated: with `quantum = 65537` and
`qset = 65536` the product wraps to `itemsize = 65536`.  A write of 10 bytes at
position 65536 of a fresh device computes `item = 1`, `rest = 0`, `q_pos = 0`
and returns 10, where `(f_pos % (quantum * qset)) % quantum = 65536` and the
formula gives `min(10, 65537 - 65536) = 1`. -/
theorem write_clamp_wraps :
    to_int (65537 * 65536) = 65536 ∧
    locate 65537 65536 65536 = some (1, 0, 0) ∧
    (∃ r, scull_write (scull_init ⟨65537, 65536⟩) ⟨false, 4⟩
        [1, 2, 3, 4, 5, 6, 7, 8, 9, 10] 10 65536 = some r ∧ r.retval = 10) ∧
    (min 10 (65537 - 65536 % (65537 * 65536) % 65537) : Nat) = 1 := by
  refine ⟨by decide, by decide, ?_, by decide⟩
  obtain ⟨r, hr, hret, _⟩ := @scull_write_success (scull_init ⟨65537, 65536⟩) ⟨false, 4⟩
    [1, 2, 3, 4, 5, 6, 7, 8, 9, 10] 10 65536 1 0 0 rfl rfl (by decide) (by decide) (by decide)
  exact ⟨r, hr, hret⟩

/-! ### C4 -/

/-- C5. End of data: with the semaphore acquired, `scull_read` at a position at
or beyond `dev->size` returns 0, stores nothing into the user buffer, and leaves
the device (chain, quanta, size, quantum, qset) and `*f_pos` exactly as they
were, whatever the count. -/
theorem read_end_of_data (dev : scull_dev) (env : kernel_env) (room count f_pos : Nat)
    (hlock : env.signal = false) (hpos : dev.size ≤ f_pos) :
    scull_read dev env room count f_pos = some ⟨0, dev, f_pos, []⟩ :=
  scull_read_eof dev env room count f_pos hlock hpos

/-- C5, witness: a read at the position that equals the size returns 0. -/
theorem read_end_of_data_witness :
    scull_read dev_three ⟨false, 0⟩ 10 10 3 = some ⟨0, dev_three, 3, []⟩ :=
  read_end_of_data dev_three ⟨false, 0⟩ 10 10 3 rfl (by decide)

/-! ### C6 -/

/-- C6. Size update: after a `scull_write` that returns `n` bytes written the
size is `max(old size, f_pos + n)`; and whatever a write returns, the size did
not decrease and `quantum` and `qset` are unchanged. -/
theorem write_size_update (dev : scull_dev) (env : kernel_env) (buf : List UInt8)
    (count f_pos : Nat) (r : write_result) (n : Nat)
    (h : scull_write dev env buf count f_pos = some r) :
    (r.retval = (n : Int) → r.dev.size = max dev.size (f_pos + n)) ∧
      dev.size ≤ r.dev.size ∧ r.dev.quantum = dev.quantum ∧ r.dev.qset = dev.qset := by
  obtain ⟨hq, hs, _, hsz, _⟩ := scull_write_any h
  refine ⟨?_, hsz, hq, hs⟩
  intro hn
  have hok : 0 ≤ r.retval := by rw [hn]; exact Int.ofNat_nonneg n
  obtain ⟨item, s_pos, q_pos, dev1, i, mem1, dptr, slot, _, _, hfol, _, _, _, _, hr⟩ :=
    scull_write_ok h hok
  obtain ⟨_, _, h3, _, _⟩ := scull_follow_frame hfol
  have h3 : dev1.size = dev.size := h3
  rw [hr] at hn ⊢
  simp only [Int.ofNat_inj] at hn
  simp only [up, h3, hn]

/-- C6, witness: three bytes written at position 0 of a fresh device. -/
theorem write_size_update_witness :
    ((3 : Int) = (3 : Nat) → dev_three.size = max (scull_init ⟨8, 2⟩).size (0 + 3)) ∧
      (scull_init ⟨8, 2⟩).size ≤ dev_three.size ∧
      dev_three.quantum = (scull_init ⟨8, 2⟩).quantum ∧
      dev_three.qset = (scull_init ⟨8, 2⟩).qset :=
  write_size_update (scull_init ⟨8, 2⟩) ⟨false, 3⟩ [1, 2, 3] 3 0 ⟨3, dev_three, 3⟩ 3 (by decide)

/-! ### C7 -/

/-- C7 (as amended). What a read returns: for every device state, a
`scull_read` that has the semaphore returns 0 bytes at a position at or beyond
the size.  On a well-formed device (every pointer array has `qset` entries,
every quantum `quantum` cells), at a position below the size for which the
translation is defined (`itemsize` did not wrap to 0), the read returns: 0
bytes where the node, its pointer array or the quantum that the call computes
for the position is not allocated, and where the quantum is allocated and the
user buffer has room, `min(count, size - f_pos, quantum - q_pos)` cells of
that quantum as they are, stored to or not.  Every state that calls lead to
from an initialised device is well-formed. -/
theorem read_unwritten (dev : scull_dev) (env : kernel_env) (room count f_pos : Nat)
    (hsig : env.signal = false) :
    (dev.size ≤ f_pos → scull_read dev env room count f_pos = some ⟨0, dev, f_pos, []⟩) ∧
    (well_formed dev = true → f_pos < dev.size →
      ∀ (i s_pos q_pos : Nat), target dev.quantum dev.qset f_pos = some (i, s_pos, q_pos) →
        (page_at dev i s_pos = none →
          ∃ r, scull_read dev env room count f_pos = some r ∧
            r.retval = 0 ∧ r.buf = [] ∧ r.f_pos = f_pos) ∧
        (∀ page : quantum_buf, page_at dev i s_pos = some page →
          min (min count (dev.size - f_pos)) (dev.quantum - q_pos) ≤ room →
          scull_read dev env room count f_pos =
            some ⟨(min (min count (dev.size - f_pos)) (dev.quantum - q_pos) : Nat), dev,
              f_pos + min (min count (dev.size - f_pos)) (dev.quantum - q_pos),
              (page.drop q_pos).take
                (min (min count (dev.size - f_pos)) (dev.quantum - q_pos))⟩)) ∧
    (∀ (g : scull_globals) (ops : List scull_op),
      run g ops (scull_init g) = some dev → well_formed dev = true) := by
  refine ⟨fun hpos => scull_read_eof dev env room count f_pos hsig hpos, ?_,
    fun g ops hrun => run_well_formed g ops (scull_init g) dev rfl hrun⟩
  intro hwf hlt i s_pos q_pos htgt
  obtain ⟨item, hloc, hidx⟩ := locate_of_target htgt
  obtain ⟨r, hr⟩ := scull_read_returns env room count f_pos hwf (locate_nonzero hloc)
  obtain ⟨_, habs, hpres⟩ := scull_read_page hr hsig hlt hloc
  rw [hidx] at habs hpres
  refine ⟨fun hnone => ⟨r, hr, habs hnone⟩, fun page hpage hroom => ?_⟩
  obtain ⟨_, hcopy⟩ := hpres page hpage
  rcases hcopy with ⟨hlt', _⟩ | ⟨_, hrr⟩
  · omega
  · rw [hr, hrr]

/-- C7, witness: on the device that holds one byte at position 4 (`quantum =
4`, `qset = 2`, size 5), a read at position 0, whose quantum was never
allocated, returns 0 bytes, and a read of 8 bytes at position 4 returns the
one byte stored there. -/
theorem read_unwritten_witness :
    (∃ r, scull_read dev_sparse ⟨false, 0⟩ 8 8 0 = some r ∧
      r.retval = 0 ∧ r.buf = [] ∧ r.f_pos = 0) ∧
    scull_read dev_sparse ⟨false, 0⟩ 8 8 4 = some ⟨1, dev_sparse, 5, [some 9]⟩ :=
  ⟨((read_unwritten dev_sparse ⟨false, 0⟩ 8 8 0 rfl).2.1 (by decide) (by decide) 0 0 0
      (by decide)).1 (by decide),
    ((read_unwritten dev_sparse ⟨false, 0⟩ 8 8 4 rfl).2.1 (by decide) (by decide) 0 1 0
      (by decide)).2 [some 9, none, none, none] (by decide) (by decide)⟩

/-- C7, counterexample to the claim as stated: after the one byte 9 was written
at position 1 of a fresh device, the byte at position 0 was never written and
lies below the size 2, in the quantum the write allocated; a read of one byte
at position 0 returns 1 byte, the cell that no write stored to. -/
theorem read_returns_unwritten :
    scull_write (scull_init ⟨4, 2⟩) ⟨false, 3⟩ [9] 1 1 = some ⟨1, dev_hole, 2⟩ ∧
      scull_read dev_hole ⟨false, 0⟩ 1 1 0 = some ⟨1, dev_hole, 1, [none]⟩ := by
  decide

/-! ### C8 -/

/-- C8 (as amended). What a read does to the chain: for every device state,
position and count, a `scull_read` that returns leaves `quantum`, `qset`, size
and every node that was there unchanged and at most appends nodes without a
pointer array; it leaves the whole device unchanged at a position at or beyond
the size and when the node that the call computes for the position is already
in the chain.  With the semaphore, at a position below the size: when the
chain is too short for that node the read returns 0 and leaves the nodes that
`scull_follow` could allocate appended; and on a well-formed device it returns
0 whenever the node, its pointer array or the quantum is absent.  Every state
that calls lead to from an initialised device is well-formed. -/
theorem read_chain_effect (dev : scull_dev) (env : kernel_env) (room count f_pos : Nat) :
    (∀ r, scull_read dev env room count f_pos = some r →
      (∃ j, r.dev = { dev with data := dev.data ++ List.replicate j ⟨none⟩ }) ∧
      (dev.size ≤ f_pos → r.dev = dev) ∧
      (∀ (i s_pos q_pos : Nat),
        target dev.quantum dev.qset f_pos = some (i, s_pos, q_pos) →
        i < dev.data.length → r.dev = dev)) ∧
    (env.signal = false → f_pos < dev.size →
      ∀ (i s_pos q_pos : Nat), target dev.quantum dev.qset f_pos = some (i, s_pos, q_pos) →
        (dev.data.length ≤ i →
          scull_read dev env room count f_pos =
            some ⟨0,
              { dev with
                data := dev.data ++ List.replicate (min env.mem (follow_need dev i)) ⟨none⟩ },
              f_pos, []⟩) ∧
        (well_formed dev = true → page_at dev i s_pos = none →
          ∃ r, scull_read dev env room count f_pos = some r ∧ r.retval = 0 ∧ r.buf = [] ∧
            ∃ j, r.dev = { dev with data := dev.data ++ List.replicate j ⟨none⟩ })) ∧
    (∀ (g : scull_globals) (ops : List scull_op),
      run g ops (scull_init g) = some dev → well_formed dev = true) := by
  refine ⟨fun r h => ⟨scull_read_append h, ?_, ?_⟩, ?_,
    fun g ops hrun => run_well_formed g ops (scull_init g) dev rfl hrun⟩
  · intro hge
    rcases scull_read_cases h with ⟨_, hr⟩ | ⟨_, _, hr⟩ | ⟨_, hlt, _⟩
    · rw [hr]
    · rw [hr]
    · omega
  · intro i s_pos q_pos htgt hi
    obtain ⟨item0, hloc0, hidx⟩ := locate_of_target htgt
    rcases scull_read_cases h with ⟨_, hr⟩ | ⟨_, _, hr⟩ | ⟨_, hlt, item, s, q, fr, hloc, hfol, hres⟩
    · rw [hr]
    · rw [hr]
    · rw [hloc0] at hloc
      simp only [Option.some.injEq, Prod.mk.injEq] at hloc
      obtain ⟨rfl, rfl, rfl⟩ := hloc
      have hneed : follow_need (down dev) i = 0 := by
        simp only [follow_need, down]; omega
      rw [scull_follow_int, hidx, hneed] at hfol
      simp at hfol
      have hup : up fr.dev = dev := by
        rw [← hfol]
        exact up_down dev
      rcases hres with ⟨hr, _⟩ | ⟨_, _, _, _, _, _, _, ⟨_, hr⟩ | ⟨_, hr⟩⟩ <;> rw [hr] <;> exact hup
  · intro hsig hlt i s_pos q_pos htgt
    refine ⟨fun hshort => scull_read_short_chain hsig hlt htgt hshort, fun hwf hnone => ?_⟩
    obtain ⟨item, hloc, hidx⟩ := locate_of_target htgt
    obtain ⟨r, hr⟩ := scull_read_returns env room count f_pos hwf (locate_nonzero hloc)
    obtain ⟨hj, habs, _⟩ := scull_read_page hr hsig hlt hloc
    rw [hidx] at habs
    exact ⟨r, hr, (habs hnone).1, (habs hnone).2.1, hj⟩

/-- C8, witness: the read at position 0 of a device state with size 10 and no
node returns 0 and leaves the one node that `scull_follow` allocated; the read
at position 0 of the device whose slot 0 is empty returns 0. -/
theorem read_chain_effect_witness :
    scull_read dev_short ⟨false, 5⟩ 1 1 0 =
      some ⟨0,
        { dev_short with
          data := dev_short.data ++ List.replicate (min 5 (follow_need dev_short 0)) ⟨none⟩ },
        0, []⟩ ∧
    (∃ r, scull_read dev_sparse ⟨false, 0⟩ 8 8 0 = some r ∧ r.retval = 0 ∧ r.buf = [] ∧
      ∃ j, r.dev = { dev_sparse with data := dev_sparse.data ++ List.replicate j ⟨none⟩ }) :=
  ⟨((read_chain_effect dev_short ⟨false, 5⟩ 1 1 0).2.1 rfl (by decide) 0 0 0 (by decide)).1
      (by decide),
    ((read_chain_effect dev_sparse ⟨false, 0⟩ 8 8 0).2.1 rfl (by decide) 0 0 0 (by decide)).2
      (by decide) (by decide)⟩

/-- C8, counterexample to the claim as stated: on a device state with size 10
and an empty chain a read at position 0 makes `scull_follow` allocate the first
node, so the chain is not left unchanged. -/
theorem read_allocates :
    scull_read dev_short ⟨false, 5⟩ 1 1 0 =
        some ⟨0, { dev_short with data := [⟨none⟩] }, 0, []⟩ ∧
      ({ dev_short with data := [⟨none⟩] } : scull_dev).data ≠ dev_short.data := by
  decide

/-! ### C9 -/

/-- C9. Reset effect: after `scull_trim` the size is 0, the chain is empty and
`quantum` and `qset` are the current defaults, whatever the device held; a
following `scull_read` at position 0 stores no byte, and returns 0 once it has
the semaphore. -/
theorem trim_effect (g : scull_globals) (dev : scull_dev) :
    (scull_trim g dev).size = 0 ∧ (scull_trim g dev).data = [] ∧
      (scull_trim g dev).quantum = g.scull_quantum ∧
      (scull_trim g dev).qset = g.scull_qset ∧
      ∀ (env : kernel_env) (room count : Nat),
        ∃ r, scull_read (scull_trim g dev) env room count 0 = some r ∧ r.buf = [] ∧
          r.f_pos = 0 ∧ r.dev = scull_trim g dev ∧ (env.signal = false → r.retval = 0) := by
  refine ⟨rfl, rfl, rfl, rfl, ?_⟩
  intro env room count
  cases hsig : env.signal with
  | true =>
    refine ⟨⟨-ERESTARTSYS, scull_trim g dev, 0, []⟩, ?_, rfl, rfl, rfl, by simp⟩
    simp [scull_read, hsig]
  | false =>
    refine ⟨⟨0, scull_trim g dev, 0, []⟩, ?_, rfl, rfl, rfl, fun _ => rfl⟩
    have hge : (0 : Nat) ≥ (down (scull_trim g dev)).size := Nat.le_refl 0
    simp only [scull_read, hsig, if_pos hge, up_down]
    simp

/-! ### C10 -/

/-- C10 (as amended). Reset of an empty device: `scull_trim` leaves the size
(0), the empty chain and the semaphore as they were and sets `quantum` and
`qset` to the current defaults; it leaves the whole device as it was when
`quantum` and `qset` already are the defaults; and reset is idempotent. -/
theorem trim_empty (g : scull_globals) (dev : scull_dev) (hdata : dev.data = [])
    (hsize : dev.size = 0) :
    (scull_trim g dev).size = dev.size ∧ (scull_trim g dev).data = dev.data ∧
      (scull_trim g dev).sem = dev.sem ∧
      (scull_trim g dev).quantum = g.scull_quantum ∧
      (scull_trim g dev).qset = g.scull_qset ∧
      (dev.quantum = g.scull_quantum → dev.qset = g.scull_qset → scull_trim g dev = dev) ∧
      scull_trim g (scull_trim g dev) = scull_trim g dev := by
  obtain ⟨data, quantum, qset, size, sem⟩ := dev
  simp only at hdata hsize
  subst hdata hsize
  refine ⟨rfl, rfl, rfl, rfl, rfl, ?_, rfl⟩
  intro h1 h2
  simp only at h1 h2
  subst h1 h2
  rfl

/-- C10, witness: the reset of a fresh device under unchanged defaults. -/
theorem trim_empty_witness :
    (scull_trim ⟨4000, 1000⟩ (scull_init ⟨4000, 1000⟩)).size = (scull_init ⟨4000, 1000⟩).size ∧
      scull_trim ⟨4000, 1000⟩ (scull_init ⟨4000, 1000⟩) = scull_init ⟨4000, 1000⟩ :=
  have h := trim_empty ⟨4000, 1000⟩ (scull_init ⟨4000, 1000⟩) rfl rfl
  ⟨h.1, h.2.2.2.2.2.1 rfl rfl⟩

/-- C10, counterexample to the claim as stated: an empty device whose `quantum`
and `qset` are 5 and 7 while the defaults are 4000 and 1000 is changed by
`scull_trim`. -/
theorem trim_empty_changes :
    (⟨[], 5, 7, 0, 1⟩ : scull_dev).data = [] ∧ (⟨[], 5, 7, 0, 1⟩ : scull_dev).size = 0 ∧
      scull_trim ⟨4000, 1000⟩ ⟨[], 5, 7, 0, 1⟩ = ⟨[], 4000, 1000, 0, 1⟩ ∧
      (⟨[], 4000, 1000, 0, 1⟩ : scull_dev) ≠ ⟨[], 5, 7, 0, 1⟩ := by
  decide

/-! ### C11 -/

/-- C11. Open truncation: for every device state, `scull_open` with access
mode exactly write-only (`(f_flags & O_ACCMODE) == O_WRONLY`) that gets the
semaphore returns 0 and leaves the device in the reset state (size 0, empty
chain, `quantum` and `qset` at the defaults, semaphore count as before), so
that a following `scull_read` at position 0 returns 0 bytes whatever the
device held; `scull_open` with any other access mode returns 0 and leaves the
whole device unchanged. -/
theorem open_truncates (g : scull_globals) (dev : scull_dev) (env : kernel_env) (f_flags : Nat) :
    (f_flags &&& O_ACCMODE = O_WRONLY → env.signal = false →
      scull_open g dev env f_flags = ⟨0, scull_trim g dev⟩ ∧
      (scull_trim g dev).size = 0 ∧ (scull_trim g dev).data = [] ∧
      (scull_trim g dev).quantum = g.scull_quantum ∧ (scull_trim g dev).qset = g.scull_qset ∧
      (scull_trim g dev).sem = dev.sem ∧
      ∀ (renv : kernel_env) (room count : Nat), renv.signal = false →
        scull_read (scull_open g dev env f_flags).dev renv room count 0
          = some ⟨0, scull_trim g dev, 0, []⟩) ∧
    (f_flags &&& O_ACCMODE ≠ O_WRONLY → scull_open g dev env f_flags = ⟨0, dev⟩) := by
  refine ⟨fun hmode hsig => ?_, scull_open_other g dev env f_flags⟩
  rw [scull_open_wronly g dev env f_flags hmode hsig]
  refine ⟨rfl, rfl, rfl, rfl, rfl, rfl, fun renv room count hr => ?_⟩
  exact scull_read_eof _ renv room count 0 hr (Nat.zero_le _)

/-- C11, witness: opened write-only (`f_flags = 1`), the device that holds the
byte 9 is reset and a read of 8 bytes at position 0 returns 0; opened
read-only (`f_flags = 0`) or read-write (`f_flags = 2`) it is left as it
is. -/
theorem open_truncates_witness :
    (scull_open ⟨4, 2⟩ dev_hole ⟨false, 0⟩ 1 = ⟨0, scull_trim ⟨4, 2⟩ dev_hole⟩ ∧
      scull_read (scull_open ⟨4, 2⟩ dev_hole ⟨false, 0⟩ 1).dev ⟨false, 0⟩ 8 8 0
        = some ⟨0, scull_trim ⟨4, 2⟩ dev_hole, 0, []⟩) ∧
    scull_open ⟨4, 2⟩ dev_hole ⟨false, 0⟩ 0 = ⟨0, dev_hole⟩ ∧
    scull_open ⟨4, 2⟩ dev_hole ⟨false, 0⟩ 2 = ⟨0, dev_hole⟩ :=
  have h := (open_truncates ⟨4, 2⟩ dev_hole ⟨false, 0⟩ 1).1 (by decide) rfl
  ⟨⟨h.1, h.2.2.2.2.2.2 ⟨false, 0⟩ 8 8 rfl⟩,
    (open_truncates ⟨4, 2⟩ dev_hole ⟨false, 0⟩ 0).2 (by decide),
    (open_truncates ⟨4, 2⟩ dev_hole ⟨false, 0⟩ 2).2 (by decide)⟩

/-! ### C12 -/

/-- C12. Out of memory on write: on every well-formed device, every
`scull_write` that has the semaphore and whose translation is defined
returns, and it returns `-ENOMEM` exactly when a `kmalloc` request is refused,
that is when the budget is below what the call has to request: the nodes
`scull_follow` adds, the pointer array if the node has none, the quantum if the
slot is empty.  And for every device state, when a `scull_write` returns
`-ENOMEM`, the position, the size, `quantum`, `qset` and the semaphore count
are as before, every slot holds the quantum it held before (none is added,
none is changed), and the chain is the old one with the nodes `scull_follow`
appended, all without a pointer array, except that one node that had no
pointer array may have got one with all slots empty.  Every state that calls
lead to from an initialised device is well-formed. -/
theorem write_out_of_memory (dev : scull_dev) (env : kernel_env) (buf : List UInt8)
    (count f_pos : Nat) :
    (env.signal = false → well_formed dev = true →
      ∀ (i s_pos q_pos : Nat), target dev.quantum dev.qset f_pos = some (i, s_pos, q_pos) →
        ∃ r, scull_write dev env buf count f_pos = some r ∧
          (env.mem < write_allocs dev i s_pos ↔ r.retval = -ENOMEM)) ∧
    (∀ r, scull_write dev env buf count f_pos = some r → r.retval = -ENOMEM →
      r.f_pos = f_pos ∧ r.dev.size = dev.size ∧ r.dev.quantum = dev.quantum ∧
      r.dev.qset = dev.qset ∧ r.dev.sem = dev.sem ∧
      (∀ i s_pos, page_at r.dev i s_pos = page_at dev i s_pos) ∧
      ∃ j, r.dev.data = dev.data ++ List.replicate j ⟨none⟩ ∨
        ∃ i, (dev.data ++ List.replicate j (⟨none⟩ : scull_qset))[i]? = some ⟨none⟩ ∧
          r.dev.data = (dev.data ++ List.replicate j (⟨none⟩ : scull_qset)).set i
            (scull_qset.mk (some (List.replicate dev.qset none)))) ∧
    (∀ (g : scull_globals) (ops : List scull_op),
      run g ops (scull_init g) = some dev → well_formed dev = true) := by
  refine ⟨fun hsig hwf i s q htgt => ?_, fun r h hr => ?_,
    fun g ops hrun => run_well_formed g ops (scull_init g) dev rfl hrun⟩
  · obtain ⟨item, hloc, _⟩ := locate_of_target htgt
    obtain ⟨r, h⟩ := scull_write_returns env buf count hwf hloc
    exact ⟨r, h, scull_write_enomem_iff h hsig htgt⟩
  · have hpages := scull_write_fail_pages h (Or.inl hr)
    obtain ⟨hq, hs, hsem, _, _⟩ := scull_write_any h
    obtain ⟨j, hcases⟩ := scull_write_norm h
    rcases hcases with ⟨_, hr'⟩ | ⟨_, hr'⟩ | ⟨_, k, hnode, hr'⟩ |
      ⟨_, k, s', q, dptr, slot, _, _, _, _, hres⟩
    · rw [hr'] at hr
      simp [ERESTARTSYS, ENOMEM] at hr
    · refine ⟨by rw [hr'], by rw [hr'], hq, hs, hsem, hpages, j, Or.inl (by rw [hr'])⟩
    · refine ⟨by rw [hr'], by rw [hr'], hq, hs, hsem, hpages, j, Or.inr ⟨k, hnode, by rw [hr']⟩⟩
    · exfalso
      rcases hres with ⟨_, hr'⟩ | ⟨_, hr'⟩
      · rw [hr'] at hr
        simp [EFAULT, ENOMEM] at hr
      · rw [hr'] at hr
        simp only [ENOMEM] at hr
        omega

/-- C12, witness: on a fresh device with `quantum = 4`, `qset = 2` the write of
one byte at position 0 needs three allocations.  With a budget of two it
returns, and what it returns is `-ENOMEM`; the state it leaves has the node
and its pointer array in the chain, size 0 and no quantum. -/
theorem write_out_of_memory_witness :
    (∃ r, scull_write (scull_init ⟨4, 2⟩) ⟨false, 2⟩ [7] 1 0 = some r ∧
      (2 < write_allocs (scull_init ⟨4, 2⟩) 0 0 ↔ r.retval = -ENOMEM)) ∧
    2 < write_allocs (scull_init ⟨4, 2⟩) 0 0 ∧
    scull_write (scull_init ⟨4, 2⟩) ⟨false, 2⟩ [7] 1 0 =
      some ⟨-ENOMEM, { scull_init ⟨4, 2⟩ with data := [⟨some [none, none]⟩] }, 0⟩ ∧
    ∀ i s_pos, page_at { scull_init ⟨4, 2⟩ with data := [⟨some [none, none]⟩] } i s_pos =
      page_at (scull_init ⟨4, 2⟩) i s_pos :=
  have h : scull_write (scull_init ⟨4, 2⟩) ⟨false, 2⟩ [7] 1 0 =
      some ⟨-ENOMEM, { scull_init ⟨4, 2⟩ with data := [⟨some [none, none]⟩] }, 0⟩ := by decide
  ⟨(write_out_of_memory (scull_init ⟨4, 2⟩) ⟨false, 2⟩ [7] 1 0).1 rfl rfl 0 0 0 (by decide),
    by decide, h,
    ((write_out_of_memory (scull_init ⟨4, 2⟩) ⟨false, 2⟩ [7] 1 0).2.1 _ h rfl).2.2.2.2.2.1⟩

/-! ### C13 -/

/-- C13. Interrupted acquisition mutates nothing: for every device state, if
`down_interruptible` is interrupted, `scull_read`, `scull_write` and
`scull_open` in write-only mode return `-ERESTARTSYS`, and the device (size,
`quantum`, `qset`, chain and quanta, semaphore count) and the caller's
position are exactly as before; the read hands no byte to the caller. -/
theorem interrupted_no_change (g : scull_globals) (dev : scull_dev) (env : kernel_env)
    (buf : List UInt8) (room count f_pos f_flags : Nat) (hsig : env.signal = true) :
    scull_read dev env room count f_pos = some ⟨-ERESTARTSYS, dev, f_pos, []⟩ ∧
    scull_write dev env buf count f_pos = some ⟨-ERESTARTSYS, dev, f_pos⟩ ∧
    (f_flags &&& O_ACCMODE = O_WRONLY →
      scull_open g dev env f_flags = ⟨-ERESTARTSYS, dev⟩) := by
  refine ⟨?_, ?_, fun hmode => ?_⟩
  · simp [scull_read, hsig]
  · simp [scull_write, hsig]
  · simp [scull_open, hmode, hsig]

/-- C13, witness: interrupted calls on the device that holds the bytes 1, 2,
3. -/
theorem interrupted_no_change_witness :
    scull_read dev_three ⟨true, 5⟩ 8 8 0 = some ⟨-ERESTARTSYS, dev_three, 0, []⟩ ∧
    scull_write dev_three ⟨true, 5⟩ [7] 1 0 = some ⟨-ERESTARTSYS, dev_three, 0⟩ ∧
    scull_open ⟨4, 2⟩ dev_three ⟨true, 5⟩ 1 = ⟨-ERESTARTSYS, dev_three⟩ :=
  have h := interrupted_no_change ⟨4, 2⟩ dev_three ⟨true, 5⟩ [7] 8 1 0 1 rfl
  ⟨h.1, h.2.1, h.2.2 (by decide)⟩

/-! ### C14 -/

/-- C14. Lock balance: with the semaphore count as part of the device state,
for every device state and every call of `scull_read`, `scull_write` and
`scull_open` that returns, on whichever path (success, end of data, absent
quantum, `-ENOMEM`, `-EFAULT`, or interrupted before the semaphore was taken),
the semaphore count after the call equals the count before it: each `down`
that succeeded is followed by exactly one `up`. -/
theorem lock_balance (g : scull_globals) (dev : scull_dev) (env : kernel_env)
    (buf : List UInt8) (room count f_pos f_flags : Nat) :
    (∀ r, scull_read dev env room count f_pos = some r → r.dev.sem = dev.sem) ∧
    (∀ r, scull_write dev env buf count f_pos = some r → r.dev.sem = dev.sem) ∧
    (scull_open g dev env f_flags).dev.sem = dev.sem := by
  refine ⟨fun r h => scull_read_sem h, fun r h => (scull_write_any h).2.2.1, ?_⟩
  unfold scull_open
  split
  · split
    · rfl
    · simp [up, down, scull_trim]
  · rfl

/-- C14, witness: the semaphore count stays 1 over a read at the end of the
data, a write that runs out of memory, a write whose copy faults, and an open
that resets. -/
theorem lock_balance_witness :
    (⟨0, dev_three, 3, []⟩ : read_result).dev.sem = dev_three.sem ∧
    (⟨-ENOMEM, { scull_init ⟨4, 2⟩ with data := [⟨some [none, none]⟩] }, 0⟩ : write_result).dev.sem
      = (scull_init ⟨4, 2⟩).sem ∧
    (⟨-EFAULT, { scull_init ⟨4, 2⟩ with
        data := [⟨some [some [some 0, some 0, none, none], none]⟩] }, 0⟩ : write_result).dev.sem
      = (scull_init ⟨4, 2⟩).sem ∧
    (scull_open ⟨4, 2⟩ dev_three ⟨false, 0⟩ 1).dev.sem = dev_three.sem :=
  ⟨(lock_balance ⟨4, 2⟩ dev_three ⟨false, 0⟩ [] 8 8 3 1).1 _ (by decide),
    (lock_balance ⟨4, 2⟩ (scull_init ⟨4, 2⟩) ⟨false, 2⟩ [7] 0 1 0 1).2.1 _ (by decide),
    (lock_balance ⟨4, 2⟩ (scull_init ⟨4, 2⟩) ⟨false, 3⟩ [] 0 2 0 1).2.1 _ (by decide),
    (lock_balance ⟨4, 2⟩ dev_three ⟨false, 0⟩ [] 8 8 3 1).2.2⟩

/-! ### C15 -/

/-! Mutual exclusion of two concurrent `scull_write` calls is a statement about
interleavings of two threads and the blocking of `down_interruptible`.  The
embedding runs each call from its `down` to its `up` as one step, so calls
never overlap in it and the statement has no counterpart here; what the
sequential code contributes, that every call takes the semaphore before it
translates the position and gives it back after the size update, on every
path, is the lock balance shown for C14. -/

/-! ### C16 -/

/-- C16 (as amended). Page existence: in every state that a sequence of opens,
reads, writes and resets leads to from an initialised device, a slot (node
index, slot index) holds a quantum if and only if, since the last reset, some
`scull_write` whose position the call translated to that slot got as far as
the copy, that is, returned a byte count (0 included) or `-EFAULT`; in
particular every slot that a write stored at least one byte in holds a
quantum. -/
theorem page_iff_tried (g : scull_globals) (ops : List scull_op) (dev : scull_dev) (h : history)
    (hrun : run_hist g ops (scull_init g) ⟨[], []⟩ = some (dev, h)) :
    (∀ i s, (page_at dev i s).isSome = true ↔ (i, s) ∈ h.tried) ∧
    (∀ i s, (i, s) ∈ h.wrote → (page_at dev i s).isSome = true) := by
  have hinv := run_hist_induct g
    (fun dev h => (∀ i s, (page_at dev i s).isSome = true ↔ (i, s) ∈ h.tried) ∧
      ∀ x ∈ h.wrote, x ∈ h.tried)
    (fun dev h op dev1 hP hop => tried_step g dev h op dev1 hP hop)
    ops (scull_init g) ⟨[], []⟩ dev h
    ⟨fun i s => by simp [page_at, chain_page, scull_init], fun x hx => hx⟩ hrun
  exact ⟨hinv.1, fun i s hw => (hinv.1 i s).mpr (hinv.2 _ hw)⟩

/-- C16, witness: after the write of the byte 9 at position 1 on a fresh
device with `quantum = 4`, `qset = 2`, slot (0, 0) is the one slot written
and the one slot that holds a quantum. -/
theorem page_iff_tried_witness :
    (∀ i s, (page_at dev_hole i s).isSome = true ↔
      (i, s) ∈ (⟨[(0, 0)], [(0, 0)]⟩ : history).tried) ∧
    (∀ i s, (i, s) ∈ (⟨[(0, 0)], [(0, 0)]⟩ : history).wrote →
      (page_at dev_hole i s).isSome = true) :=
  page_iff_tried ⟨4, 2⟩ [.do_write ⟨false, 3⟩ [9] 1 1] dev_hole ⟨[(0, 0)], [(0, 0)]⟩ (by decide)

/-- C16, counterexample to the claim as stated: on a fresh device with
`quantum = 4`, `qset = 2`, a `scull_write` of zero bytes at position 0 returns
0 and leaves a quantum in slot (0, 0) although no byte was written; and a
`scull_write` of two bytes whose copy faults returns `-EFAULT` and leaves the
quantum too. -/
theorem page_without_byte :
    scull_write (scull_init ⟨4, 2⟩) ⟨false, 3⟩ [] 0 0 =
      some ⟨0, { scull_init ⟨4, 2⟩ with data := [⟨some [some [none, none, none, none], none]⟩] },
        0⟩ ∧
    run_hist ⟨4, 2⟩ [.do_write ⟨false, 3⟩ [] 0 0] (scull_init ⟨4, 2⟩) ⟨[], []⟩ =
      some ({ scull_init ⟨4, 2⟩ with data := [⟨some [some [none, none, none, none], none]⟩] },
        ⟨[], [(0, 0)]⟩) ∧
    page_at { scull_init ⟨4, 2⟩ with data := [⟨some [some [none, none, none, none], none]⟩] }
      0 0 = some [none, none, none, none] ∧
    scull_write (scull_init ⟨4, 2⟩) ⟨false, 3⟩ [] 2 0 =
      some ⟨-EFAULT,
        { scull_init ⟨4, 2⟩ with data := [⟨some [some [some 0, some 0, none, none], none]⟩] },
        0⟩ ∧
    run_hist ⟨4, 2⟩ [.do_write ⟨false, 3⟩ [] 2 0] (scull_init ⟨4, 2⟩) ⟨[], []⟩ =
      some ({ scull_init ⟨4, 2⟩ with data := [⟨some [some [some 0, some 0, none, none], none]⟩] },
        ⟨[], [(0, 0)]⟩) := by
  decide

/-! ### C17 -/

/-- C17 (as amended). Size within the allocated extent: when the defaults have
`quantum * qset <= INT_MAX`, in every state that a sequence of opens, reads,
resets and writes at positions whose node index fits an `int` leads to from an
initialised device, the size is 0 or does not exceed the end of a quantum that
is allocated: some slot `s` of some node `i` holds a quantum and
`size <= (i * qset + s + 1) * quantum`. -/
theorem size_within_extent (g : scull_globals) (ops : List scull_op) (dev : scull_dev)
    (hgeo : g.scull_quantum * g.scull_qset < 2 ^ 31)
    (hrange : ∀ op ∈ ops, op_in_range g op = true)
    (hrun : run g ops (scull_init g) = some dev) :
    dev.size = 0 ∨ ∃ i s, (page_at dev i s).isSome = true ∧
      dev.size ≤ (i * dev.qset + s + 1) * dev.quantum := by
  have hinv := run_induct g
    (fun dev => dev.quantum = g.scull_quantum ∧ dev.qset = g.scull_qset ∧
      (dev.size = 0 ∨ ∃ i s, (page_at dev i s).isSome = true ∧
        dev.size ≤ (i * dev.qset + s + 1) * dev.quantum))
    (fun op => op_in_range g op = true)
    (fun dev op dev1 hP hC hop => extent_step g dev op dev1 hgeo hP hC hop)
    ops (scull_init g) dev ⟨rfl, rfl, Or.inl rfl⟩ hrange hrun
  exact hinv.2.2

/-- C17, witness: after one byte written at position 4 on a fresh device with
`quantum = 4`, `qset = 2`, the size 5 is within the end of the quantum of slot
1 of node 0. -/
theorem size_within_extent_witness :
    dev_sparse.size = 0 ∨
    ∃ i s, (page_at dev_sparse i s).isSome = true ∧
      dev_sparse.size ≤ (i * dev_sparse.qset + s + 1) * dev_sparse.quantum :=
  size_within_extent ⟨4, 2⟩ [.do_write ⟨false, 3⟩ [9] 1 4] dev_sparse
    (by decide) (by decide) (by decide)

/-- C17, counterexample to the claim as stated: one byte written at position
`quantum = 4` on a fresh device allocates one quantum and makes the size 5,
more than one quantum holds.  The bound by the end of an allocated quantum
needs the range of `int`: a byte written at position `2^32` with
`quantum = qset = 1`, where the node index does not fit, makes the size
`2^32 + 1` with the one quantum of slot 0 of node 0; and with `quantum =
65537`, `qset = 65536`, where `itemsize` wraps to 65536, a byte written at
position `2^48` (node index 65535) lands in slot 0 of node 0 and makes the
size `2^48 + 1`. -/
theorem size_exceeds_pages :
    run ⟨4, 2⟩ [.do_write ⟨false, 3⟩ [9] 1 4] (scull_init ⟨4, 2⟩) = some dev_sparse ∧
    page_count dev_sparse = 1 ∧
    ¬ (dev_sparse.size ≤ page_count dev_sparse * dev_sparse.quantum) ∧
    run ⟨1, 1⟩ [.do_write ⟨false, 3⟩ [2] 1 (2 ^ 32)] (scull_init ⟨1, 1⟩) =
      some { scull_init ⟨1, 1⟩ with data := [⟨some [some [some 2]]⟩], size := 2 ^ 32 + 1 } ∧
    page_count { scull_init ⟨1, 1⟩ with data := [⟨some [some [some 2]]⟩], size := 2 ^ 32 + 1 }
      = 1 ∧
    2 ^ 48 / (65537 * 65536) = 65535 ∧
    (∃ dev, run ⟨65537, 65536⟩ [.do_write ⟨false, 3⟩ [9] 1 (2 ^ 48)] (scull_init ⟨65537, 65536⟩)
        = some dev ∧
      dev.size = 2 ^ 48 + 1 ∧ dev.quantum = 65537 ∧
      ∀ i s, (page_at dev i s).isSome = true → i = 0 ∧ s = 0) := by
  refine ⟨by decide, by decide, by decide, by decide, by decide, by decide, ?_⟩
  obtain ⟨r, hr, _, _, hsize, _, hpages⟩ := @scull_write_success (scull_init ⟨65537, 65536⟩)
    ⟨false, 3⟩ [9] 1 (2 ^ 48) 0 0 0 rfl rfl (by decide) (by decide) (by decide)
  obtain ⟨hq, _⟩ := scull_write_any hr
  refine ⟨r.dev, run_one_write _ _ _ _ _ _ _ hr, ?_, hq, fun i s hp => ?_⟩
  · rw [hsize]
    decide
  · rw [hpages] at hp
    have hinit : (page_at (scull_init ⟨65537, 65536⟩) i s).isSome = false := by
      simp [page_at, chain_page, scull_init]
    rw [hinit] at hp
    simpa using hp

/-! ### C18 -/

/-- C18. Segment location: for every device with a chain of length `L`, every
`n >= 0` and every budget that covers the nodes to add, `scull_follow(dev, n)`
returns (it is a total function: the walk takes `n` steps) the node at
position `n` of the chain it leaves; that chain has length `max L (n + 1)`,
its first `L` nodes are the old ones, unchanged, every node added has no
pointer array, and nothing follows the last node; `quantum`, `qset`, size and
semaphore are untouched. -/
theorem follow_locates (dev : scull_dev) (n mem : Nat) (hmem : follow_need dev n ≤ mem) :
    ∃ r, scull_follow dev (n : Int) mem = some r ∧
      r.qs = some n ∧
      r.dev.data.length = max dev.data.length (n + 1) ∧
      r.dev.data.take dev.data.length = dev.data ∧
      (∀ j, j < dev.data.length → r.dev.data[j]? = dev.data[j]?) ∧
      (∀ j, dev.data.length ≤ j → j < r.dev.data.length → r.dev.data[j]? = some ⟨none⟩) ∧
      (∀ j, r.dev.data.length ≤ j → r.dev.data[j]? = none) ∧
      r.dev.quantum = dev.quantum ∧ r.dev.qset = dev.qset ∧ r.dev.size = dev.size ∧
      r.dev.sem = dev.sem ∧ r.mem = mem - follow_need dev n := by
  rw [scull_follow_eq, if_pos hmem]
  refine ⟨_, rfl, rfl, ?_, ?_, ?_, ?_, ?_, rfl, rfl, rfl, rfl, rfl⟩
  · simp only [List.length_append, List.length_replicate, follow_need]
    omega
  · simp
  · intro j hj
    simp [List.getElem?_append_left hj]
  · intro j hj1 hj2
    simp only [List.length_append, List.length_replicate] at hj2
    rw [List.getElem?_append_right hj1, List.getElem?_replicate]
    simp; omega
  · intro j hj
    simp only [List.length_append, List.length_replicate] at hj
    simp; omega

/-- C18, witness: `scull_follow(dev, 2)` on the device with one node and a
budget of 5 returns node 2 of a chain of length 3. -/
theorem follow_locates_witness :
    ∃ r, scull_follow dev_one ((2 : Nat) : Int) 5 = some r ∧
      r.qs = some 2 ∧
      r.dev.data.length = max dev_one.data.length (2 + 1) ∧
      r.dev.data.take dev_one.data.length = dev_one.data ∧
      (∀ j, j < dev_one.data.length → r.dev.data[j]? = dev_one.data[j]?) ∧
      (∀ j, dev_one.data.length ≤ j → j < r.dev.data.length → r.dev.data[j]? = some ⟨none⟩) ∧
      (∀ j, r.dev.data.length ≤ j → r.dev.data[j]? = none) ∧
      r.dev.quantum = dev_one.quantum ∧ r.dev.qset = dev_one.qset ∧ r.dev.size = dev_one.size ∧
      r.dev.sem = dev_one.sem ∧ r.mem = 5 - follow_need dev_one 2 :=
  follow_locates dev_one 2 5 (by decide)

/-! ### C19 -/

/-- C19 (as amended). Write frame: for every device state whose
`quantum * qset` fits the `int itemsize` and every successful `scull_write` at
a position `o` whose node index `o / (quantum * qset)` fits an `int`, with `n`
the value returned: the cells that change are the `n` cells from
`byte_in_page` on of the quantum at slot `page_index(o)` of node
`segment_index(o)`, which get the first `n` bytes of the caller's data; every
other cell of that quantum, every other slot and its quantum, `quantum` and
`qset` are as before, every quantum that was there still is, the chain is not
shorter and every node but that of the position is as before. -/
theorem write_frame (dev : scull_dev) (env : kernel_env) (buf : List UInt8)
    (count f_pos : Nat) (r : write_result)
    (hfit : dev.quantum * dev.qset < 2 ^ 31)
    (h : scull_write dev env buf count f_pos = some r) (hok : 0 ≤ r.retval)
    (hrange : f_pos / (dev.quantum * dev.qset) < 2 ^ 31) :
    r.retval = (min count (dev.quantum - f_pos % (dev.quantum * dev.qset) % dev.quantum) : Nat) ∧
    min count (dev.quantum - f_pos % (dev.quantum * dev.qset) % dev.quantum) ≤ buf.length ∧
    (∀ k, k < min count (dev.quantum - f_pos % (dev.quantum * dev.qset) % dev.quantum) →
      cell_at r.dev (f_pos / (dev.quantum * dev.qset))
        (f_pos % (dev.quantum * dev.qset) / dev.quantum)
        (f_pos % (dev.quantum * dev.qset) % dev.quantum + k) = buf[k]?) ∧
    (∀ i s c, ¬ (i = f_pos / (dev.quantum * dev.qset) ∧
        s = f_pos % (dev.quantum * dev.qset) / dev.quantum ∧
        f_pos % (dev.quantum * dev.qset) % dev.quantum ≤ c ∧
        c < f_pos % (dev.quantum * dev.qset) % dev.quantum +
          min count (dev.quantum - f_pos % (dev.quantum * dev.qset) % dev.quantum)) →
      cell_at r.dev i s c = cell_at dev i s c) ∧
    (∀ i s, ¬ (i = f_pos / (dev.quantum * dev.qset) ∧
        s = f_pos % (dev.quantum * dev.qset) / dev.quantum) →
      page_at r.dev i s = page_at dev i s) ∧
    (∀ i s, (page_at dev i s).isSome = true → (page_at r.dev i s).isSome = true) ∧
    r.dev.quantum = dev.quantum ∧ r.dev.qset = dev.qset ∧
    dev.data.length ≤ r.dev.data.length ∧
    (∀ k, k ≠ f_pos / (dev.quantum * dev.qset) → k < dev.data.length →
      r.dev.data[k]? = dev.data[k]?) := by
  obtain ⟨i, s, q, htgt, hret, hbuf, hsome, hpages, hcells, hnodes⟩ := scull_write_cells h hok
  obtain ⟨_, hitem, hsp, hqp⟩ := target_in_range htgt hfit hrange
  subst hitem hsp hqp
  obtain ⟨hq1, hs1, _, _, hlen1⟩ := scull_write_any h
  refine ⟨hret, hbuf, fun k hk => ?_, fun i s c hne => ?_, hpages, fun i s hp => ?_,
    hq1, hs1, hlen1, hnodes⟩
  · rw [hcells, if_pos ⟨rfl, rfl, by omega, by omega⟩]
    congr 1
    omega
  · rw [hcells, if_neg hne]
  · rw [hsome, hp]
    simp

/-- C19, witness: on the device that holds the byte 9 at position 1
(`quantum = 4`, `qset = 2`), the write of the byte 7 at position 2 returns 1,
puts 7 into cell 2 of the quantum of slot 0 of node 0 and leaves cell 1 and
the empty slot 1 as they were. -/
theorem write_frame_witness :
    scull_write dev_hole ⟨false, 0⟩ [7] 1 2 =
      some ⟨1, { dev_hole with
        data := [⟨some [some [none, some 9, some 7, none], none]⟩], size := 3 }, 3⟩ ∧
    cell_at { dev_hole with
        data := [⟨some [some [none, some 9, some 7, none], none]⟩], size := 3 } 0 0 2 = some 7 ∧
    cell_at { dev_hole with
        data := [⟨some [some [none, some 9, some 7, none], none]⟩], size := 3 } 0 0 1 =
      cell_at dev_hole 0 0 1 ∧
    page_at { dev_hole with
        data := [⟨some [some [none, some 9, some 7, none], none]⟩], size := 3 } 0 1 =
      page_at dev_hole 0 1 :=
  have h : scull_write dev_hole ⟨false, 0⟩ [7] 1 2 =
      some ⟨1, { dev_hole with
        data := [⟨some [some [none, some 9, some 7, none], none]⟩], size := 3 }, 3⟩ := by decide
  have hf := write_frame dev_hole ⟨false, 0⟩ [7] 1 2 _ (by decide) h (by decide) (by decide)
  ⟨h, hf.2.2.1 0 (by decide), hf.2.2.2.1 0 0 1 (by decide), hf.2.2.2.2.1 0 1 (by decide)⟩

/-- C19, counterexample to the claim as stated: with `quantum = qset = 1`, on
the device that holds the byte 1 at position 0, the successful write of the
byte 2 at position `2^32`, whose segment index is `2^32`, changes the cell of
the quantum at slot 0 of node 0, a quantum that was present and is not the one
of the position.  And with `quantum = 65537`, `qset = 65536`, where `itemsize`
wraps to 65536, the successful write of one byte at position 65536 of a fresh
device, whose segment index is 0, puts its quantum into slot 0 of node 1 and
none into node 0. -/
theorem write_frame_wraps :
    scull_write dev_one ⟨false, 3⟩ [2] 1 (2 ^ 32) =
      some ⟨1, { dev_one with data := [⟨some [some [some 2]]⟩], size := 2 ^ 32 + 1 },
        2 ^ 32 + 1⟩ ∧
    2 ^ 32 / (dev_one.quantum * dev_one.qset) = 2 ^ 32 ∧
    cell_at dev_one 0 0 0 = some 1 ∧
    cell_at { dev_one with data := [⟨some [some [some 2]]⟩], size := 2 ^ 32 + 1 } 0 0 0 =
      some 2 ∧
    65536 / (65537 * 65536) = 0 ∧ 65536 % (65537 * 65536) / 65537 = 0 ∧
    (∃ r, scull_write (scull_init ⟨65537, 65536⟩) ⟨false, 4⟩ [7] 1 65536 = some r ∧
      r.retval = 1 ∧ (page_at r.dev 1 0).isSome = true ∧ (page_at r.dev 0 0).isSome = false) := by
  refine ⟨by decide, by decide, by decide, by decide, by decide, by decide, ?_⟩
  obtain ⟨r, hr, hret, _, _, _, hpages⟩ := @scull_write_success (scull_init ⟨65537, 65536⟩)
    ⟨false, 4⟩ [7] 1 65536 1 0 0 rfl rfl (by decide) (by decide) (by decide)
  have hinit : ∀ i s, (page_at (scull_init ⟨65537, 65536⟩) i s).isSome = false := by
    intro i s
    simp [page_at, chain_page, scull_init]
  refine ⟨r, hr, hret, ?_, ?_⟩
  · rw [hpages]; simp
  · rw [hpages, hinit]; simp

/-! ### C20 -/

/-- C20 (as amended). Reads do not grow the store in reachable states: when the
defaults have `quantum * qset <= INT_MAX`, in every state that a sequence of
opens, reads, resets and writes at positions whose node index fits an `int`
leads to from an initialised device, `size <= (chain length) * quantum * qset`;
so for every position below the size the node index is smaller than the chain
length and is the `item` that the read computes, the `scull_follow` of the read
returns that node and allocates nothing whatever the budget, and every
`scull_read` returns and leaves the whole device (chain, quanta, size,
`quantum`, `qset`) unchanged. -/
theorem reads_keep_store (g : scull_globals) (ops : List scull_op) (dev : scull_dev)
    (hgeo : g.scull_quantum * g.scull_qset < 2 ^ 31)
    (hrange : ∀ op ∈ ops, op_in_range g op = true)
    (hrun : run g ops (scull_init g) = some dev) :
    dev.size ≤ dev.data.length * (dev.quantum * dev.qset) ∧
    (∀ f_pos, f_pos < dev.size →
      f_pos / (dev.quantum * dev.qset) < dev.data.length ∧
      locate dev.quantum dev.qset f_pos =
        some (((f_pos / (dev.quantum * dev.qset) : Nat) : Int),
          f_pos % (dev.quantum * dev.qset) / dev.quantum,
          f_pos % (dev.quantum * dev.qset) % dev.quantum) ∧
      ∀ mem, scull_follow (down dev) ((f_pos / (dev.quantum * dev.qset) : Nat) : Int) mem =
        some ⟨down dev, some (f_pos / (dev.quantum * dev.qset)), mem⟩) ∧
    (∀ (env : kernel_env) (room count f_pos : Nat),
      ∃ r, scull_read dev env room count f_pos = some r ∧ r.dev = dev) := by
  have hinv := run_induct g
    (fun dev => dev.quantum = g.scull_quantum ∧ dev.qset = g.scull_qset ∧
      dev.size ≤ dev.data.length * (dev.quantum * dev.qset) ∧ dev.data.length ≤ 2 ^ 31)
    (fun op => op_in_range g op = true)
    (fun dev op dev1 hP hC hop => covered_step g dev op dev1 hgeo hP hC hop)
    ops (scull_init g) dev ⟨rfl, rfl, Nat.zero_le _, Nat.zero_le _⟩ hrange hrun
  obtain ⟨hq, hs, hsize, hlen⟩ := hinv
  have hfit : dev.quantum * dev.qset < 2 ^ 31 := by rw [hq, hs]; exact hgeo
  have hret : ∀ (env : kernel_env) (room count f_pos : Nat),
      ∃ r, scull_read dev env room count f_pos = some r := by
    intro env room count f_pos
    by_cases hz : dev.quantum * dev.qset = 0
    · cases hsig : env.signal with
      | true =>
        exact ⟨⟨-ERESTARTSYS, dev, f_pos, []⟩, by simp [scull_read, hsig]⟩
      | false =>
        refine ⟨_, scull_read_eof dev env room count f_pos hsig ?_⟩
        rw [hz] at hsize
        omega
    · exact scull_read_returns env room count f_pos
        (run_well_formed g ops (scull_init g) dev rfl hrun)
        (by rw [to_int_of_lt hfit]; exact_mod_cast hz)
  refine ⟨hsize, fun f_pos hlt => ?_, fun env room count f_pos => ?_⟩
  swap
  · obtain ⟨r, hr⟩ := hret env room count f_pos
    exact ⟨r, hr, scull_read_in_chain hr hfit hsize hlen⟩
  have hdiv : f_pos / (dev.quantum * dev.qset) < dev.data.length := by
    apply Nat.div_lt_of_lt_mul
    rw [Nat.mul_comm]
    omega
  have h0 : dev.quantum * dev.qset ≠ 0 := by
    intro hz
    rw [hz] at hsize
    omega
  refine ⟨hdiv, ?_, fun mem => ?_⟩
  · rw [locate_some f_pos h0 hfit, to_int_of_lt (by omega)]
  · rw [scull_follow_eq]
    have hneed : follow_need (down dev) (f_pos / (dev.quantum * dev.qset)) = 0 := by
      simp only [follow_need, down]; omega
    rw [hneed]
    simp

/-- C20, witness: the state after the write of the bytes 1, 2, 3 at position
0 on a fresh device with `quantum = 8`, `qset = 2`: size 3 is covered by the
one node, and the read of 8 bytes at position 0 leaves the device as it
is. -/
theorem reads_keep_store_witness :
    dev_three.size ≤ dev_three.data.length * (dev_three.quantum * dev_three.qset) ∧
    scull_read dev_three ⟨false, 0⟩ 8 8 0 =
      some ⟨3, dev_three, 3, [some 1, some 2, some 3]⟩ ∧
    (∃ r, scull_read dev_three ⟨false, 0⟩ 8 8 0 = some r ∧ r.dev = dev_three) :=
  have h := reads_keep_store ⟨8, 2⟩ [.do_write ⟨false, 3⟩ [1, 2, 3] 3 0] dev_three
    (by decide) (by decide) (by decide)
  ⟨h.1, by decide, h.2.2 ⟨false, 0⟩ 8 8 0⟩

/-- C20, counterexample to the claim as stated: with `quantum = qset = 1`, the
write of one byte at position `2^32` on a fresh device computes `item = 0`
(the node index `2^32` does not fit an `int`), so the state it leaves has size
`2^32 + 1` and a chain of one node; the read at position 1, which is below the
size, then has `scull_follow` allocate node 1 and leaves it in the chain.  And
with `quantum = 65537`, `qset = 65536`, where `itemsize` wraps to 65536, two
bytes written at position 65535 of a fresh device (node index 0) leave size
65537 and one node; the read at position 65536 then computes `item = 1` and
leaves a chain of two nodes. -/
theorem read_grows_reachable :
    run ⟨1, 1⟩ [.do_write ⟨false, 3⟩ [2] 1 (2 ^ 32)] (scull_init ⟨1, 1⟩) =
      some { scull_init ⟨1, 1⟩ with data := [⟨some [some [some 2]]⟩], size := 2 ^ 32 + 1 } ∧
    ¬ (2 ^ 32 + 1 ≤ [(⟨some [some [some 2]]⟩ : scull_qset)].length * (1 * 1)) ∧
    scull_read { scull_init ⟨1, 1⟩ with data := [⟨some [some [some 2]]⟩], size := 2 ^ 32 + 1 }
        ⟨false, 1⟩ 1 1 1 =
      some ⟨0, { scull_init ⟨1, 1⟩ with
        data := [⟨some [some [some 2]]⟩, ⟨none⟩], size := 2 ^ 32 + 1 }, 1, []⟩ ∧
    65535 / (65537 * 65536) = 0 ∧
    (∃ dev, run ⟨65537, 65536⟩ [.do_write ⟨false, 3⟩ [1, 2] 2 65535] (scull_init ⟨65537, 65536⟩)
        = some dev ∧
      dev.size = 65537 ∧ dev.data.length = 1 ∧
      ∃ r, scull_read dev ⟨false, 1⟩ 1 1 65536 = some r ∧ r.retval = 0 ∧
        r.dev.data.length = 2) := by
  refine ⟨by decide, by decide, by decide, by decide, ?_⟩
  obtain ⟨r, hr, _, _, hsize, hlen, _⟩ := @scull_write_success (scull_init ⟨65537, 65536⟩)
    ⟨false, 3⟩ [1, 2] 2 65535 0 0 65535 rfl rfl (by decide) (by decide) (by decide)
  obtain ⟨hq, hs, _⟩ := scull_write_any hr
  have hsz : r.dev.size = 65537 := by rw [hsize]; decide
  have hl : r.dev.data.length = 1 := by rw [hlen]; decide
  have htgt : target r.dev.quantum r.dev.qset 65536 = some (1, 0, 0) := by
    rw [hq, hs]; decide
  have hread := @scull_read_short_chain r.dev ⟨false, 1⟩ 1 1 65536 1 0 0 rfl
    (by rw [hsz]; decide) htgt (by rw [hl])
  refine ⟨r.dev, run_one_write _ _ _ _ _ _ _ hr, hsz, hl, _, hread, rfl, ?_⟩
  simp [hl, follow_need]

end Scull
